import Mathlib

/-!
# pitreos: chunked, content-addressed backup and restore

A shallow embedding of `main.go`: the zero-chunk detector `isEmptyChunk`, the
backup routine `uploadFileToChunks` and the restore routine
`downloadFileFromChunks`, together with the machine arithmetic they use.

Conventions of the embedding.

* A byte is a `Fin 256`; a Go `[]byte` is a `List Byte`.
* `uint64` values are naturals reduced `% 2^64`; `int64` values are integers
  wrapped into `[-2^63, 2^63)`.
* `float64` values that are integers are carried as integers after rounding to
  53 significant bits (round to nearest, ties to even); the one quotient the
  program takes is rounded the same way before `math.Ceil` is applied.
* A conversion whose result Go leaves to the implementation (a negative,
  infinite or NaN float converted to `uint64`) stops the run with
  `Abort.unspecified`.
* `log.Fatal`, `os.Exit(1)` and runtime panics end the run with an `Abort`.
* One `Read` of a file transfers at most `2^30` bytes, and `make` panics for a
  length above `2^48`, as the Go library and runtime have it on 64-bit
  platforms.
* Pool tasks are atomic; the order in which submitted tasks complete is chosen
  by a schedule supplied by the environment, so every statement holds for every
  completion order.
-/

namespace Pitreos

/-! ## Machine arithmetic -/

abbrev Byte := Fin 256

/-- Reduction of a natural number to `uint64`. -/
def u64 (n : Nat) : Nat := n % 2 ^ 64

/-- Conversion `int64(x)` of a `uint64` value: the same 64 bits read as two's complement. -/
def int64OfU64 (n : Nat) : Int :=
  if n < 2 ^ 63 then (n : Int) else (n : Int) - 2 ^ 64

/-- Wraparound of an integer result into the `int64` range. -/
def wrapI64 (z : Int) : Int := (z + 2 ^ 63) % 2 ^ 64 - 2 ^ 63

/-- Rounding to nearest (ties to even) of the quotient `num / den`, `0 < den`. -/
def roundQuot (num den : Nat) : Nat :=
  let q := num / den
  let r := num % den
  if den < 2 * r ∨ (2 * r = den ∧ q % 2 = 1) then q + 1 else q

/-- Rounding of a natural number to the nearest `float64` (ties to even):
numbers below `2^53` are exact, larger ones (below `2^65`) keep 53 significant
bits. -/
def roundF64 (n : Nat) : Nat :=
  if n < 2 ^ 53 then n
  else
    match (List.range 13).find? (fun e => n < 2 ^ 53 * 2 ^ e) with
    | some e => roundQuot n (2 ^ e) * 2 ^ e
    | none => n

/-- Conversion `float64(x)` of an `int64` value, as an integer-valued float. -/
def float64OfInt (z : Int) : Int :=
  if 0 ≤ z then (roundF64 z.toNat : Int) else -(roundF64 (-z).toNat : Int)

/-- The integer `math.Ceil(a / b)` for two positive integer-valued floats `a`, `b`
below `2^65`: the quotient is first rounded to a 53-bit significand `m` at the
binary exponent that puts `m` in `[2^52, 2^53]`, then rounded up to an integer. -/
def ceilQuotF64 (a b : Nat) : Nat :=
  if 2 ^ 53 * b ≤ a then
    -- quotient at least 2^53: the rounded quotient `m * 2^e` is an integer
    match (List.range 14).find? (fun e => a < 2 ^ 53 * b * 2 ^ e) with
    | some e => roundQuot a (b * 2 ^ e) * 2 ^ e
    | none => 0
  else
    -- quotient below 2^53: the rounded quotient is `m / 2^k`
    match (List.range 120).find? (fun k => 2 ^ 52 * b ≤ a * 2 ^ k) with
    | some k => (roundQuot (a * 2 ^ k) b + 2 ^ k - 1) / 2 ^ k
    | none => 0

/-- The value `uint64(math.Ceil(float64(fileSize) / float64(chunkSize)))` for a
non-negative `fileSize`. Division by zero gives an infinity or a NaN, whose
conversion to `uint64` Go does not specify: `none`. -/
def partsNum (fileSize : Int) (chunkSize : Nat) : Option Nat :=
  let a := roundF64 fileSize.toNat
  let b := roundF64 chunkSize
  if b = 0 then none
  else if a = 0 then some 0
  else
    let c := ceilQuotF64 a b
    if c < 2 ^ 64 then some c else none

/-- Subtraction `a - b` of two `uint64` values. -/
def u64Sub (a b : Nat) : Nat := (a + (2 ^ 64 - b % 2 ^ 64)) % 2 ^ 64

/-- Conversion `uint64(x)` of an integer-valued float; unspecified for a
negative or too large value. -/
def u64OfFloat (z : Int) : Option Nat :=
  if 0 ≤ z ∧ z < 2 ^ 64 then some z.toNat else none

/-! ## Content addressing -/

/-- The zero-chunk detector of `main.go`: the loop returns `false` at the
first non-zero byte and `true` when it runs off the end. -/
def isEmptyChunk : List Byte → Bool
  | [] => true
  | v :: s => if v != 0 then false else isEmptyChunk s

/-- Rotation of a 32-bit word to the left. -/
def rotl32 (x n : Nat) : Nat := ((x <<< n) ||| (x >>> (32 - n))) % 2 ^ 32

/-- The padding of SHA-1: a one bit, zero bits up to 56 modulo 64 bytes, and the
length in bits as a 64-bit big-endian number. -/
def sha1Pad (msg : List Byte) : List Nat :=
  let l := msg.length
  let body := msg.map (fun b => b.val) ++ [128]
  let z := (119 - l % 64) % 64
  body ++ List.replicate z 0 ++ (List.range 8).map (fun i => (l * 8) >>> (8 * (7 - i)) % 256)

/-- The words of a block, big-endian. -/
def sha1Words : List Nat → List Nat
  | a :: b :: c :: d :: rest => (a * 16777216 + b * 65536 + c * 256 + d) :: sha1Words rest
  | _ => []

/-- The message schedule, most recent word first. -/
def sha1Expand : Nat → List Nat → List Nat
  | 0, w => w
  | n + 1, w =>
    sha1Expand n (rotl32 (w.getD 2 0 ^^^ w.getD 7 0 ^^^ w.getD 13 0 ^^^ w.getD 15 0) 1 :: w)

/-- The five chaining words of SHA-1. -/
structure Sha1State where
  a : Nat
  b : Nat
  c : Nat
  d : Nat
  e : Nat

/-- One round of the compression function. -/
def sha1Round (t : Nat) (s : Sha1State) (w : Nat) : Sha1State :=
  let f := if t < 20 then (s.b &&& s.c) ||| ((s.b ^^^ 4294967295) &&& s.d)
    else if t < 40 then s.b ^^^ s.c ^^^ s.d
    else if t < 60 then (s.b &&& s.c) ||| (s.b &&& s.d) ||| (s.c &&& s.d)
    else s.b ^^^ s.c ^^^ s.d
  let k := if t < 20 then 1518500249 else if t < 40 then 1859775393
    else if t < 60 then 2400959708 else 3395469782
  { a := (rotl32 s.a 5 + f + s.e + k + w) % 2 ^ 32, b := s.a, c := rotl32 s.b 30, d := s.c, e := s.d }

/-- The eighty rounds, from round `t` on. -/
def sha1Rounds : Nat → List Nat → Sha1State → Sha1State
  | _, [], s => s
  | t, w :: ws, s => sha1Rounds (t + 1) ws (sha1Round t s w)

/-- The compression of one 64-byte block. -/
def sha1Block (h : Sha1State) (block : List Nat) : Sha1State :=
  let w := (sha1Expand 64 (sha1Words block).reverse).reverse
  let s := sha1Rounds 0 w h
  { a := (h.a + s.a) % 2 ^ 32, b := (h.b + s.b) % 2 ^ 32, c := (h.c + s.c) % 2 ^ 32,
    d := (h.d + s.d) % 2 ^ 32, e := (h.e + s.e) % 2 ^ 32 }

/-- The compression of `n` consecutive blocks. -/
def sha1Blocks : Nat → List Nat → Sha1State → Sha1State
  | 0, _, h => h
  | n + 1, bytes, h => sha1Blocks n (bytes.drop 64) (sha1Block h (bytes.take 64))

/-- The four bytes of a 32-bit word, big-endian. -/
def wordBytes (x : Nat) : List Byte :=
  [Fin.ofNat (x >>> 24), Fin.ofNat (x >>> 16), Fin.ofNat (x >>> 8), Fin.ofNat x]

/-- The function `sha1.Sum` of `crypto/sha1`. -/
def sha1Sum (msg : List Byte) : List Byte :=
  let p := sha1Pad msg
  let h := sha1Blocks (p.length / 64) p
    { a := 1732584193, b := 4023233417, c := 2562383102, d := 271733878, e := 3285377520 }
  wordBytes h.a ++ wordBytes h.b ++ wordBytes h.c ++ wordBytes h.d ++ wordBytes h.e

/-- One lowercase hexadecimal digit. -/
def hexDigit (n : Nat) : Char :=
  if n < 10 then Char.ofNat (48 + n) else Char.ofNat (87 + n)

/-- The verb `%x` applied to a byte array: two lowercase digits per byte. -/
def hexOfBytes (bs : List Byte) : String :=
  String.mk (bs.flatMap fun b => [hexDigit (b.val / 16), hexDigit (b.val % 16)])


/-! ## Manifest model -/

/-- Modelled from the spec: the declaration of `Chunkmeta` is not in `main.go`.
The fields are those `main.go` assigns and reads: `Start` and `End` are
`uint64` (they receive `i * ChunkSize`), `Content` is the hex digest (empty
for a zero chunk) and `IsEmpty` the zero-chunk flag. -/
structure Chunkmeta where
  Start : Nat
  End : Nat
  Content : String
  IsEmpty : Bool
deriving DecidableEq, Repr

/-- Modelled from the spec: the declaration of `Filemeta` is not in `main.go`.
`TotalSize` is an `int64` (it receives `fileInfo.Size()` and is passed to
`Truncate`). -/
structure Filemeta where
  FileName : String
  TotalSize : Int
  BlobsLocation : String
  Chunks : List Chunkmeta
deriving DecidableEq, Repr

deriving instance DecidableEq for Except

/-- How a run ends when it does not return normally. -/
inductive Abort
  /-- The call `log.Fatal` or `log.Fatalf`. -/
  | fatal
  /-- The call `os.Exit(1)` after `eg.Wait()` returned an error. -/
  | exit1
  /-- A runtime panic (`makeslice: len out of range`). -/
  | panic
  /-- A conversion whose result Go leaves to the implementation. -/
  | unspecified
deriving DecidableEq, Repr

abbrev Err := String

/-! ## Blob store -/

/-- A call made to the blob store. -/
inductive StoreCall
  | exist (key : String)
  | read (key : String)
  | write (key : String) (data : List Byte)
deriving DecidableEq, Repr

/-- The bucket: the objects it holds and the calls made to it so far. -/
structure Bucket where
  objects : List (String × List Byte)
  calls : List StoreCall
deriving DecidableEq, Repr

/-- The environment of a run: the order in which the pool completes submitted
tasks, and which store transfers fail. -/
structure Env where
  /-- The positions, in the list of pending tasks, of the tasks that complete
  before loop iteration `i`; position `n`, the number of iterations, is the
  point at which `Wait` is called. -/
  sched : Nat → List Nat
  /-- Whether the transfer issued as store call number `n` fails. -/
  fault : Nat → Bool

/-- Modelled from the spec: `checkFileExistsOnGoogleStorage` is not in `main.go`.
The collaborator `exists(key) → bool` tells whether the bucket holds the key. -/
def checkFileExistsOnGoogleStorage (b : Bucket) (fileName : String) : Bool × Bucket :=
  (b.objects.any (fun o => o.1 == fileName),
   { b with calls := b.calls ++ [StoreCall.exist fileName] })

/-- Modelled from the spec: `writeToGoogleStorage` is not in `main.go`.
The collaborator `write(key, bytes) → locator | Error` stores the bytes under
the key, or fails and stores nothing. -/
def writeToGoogleStorage (env : Env) (b : Bucket) (fileName : String) (data : List Byte) :
    Option Err × Bucket :=
  if env.fault b.calls.length then
    (some "write failed", { b with calls := b.calls ++ [StoreCall.write fileName data] })
  else
    (none, { objects := (fileName, data) :: b.objects,
             calls := b.calls ++ [StoreCall.write fileName data] })

/-- Modelled from the spec: `readFromGoogleStorage` is not in `main.go`.
The collaborator `read(key) → bytes | Error` returns the bytes stored under the
key, or fails (the transfer fails, or the bucket does not hold the key). -/
def readFromGoogleStorage (env : Env) (b : Bucket) (blobPath : String) :
    Except Err (List Byte) × Bucket :=
  let b1 : Bucket := { b with calls := b.calls ++ [StoreCall.read blobPath] }
  if env.fault b.calls.length then (.error "read failed", b1)
  else
    match b.objects.find? (fun o => o.1 == blobPath) with
    | some o => (.ok o.2, b1)
    | none => (.error "object not found", b1)

/-! ## Bounded task pool -/

/-- Modelled from the spec: the pool `llerrgroup.Group` is a library that is
not in `main.go`. Tasks submitted with `Go` wait in `pending` until they
complete; `err` is the first error a completed task returned, and `Stop`
reports whether there is one. `submitted` and `finished` record the history of
the pool. -/
structure Group (τ : Type) where
  pending : List τ
  err : Option Err
  submitted : List τ
  finished : List (τ × Option Err)

namespace Group

variable {τ σ : Type}

/-- The pool `llerrgroup.New(n)`. -/
def New : Group τ := { pending := [], err := none, submitted := [], finished := [] }

/-- The call `eg.Go(task)`. -/
def Go (g : Group τ) (t : τ) : Group τ :=
  { g with pending := g.pending ++ [t], submitted := g.submitted ++ [t] }

/-- The call `eg.Stop()`. -/
def Stop (g : Group τ) : Bool := g.err.isSome

/-- The pool after the pending task `t` at position `k` completed with result `e`:
the error is recorded unless an earlier one already is. -/
def finish (g : Group τ) (k : Nat) (t : τ) (e : Option Err) : Group τ :=
  { g with pending := g.pending.eraseIdx k,
           err := if g.err.isSome then g.err else e,
           finished := g.finished ++ [(t, e)] }

/-- Completion of the pending task at position `k` (nothing happens when there
is no such task): the task runs on the shared state `w`. -/
def complete (run : τ → σ → Option Err × σ) (k : Nat) (g : Group τ) (w : σ) : Group τ × σ :=
  match g.pending[k]? with
  | none => (g, w)
  | some t => (g.finish k t (run t w).1, (run t w).2)

/-- Completion of the pending tasks at the given positions, one after another. -/
def completeAll (run : τ → σ → Option Err × σ) : List Nat → Group τ → σ → Group τ × σ
  | [], g, w => (g, w)
  | k :: ks, g, w => completeAll run ks (complete run k g w).1 (complete run k g w).2

/-- The call `eg.Wait()`: every task still pending completes, then the first
recorded error is returned. -/
def Wait (run : τ → σ → Option Err × σ) (g : Group τ) (w : σ) : Option Err × Group τ × σ :=
  let r := completeAll run (List.replicate g.pending.length 0) g w
  (r.1.err, r.1, r.2)

end Group

/-! ## Files -/

/-- The most bytes a single `Read` of an `os.File` transfers: the Go library
cuts the buffer of one call to `maxRW = 1 << 30` bytes (`internal/poll`). -/
def maxRW : Nat := 1 <<< 30

/-- The largest size `make` accepts on a 64-bit platform (`maxAlloc`, 48 address
bits): above it the runtime panics with `makeslice: len out of range`. -/
def maxAlloc : Nat := 1 <<< 48

/-- An open file: its bytes and the offset of the handle. A read of a regular
file transfers what was asked for and the file can give, up to `maxRW` bytes in
one call; a write transfers everything. -/
structure File where
  data : List Byte
  pos : Nat
deriving DecidableEq, Repr

namespace File

/-- The call `f.Seek(off, 0)`; a negative offset is refused and the handle stays
where it is (the program ignores the error). -/
def Seek (f : File) (off : Int) : File :=
  if off < 0 then f else { f with pos := off.toNat }

/-- The call `f.Read(buf)` on a zeroed buffer of `n` bytes: the buffer after the
call, the number of bytes read, whether the call reported end of file, and the
file. One call transfers at most `maxRW` bytes; the rest of a longer buffer
stays zero. -/
def Read (f : File) (n : Nat) : List Byte × Nat × Bool × File :=
  let got := (f.data.drop f.pos).take (min n maxRW)
  (got ++ List.replicate (n - got.length) 0, got.length,
   decide (0 < n ∧ got.length = 0), { f with pos := f.pos + got.length })

/-- The call `f.Write(p)`: the bytes go in at the handle's offset, a gap past the
end of the file reads as zero. -/
def Write (f : File) (p : List Byte) : File :=
  if p = [] then f
  else
    { data := (f.data ++ List.replicate (f.pos - f.data.length) 0).take f.pos ++ p
                ++ f.data.drop (f.pos + p.length),
      pos := f.pos + p.length }

/-- The call `f.Truncate(size)`: `none` when it reports an error (negative size). -/
def Truncate (f : File) (size : Int) : Option File :=
  if size < 0 then none
  else some { f with data := f.data.take size.toNat
                        ++ List.replicate (size.toNat - f.data.length) 0 }

end File

/-! ## Backup -/

/-- The global `ChunkSize = uint64(250 * (1 << 20))`. -/
def ChunkSize : Nat := 250 * (1 <<< 20)

/-- The closure submitted to the pool by `uploadFileToChunks`: the blob name and
the bytes of the part. -/
structure UploadTask where
  fileName : String
  partBuffer : List Byte
deriving DecidableEq, Repr

/-- The body of the closure of `uploadFileToChunks`: an object that exists is
left alone, otherwise it is written and the write's error is the task's. -/
def runUploadTask (env : Env) (t : UploadTask) (b : Bucket) : Option Err × Bucket :=
  let r := checkFileExistsOnGoogleStorage b t.fileName
  if r.1 then (none, r.2) else writeToGoogleStorage env r.2 t.fileName t.partBuffer

/-- The state of `uploadFileToChunks` inside its loop. -/
structure UploadState where
  file : File
  fm : Filemeta
  eg : Group UploadTask
  bucket : Bucket

/-- The value `partSize` of iteration `i`:
`uint64(math.Min(float64(ChunkSize), float64(fileSize-int64(i*ChunkSize))))`. -/
def partSizeAt (fileSize : Int) (i : Nat) : Option Nat :=
  u64OfFloat (min ((roundF64 ChunkSize : Nat) : Int)
    (float64OfInt (wrapI64 (fileSize - int64OfU64 (u64 (i * ChunkSize))))))

/-- Iteration `i` of the loop of `uploadFileToChunks`, after the completions the
schedule places before it. -/
def uploadPart (env : Env) (fileSize : Int) (i : Nat) (st : UploadState) :
    UploadState × Option Abort :=
  let r := st.eg.completeAll (runUploadTask env) (env.sched i) st.bucket
  let st1 : UploadState := { st with eg := r.1, bucket := r.2 }
  match partSizeAt fileSize i with
  | none => (st1, some Abort.unspecified)
  | some partSize =>
    let start := u64 (i * ChunkSize)
    let stop := u64Sub (u64 (start + partSize)) 1
    let rd := st1.file.Read partSize
    let partBuffer := rd.1
    if isEmptyChunk partBuffer then
      ({ st1 with file := rd.2.2.2,
                  fm := { st1.fm with Chunks := st1.fm.Chunks ++
                    [{ Start := start, End := stop, Content := "", IsEmpty := true }] } }, none)
    else
      let content := hexOfBytes (sha1Sum partBuffer)
      let fileName := content ++ ".blob"
      if st1.eg.Stop then
        ({ st1 with file := rd.2.2.2 }, none)
      else
        ({ st1 with file := rd.2.2.2,
                    eg := st1.eg.Go { fileName := fileName, partBuffer := partBuffer },
                    fm := { st1.fm with Chunks := st1.fm.Chunks ++
                      [{ Start := start, End := stop, Content := content, IsEmpty := false }] } },
         none)

/-- The loop `for i := uint64(0); i < totalPartsNum; i++`: `n` iterations are
left, the next one is iteration `i`. -/
def uploadLoop (env : Env) (fileSize : Int) : Nat → Nat → UploadState → UploadState × Option Abort
  | 0, _, st => (st, none)
  | n + 1, i, st =>
    match uploadPart env fileSize i st with
    | (st1, some a) => (st1, some a)
    | (st1, none) => uploadLoop env fileSize n (i + 1) st1

/-- What a run of `uploadFileToChunks` leaves: the manifest it prints or the way
it ended, the bucket, and the pool. -/
structure UploadOutcome where
  result : Except Abort Filemeta
  bucket : Bucket
  eg : Group UploadTask

/-- The function `uploadFileToChunks(fileName, chunkSize)`. `file` is the content
of the file named `fileName`, `none` when it cannot be opened. -/
def uploadFileToChunks (env : Env) (file : Option (List Byte)) (bucket : Bucket)
    (fileName : String) (chunkSize : Nat) : UploadOutcome :=
  match file with
  | none => { result := .error Abort.fatal, bucket := bucket, eg := Group.New }
  | some data =>
    let fileSize : Int := data.length
    let fm : Filemeta :=
      { FileName := fileName, TotalSize := fileSize, BlobsLocation := "/here", Chunks := [] }
    match partsNum fileSize chunkSize with
    | none => { result := .error Abort.unspecified, bucket := bucket, eg := Group.New }
    | some totalPartsNum =>
      let st0 : UploadState :=
        { file := { data := data, pos := 0 }, fm := fm, eg := Group.New, bucket := bucket }
      match uploadLoop env fileSize totalPartsNum 0 st0 with
      | (st, some a) => { result := .error a, bucket := st.bucket, eg := st.eg }
      | (st, none) =>
        let r := st.eg.completeAll (runUploadTask env) (env.sched totalPartsNum) st.bucket
        let w := r.1.Wait (runUploadTask env) r.2
        match w.1 with
        | some _ => { result := .error Abort.exit1, bucket := w.2.2, eg := w.2.1 }
        | none => { result := .ok st.fm, bucket := w.2.2, eg := w.2.1 }

/-! ## Restore -/

/-- The closure submitted to the pool by `downloadFileFromChunks`. -/
structure DownloadTask where
  blobPath : String
  blobStart : Int
deriving DecidableEq, Repr

/-- The body of the closure of `downloadFileFromChunks`: the blob is fetched; a
failed fetch is the task's error, a fetched blob is written at `blobStart`. -/
def runDownloadTask (env : Env) (t : DownloadTask) (w : File × Bucket) :
    Option Err × (File × Bucket) :=
  match readFromGoogleStorage env w.2 t.blobPath with
  | (.error e, b1) => (some e, (w.1, b1))
  | (.ok newData, b1) => (none, ((w.1.Seek t.blobStart).Write newData, b1))

/-- The state of `downloadFileFromChunks` inside its loop. -/
structure DownloadState where
  f : File
  eg : Group DownloadTask
  bucket : Bucket

/-- The iteration of the loop of `downloadFileFromChunks` for chunk `c`, the
`j`-th of the manifest, after the completions the schedule places before it.
`make` panics for a negative length and for one above `maxAlloc`; an
allocation within the limit is taken to succeed. -/
def downloadChunk (env : Env) (j : Nat) (c : Chunkmeta) (st : DownloadState) :
    DownloadState × Option Abort :=
  let r := st.eg.completeAll (runDownloadTask env) (env.sched j) (st.f, st.bucket)
  let st1 : DownloadState := { f := r.2.1, eg := r.1, bucket := r.2.2 }
  let f1 := st1.f.Seek (int64OfU64 c.Start)
  let len := int64OfU64 (u64 (u64Sub c.End c.Start + 1))
  if len < 0 ∨ (maxAlloc : Int) < len then (st1, some Abort.panic)
  else
    let rd := f1.Read len.toNat
    let partBuffer := rd.1
    if rd.2.2.1 then ({ st1 with f := rd.2.2.2 }, some Abort.fatal)
    else if isEmptyChunk partBuffer then
      if c.IsEmpty then ({ st1 with f := rd.2.2.2 }, none)
      else
        ({ st1 with f := rd.2.2.2,
                    eg := st1.eg.Go { blobPath := c.Content ++ ".blob",
                                      blobStart := int64OfU64 c.Start } }, none)
    else
      let shasum := hexOfBytes (sha1Sum partBuffer)
      if shasum = c.Content then
        -- the digests agree
        ({ st1 with f := rd.2.2.2 }, none)
      else
        -- the discrepancy is printed; nothing is fetched or written
        ({ st1 with f := rd.2.2.2 }, none)

/-- The loop `for _, i := range fm.Chunks`, the next chunk being the `j`-th. -/
def downloadLoop (env : Env) : List Chunkmeta → Nat → DownloadState → DownloadState × Option Abort
  | [], _, st => (st, none)
  | c :: cs, j, st =>
    match downloadChunk env j c st with
    | (st1, some a) => (st1, some a)
    | (st1, none) => downloadLoop env cs (j + 1) st1

/-- What a run of `downloadFileFromChunks` leaves: how it ended (`none` for a
normal return), the destination file, the bucket, and the pool. -/
structure DownloadOutcome where
  abort : Option Abort
  f : File
  bucket : Bucket
  eg : Group DownloadTask

/-- The function `downloadFileFromChunks(fm)`. `dest` is the content of the
file named `fm.FileName`, `none` when it cannot be opened. -/
def downloadFileFromChunks (env : Env) (dest : Option (List Byte)) (bucket : Bucket)
    (fm : Filemeta) : DownloadOutcome :=
  match dest with
  | none =>
    -- `f` is nil: `f.Truncate` reports an error and `log.Fatal` ends the run
    { abort := some Abort.fatal, f := { data := [], pos := 0 }, bucket := bucket, eg := Group.New }
  | some data =>
    match File.Truncate { data := data, pos := 0 } fm.TotalSize with
    | none =>
      { abort := some Abort.fatal, f := { data := data, pos := 0 }, bucket := bucket,
        eg := Group.New }
    | some f0 =>
      match downloadLoop env fm.Chunks 0 { f := f0, eg := Group.New, bucket := bucket } with
      | (st, some a) => { abort := some a, f := st.f, bucket := st.bucket, eg := st.eg }
      | (st, none) =>
        let r := st.eg.completeAll (runDownloadTask env) (env.sched fm.Chunks.length)
          (st.f, st.bucket)
        let w := r.1.Wait (runDownloadTask env) r.2
        match w.1 with
        | some _ => { abort := some Abort.exit1, f := w.2.2.1, bucket := w.2.2.2, eg := w.2.1 }
        | none => { abort := none, f := w.2.2.1, bucket := w.2.2.2, eg := w.2.1 }

/-! ## Descriptions used in the statements -/

/-- The bytes of part `i` of a file: at most `ChunkSize` bytes from offset
`i * ChunkSize`. -/
def chunkBytes (data : List Byte) (i : Nat) : List Byte :=
  (data.drop (i * ChunkSize)).take ChunkSize

/-- The descriptor of part `i` of a file. -/
def chunkAt (data : List Byte) (i : Nat) : Chunkmeta :=
  { Start := i * ChunkSize,
    End := i * ChunkSize + (chunkBytes data i).length - 1,
    Content := if isEmptyChunk (chunkBytes data i) then ""
               else hexOfBytes (sha1Sum (chunkBytes data i)),
    IsEmpty := isEmptyChunk (chunkBytes data i) }

/-- The task of part `i` of a file, when the part holds a non-zero byte. -/
def taskAt (data : List Byte) (i : Nat) : Option UploadTask :=
  if isEmptyChunk (chunkBytes data i) then none
  else some { fileName := hexOfBytes (sha1Sum (chunkBytes data i)) ++ ".blob",
              partBuffer := chunkBytes data i }

/-- The bytes of a file in the inclusive range of a descriptor. -/
def chunkRegion (data : List Byte) (c : Chunkmeta) : List Byte :=
  (data.drop c.Start).take (c.End + 1 - c.Start)

/-- Whether a store call is a `write` to the given key. -/
def StoreCall.isWriteTo (key : String) : StoreCall → Bool
  | StoreCall.write k _ => k == key
  | _ => false

/-- Whether a store call is an `exists` on the given key. -/
def StoreCall.isExistOn (key : String) : StoreCall → Bool
  | StoreCall.exist k => k == key
  | _ => false

/-- An environment in which tasks complete only at `Wait` and no transfer fails. -/
def quietEnv : Env := { sched := fun _ => [], fault := fun _ => false }

/-- A bucket that holds nothing and has received no call. -/
def emptyBucket : Bucket := { objects := [], calls := [] }

/-- A bucket that already holds the blob of the three bytes `1, 2, 3`. -/
def prefilledBucket : Bucket :=
  { objects := [("7037807198c22a7d2b0807371d763779a84fdfcf.blob", [1, 2, 3])], calls := [] }

/-- An environment in which every transfer fails. -/
def failingEnv : Env := { sched := fun _ => [], fault := fun _ => true }

/-- The manifest of the file of the three bytes `1, 2, 3`. -/
def smallManifest : Filemeta :=
  { FileName := "file.img", TotalSize := 3, BlobsLocation := "/here",
    Chunks := [{ Start := 0, End := 2, Content := "7037807198c22a7d2b0807371d763779a84fdfcf",
                 IsEmpty := false }] }

/-- The fetch task of part `i` of a file. -/
def fetchTask (data : List Byte) (i : Nat) : DownloadTask :=
  { blobPath := (chunkAt data i).Content ++ ".blob", blobStart := ((i * ChunkSize : Nat) : Int) }

/-- The state of a restore of the file `data` from its manifest when the first
`j` chunks have been examined: the destination has the size of the file; no
task has failed; the pending tasks are fetch tasks of examined parts that hold
a non-zero byte; a byte of a part not yet examined reads as zero; a byte of an
examined part is restored, or reads as zero while the fetch task of its part
is pending. -/
def RestoreInv (data : List Byte) (j : Nat) (g : Group DownloadTask) (d : List Byte) : Prop :=
  d.length = data.length ∧ g.err = none ∧
  (∀ t ∈ g.pending, ∃ i, i < j ∧ i * ChunkSize < data.length ∧
    isEmptyChunk (chunkBytes data i) = false ∧ t = fetchTask data i) ∧
  ∀ k, k < data.length →
    (j ≤ k / ChunkSize → d[k]? = some 0) ∧
    (k / ChunkSize < j →
      d[k]? = data[k]? ∨ (d[k]? = some 0 ∧ fetchTask data (k / ChunkSize) ∈ g.pending))

/-- Whether the bucket holds an object under the key. -/
def Bucket.has (b : Bucket) (key : String) : Bool :=
  b.objects.any (fun o => o.1 == key)

/-- The store calls for one key `k` during a backup that started from the
bucket `b0`, when no transfer fails: every task for `k` that has completed made
an `exists` call on `k`; one `write` to `k` has been made if `b0` did not hold
`k` and a task for `k` has completed, none otherwise; and the bucket holds `k`
if `b0` did or a task for `k` has completed. -/
def DedupInv (k : String) (b0 : Bucket) (g : Group UploadTask) (b : Bucket) : Prop :=
  b0.calls.countP (StoreCall.isExistOn k)
      + (if g.finished.any (fun p => p.1.fileName == k) then 1 else 0)
    ≤ b.calls.countP (StoreCall.isExistOn k) ∧
  b.calls.countP (StoreCall.isWriteTo k) =
    b0.calls.countP (StoreCall.isWriteTo k) +
      (if b0.has k || !(g.finished.any (fun p => p.1.fileName == k)) then 0 else 1) ∧
  b.has k = (b0.has k || g.finished.any (fun p => p.1.fileName == k))

/-- The history of the pool is consistent: a submitted task is pending or has
completed, and the pending and the completed tasks were submitted. -/
def Group.Consistent {τ : Type} (g : Group τ) : Prop :=
  (∀ t ∈ g.submitted, t ∈ g.pending ∨ ∃ e, (t, e) ∈ g.finished) ∧
  (∀ t ∈ g.pending, t ∈ g.submitted) ∧
  (∀ p ∈ g.finished, p.1 ∈ g.submitted)

/-- The bytes of the destination once `f.Truncate(size)` has sized it: cut at
`size`, or extended with zero bytes up to it. -/
def sizedTo (data : List Byte) (size : Int) : List Byte :=
  data.take size.toNat ++ List.replicate (size.toNat - data.length) 0

/-- Whether the bytes `d` read as all zero in the range of a chunk that is not
flagged empty. -/
def needsFetch (d : List Byte) (c : Chunkmeta) : Bool :=
  isEmptyChunk (chunkRegion d c) && !c.IsEmpty

/-- The task that fetches the blob of a chunk and writes it at the chunk's
offset. -/
def fetchOf (c : Chunkmeta) : DownloadTask :=
  { blobPath := c.Content ++ ".blob", blobStart := (c.Start : Int) }

/-- The bytes the bucket returns for a key, when it holds the key. -/
def Bucket.lookup (b : Bucket) (key : String) : Option (List Byte) :=
  (b.objects.find? (fun o => o.1 == key)).map Prod.snd

/-- What is asked of the ranges of a manifest and of the bucket, for a
destination of `len` bytes: every range lies within the destination and is at
most `maxRW` bytes long, the ranges are pairwise disjoint, and the blob the
bucket holds for a chunk is no longer than the chunk. -/
def RangesOk (len : Nat) (b0 : Bucket) (all : List Chunkmeta) : Prop :=
  len < 2 ^ 63 ∧
  (∀ c ∈ all, c.Start ≤ c.End ∧ c.End < len ∧ c.End + 1 - c.Start ≤ maxRW) ∧
  all.Pairwise (fun a b => a.End < b.Start ∨ b.End < a.Start) ∧
  (∀ c ∈ all, ∀ x, b0.lookup (c.Content ++ ".blob") = some x → x.length ≤ c.End + 1 - c.Start)

/-- The state of a restore into the sized destination `d0` from the bucket `b0`
when the chunks `pre` of the manifest `all` have been examined: the file has
kept its length; the tasks submitted are those of the examined chunks that read
as all zero in `d0` and are not flagged empty, in the order of the manifest;
every submitted task is pending or has completed; the store calls are one
`read` per completed task; the bucket holds what it held; an error is recorded
exactly when a completed task failed; the task completed `i`-th succeeded
exactly when its transfer did not fail and the bucket holds its key; the blob
of a chunk whose task succeeded stands at the offset of the chunk; and a byte
outside the blobs written is the byte of `d0`. -/
def FetchInv (env : Env) (d0 : List Byte) (b0 : Bucket) (all pre : List Chunkmeta)
    (g : Group DownloadTask) (d : List Byte) (b : Bucket) : Prop :=
  d.length = d0.length ∧
  g.submitted = (pre.filter (needsFetch d0)).map fetchOf ∧
  g.submitted.Perm (g.finished.map Prod.fst ++ g.pending) ∧
  b.calls = b0.calls ++ g.finished.map (fun p => StoreCall.read p.1.blobPath) ∧
  b.objects = b0.objects ∧
  (g.err = none ↔ ∀ p ∈ g.finished, p.2 = none) ∧
  (∀ i p, g.finished[i]? = some p →
    (p.2 = none ↔
      env.fault (b0.calls.length + i) = false ∧ (b0.lookup p.1.blobPath).isSome = true)) ∧
  (∀ c ∈ all, (fetchOf c, none) ∈ g.finished →
    ∃ x, b0.lookup (c.Content ++ ".blob") = some x ∧ (d.drop c.Start).take x.length = x) ∧
  (∀ k, (∀ c ∈ all, (fetchOf c, none) ∈ g.finished →
      ∀ x, b0.lookup (c.Content ++ ".blob") = some x → ¬ (c.Start ≤ k ∧ k < c.Start + x.length)) →
    d[k]? = d0[k]?)

/-- A manifest of four chunks over eleven bytes: two chunks with the digest of
`1, 2, 3`, between them a chunk flagged empty and a chunk whose digest is not
that of the bytes the destination holds. -/
def mixedManifest : Filemeta :=
  { FileName := "file.img", TotalSize := 11, BlobsLocation := "/here",
    Chunks := [{ Start := 0, End := 2, Content := "7037807198c22a7d2b0807371d763779a84fdfcf",
                 IsEmpty := false },
               { Start := 3, End := 4, Content := "", IsEmpty := true },
               { Start := 5, End := 7, Content := "7037807198c22a7d2b0807371d763779a84fdfcf",
                 IsEmpty := false },
               { Start := 8, End := 10, Content := "7037807198c22a7d2b0807371d763779a84fdfcf",
                 IsEmpty := false }] }

/-- A destination for `mixedManifest`: zero except for the bytes `9, 9, 9` in the
range of the third chunk. -/
def mixedDest : List Byte := [0, 0, 0, 0, 0, 9, 9, 9, 0, 0, 0]

/-- The manifest of a file of eight bytes: `1, 2, 3`, two zero bytes, `1, 2, 3`. -/
def restoredManifest : Filemeta :=
  { FileName := "file.img", TotalSize := 8, BlobsLocation := "/here",
    Chunks := [{ Start := 0, End := 2, Content := "7037807198c22a7d2b0807371d763779a84fdfcf",
                 IsEmpty := false },
               { Start := 3, End := 4, Content := "", IsEmpty := true },
               { Start := 5, End := 7, Content := "7037807198c22a7d2b0807371d763779a84fdfcf",
                 IsEmpty := false }] }

/-- A manifest over three bytes whose second chunk lies past the end of the file. -/
def overrunManifest : Filemeta :=
  { FileName := "file.img", TotalSize := 3, BlobsLocation := "/here",
    Chunks := [{ Start := 0, End := 2, Content := "7037807198c22a7d2b0807371d763779a84fdfcf",
                 IsEmpty := false },
               { Start := 3, End := 5, Content := "", IsEmpty := true }] }

/-- A manifest over three bytes whose second chunk ends before it starts. -/
def reversedManifest : Filemeta :=
  { FileName := "file.img", TotalSize := 3, BlobsLocation := "/here",
    Chunks := [{ Start := 0, End := 2, Content := "7037807198c22a7d2b0807371d763779a84fdfcf",
                 IsEmpty := false },
               { Start := 2, End := 0, Content := "", IsEmpty := true }] }

/-- A manifest over three bytes whose second chunk covers the first. -/
def overlapManifest : Filemeta :=
  { FileName := "file.img", TotalSize := 3, BlobsLocation := "/here",
    Chunks := [{ Start := 0, End := 0, Content := "", IsEmpty := true },
               { Start := 0, End := 2, Content := "7037807198c22a7d2b0807371d763779a84fdfcf",
                 IsEmpty := false }] }

/-- A manifest over three bytes whose first chunk is one byte long and carries
the key of the three-byte blob `1, 2, 3`. -/
def spillManifest : Filemeta :=
  { FileName := "file.img", TotalSize := 3, BlobsLocation := "/here",
    Chunks := [{ Start := 0, End := 0, Content := "7037807198c22a7d2b0807371d763779a84fdfcf",
                 IsEmpty := false },
               { Start := 1, End := 2, Content := "0a0b0c0d0e0f101112131415161718191a1b1c1d",
                 IsEmpty := false }] }

/-- A manifest of one chunk of `2^30 + 1` bytes, flagged as not empty. -/
def gibChunkManifest : Filemeta :=
  { FileName := "file.img", TotalSize := 1073741825, BlobsLocation := "/here",
    Chunks := [{ Start := 0, End := 1073741824,
                 Content := "7037807198c22a7d2b0807371d763779a84fdfcf", IsEmpty := false }] }

/-- A manifest of one chunk of `2^48 + 1` bytes, flagged as not empty. -/
def hugeChunkManifest : Filemeta :=
  { FileName := "file.img", TotalSize := 281474976710657, BlobsLocation := "/here",
    Chunks := [{ Start := 0, End := 281474976710656,
                 Content := "7037807198c22a7d2b0807371d763779a84fdfcf", IsEmpty := false }] }

/-! ## Machine arithmetic: facts -/

theorem ChunkSize_eq : ChunkSize = 262144000 := by decide

theorem ChunkSize_pos : 0 < ChunkSize := by decide

theorem maxRW_eq : maxRW = 1073741824 := by decide

theorem maxAlloc_eq : maxAlloc = 281474976710656 := by decide

theorem ChunkSize_le_maxRW : ChunkSize ≤ maxRW := by decide

theorem roundQuot_ge (num den : Nat) : num / den ≤ roundQuot num den := by
  unfold roundQuot
  simp only
  split <;> omega

theorem roundF64_of_lt {n : Nat} (h : n < 2 ^ 53) : roundF64 n = n := by
  rw [roundF64, if_pos h]

theorem roundF64_ge {n : Nat} (h : 2 ^ 53 ≤ n) : 2 ^ 41 ≤ roundF64 n := by
  unfold roundF64
  rw [if_neg (by omega)]
  split
  · rename_i e heq
    have hmem := List.mem_of_find?_eq_some heq
    have he : e < 13 := by simpa using hmem
    have h1 : 2 ^ e ≤ 2 ^ 12 := Nat.pow_le_pow_right (by norm_num) (by omega)
    have hpos : 0 < 2 ^ e := Nat.two_pow_pos e
    have h2 : 2 ^ 41 ≤ n / 2 ^ e := by
      rw [Nat.le_div_iff_mul_le hpos]
      calc 2 ^ 41 * 2 ^ e ≤ 2 ^ 41 * 2 ^ 12 := Nat.mul_le_mul_left _ h1
        _ ≤ n := by norm_num at h ⊢; omega
    calc 2 ^ 41 ≤ n / 2 ^ e := h2
      _ ≤ roundQuot n (2 ^ e) := roundQuot_ge _ _
      _ ≤ roundQuot n (2 ^ e) * 2 ^ e := Nat.le_mul_of_pos_right _ hpos
  · omega

theorem roundF64_pos {n : Nat} (h : 0 < n) : 0 < roundF64 n := by
  by_cases h53 : n < 2 ^ 53
  · rw [roundF64_of_lt h53]; exact h
  · have := roundF64_ge (not_lt.mp h53)
    omega

theorem roundF64_ChunkSize : roundF64 ChunkSize = ChunkSize := by decide

/-- The float minimum taken by the loop is the exact minimum. -/
theorem min_round_eq (r : Nat) : min ChunkSize (roundF64 r) = min ChunkSize r := by
  by_cases h53 : r < 2 ^ 53
  · rw [roundF64_of_lt h53]
  · have h1 := roundF64_ge (not_lt.mp h53)
    have h2 : ChunkSize ≤ 2 ^ 41 := by decide
    have h3 : ChunkSize ≤ r := by
      have : (2:Nat) ^ 41 ≤ 2 ^ 53 := by norm_num
      omega
    rw [Nat.min_eq_left (le_trans h2 h1), Nat.min_eq_left h3]

/-- The value `partSize` of an iteration whose offset does not pass the end of
the file by more than one chunk: the exact minimum when the offset lies within
the file, an unspecified conversion when it lies past the end. -/
theorem partSizeAt_eq {len i : Nat} (hlen : len < 2 ^ 63) (hi : i * ChunkSize ≤ len + ChunkSize) :
    partSizeAt (len : Int) i =
      if i * ChunkSize ≤ len then some (min ChunkSize (len - i * ChunkSize)) else none := by
  have hcs : ChunkSize = 262144000 := ChunkSize_eq
  have hu : u64 (i * ChunkSize) = i * ChunkSize := by
    unfold u64
    apply Nat.mod_eq_of_lt
    omega
  unfold partSizeAt
  rw [hu, roundF64_ChunkSize]
  by_cases hle : i * ChunkSize ≤ len
  · rw [if_pos hle]
    have h1 : int64OfU64 (i * ChunkSize) = ((i * ChunkSize : Nat) : Int) := by
      unfold int64OfU64
      rw [if_pos (by omega)]
    have h2 : wrapI64 ((len : Int) - ((i * ChunkSize : Nat) : Int)) = ((len - i * ChunkSize : Nat) : Int) := by
      unfold wrapI64
      omega
    rw [h1, h2]
    unfold float64OfInt
    rw [if_pos (by omega)]
    simp only [Int.toNat_ofNat]
    have h3 : min (ChunkSize : Int) ((roundF64 (len - i * ChunkSize) : Nat) : Int)
        = ((min ChunkSize (len - i * ChunkSize) : Nat) : Int) := by
      rw [← min_round_eq]
      omega
    rw [h3]
    unfold u64OfFloat
    rw [if_pos (by omega), Int.toNat_ofNat]
  · rw [if_neg hle]
    have h2 : wrapI64 ((len : Int) - int64OfU64 (i * ChunkSize)) = (len : Int) - ((i * ChunkSize : Nat) : Int) := by
      unfold wrapI64 int64OfU64
      split <;> omega
    rw [h2]
    unfold float64OfInt
    rw [if_neg (by omega)]
    have hp : 0 < roundF64 (-((len : Int) - ((i * ChunkSize : Nat) : Int))).toNat := by
      apply roundF64_pos
      omega
    unfold u64OfFloat
    rw [if_neg]
    intro hc
    have := hc.1
    omega

/-! ## The pool: facts -/

namespace Group

variable {τ σ : Type} (run : τ → σ → Option Err × σ)

theorem complete_of_nil (k : Nat) (g : Group τ) (w : σ) (h : g.pending = []) :
    complete run k g w = (g, w) := by
  unfold complete
  rw [h]
  rfl

theorem completeAll_of_nil (ks : List Nat) (g : Group τ) (w : σ) (h : g.pending = []) :
    completeAll run ks g w = (g, w) := by
  induction ks with
  | nil => rfl
  | cons k ks ih =>
    rw [completeAll, complete_of_nil run k g w h]
    exact ih

/-- An invariant of single completions is an invariant of `completeAll`. -/
theorem completeAll_inv (P : Group τ → σ → Prop)
    (hstep : ∀ k g w t, g.pending[k]? = some t → P g w → P (g.finish k t (run t w).1) (run t w).2)
    (ks : List Nat) (g : Group τ) (w : σ) (h : P g w) :
    P (completeAll run ks g w).1 (completeAll run ks g w).2 := by
  induction ks generalizing g w with
  | nil => exact h
  | cons k ks ih =>
    rw [completeAll]
    apply ih
    unfold complete
    cases hk : g.pending[k]? with
    | none => exact h
    | some t => exact hstep k g w t hk h

theorem completeAll_pending_length (n : Nat) (g : Group τ) (w : σ) (h : g.pending.length ≤ n) :
    (completeAll run (List.replicate n 0) g w).1.pending = [] := by
  induction n generalizing g w with
  | zero =>
    have : g.pending = [] := List.eq_nil_of_length_eq_zero (by omega)
    simpa [completeAll] using this
  | succ n ih =>
    rw [List.replicate_succ, completeAll]
    apply ih
    unfold complete
    cases hp : g.pending with
    | nil => simp [hp]
    | cons t ts =>
      rw [hp] at h
      simp [finish, hp] at h ⊢
      omega

/-- The call `Wait` leaves no task pending. -/
theorem Wait_pending (g : Group τ) (w : σ) : (Wait run g w).2.1.pending = [] :=
  completeAll_pending_length run _ g w (le_refl _)

theorem Wait_fst (g : Group τ) (w : σ) : (Wait run g w).1 = (Wait run g w).2.1.err := rfl

/-- An invariant of single completions is an invariant of `Wait`. -/
theorem Wait_inv (P : Group τ → σ → Prop)
    (hstep : ∀ k g w t, g.pending[k]? = some t → P g w → P (g.finish k t (run t w).1) (run t w).2)
    (g : Group τ) (w : σ) (h : P g w) :
    P (Wait run g w).2.1 (Wait run g w).2.2 :=
  completeAll_inv run P hstep _ g w h

theorem mem_pending_of_getElem? {g : Group τ} {k : Nat} {t : τ} (h : g.pending[k]? = some t) :
    t ∈ g.pending := by
  rw [List.getElem?_eq_some] at h
  obtain ⟨hk, rfl⟩ := h
  exact List.getElem_mem hk

theorem mem_eraseIdx_or {l : List τ} {k : Nat} {t x : τ} (h : l[k]? = some t) (hx : x ∈ l) :
    x ∈ l.eraseIdx k ∨ x = t := by
  induction l generalizing k with
  | nil => simp at hx
  | cons a l ih =>
    cases k with
    | zero =>
      simp at h
      subst h
      simp at hx ⊢
      tauto
    | succ k =>
      simp at h
      simp at hx ⊢
      rcases hx with rfl | hx
      · left; left; rfl
      · rcases ih h hx with h1 | h1
        · left; right; exact h1
        · right; exact h1

end Group

/-! ## The zero detector -/

theorem isEmptyChunk_eq_true_iff (s : List Byte) : isEmptyChunk s = true ↔ ∀ v ∈ s, v = 0 := by
  induction s with
  | nil => simp [isEmptyChunk]
  | cons v s ih =>
    unfold isEmptyChunk
    by_cases hv : v = 0
    · simp [hv, ih]
    · simp [hv]

theorem isEmptyChunk_eq_false_iff (s : List Byte) : isEmptyChunk s = false ↔ ∃ v ∈ s, v ≠ 0 := by
  rw [← Bool.not_eq_true, isEmptyChunk_eq_true_iff]
  push_neg
  rfl

theorem isEmptyChunk_replicate (n : Nat) : isEmptyChunk (List.replicate n 0) = true := by
  rw [isEmptyChunk_eq_true_iff]
  intro v hv
  exact (List.mem_replicate.mp hv).2

/-- C9. Zero detector: for every byte slice `s`, of any length, `isEmptyChunk s`
is true exactly when every byte of `s` is zero, and false exactly when `s` holds
a non-zero byte; in particular it is true for the empty slice. -/
theorem isEmptyChunk_zero_detector (s : List Byte) :
    (isEmptyChunk s = true ↔ ∀ v ∈ s, v = 0) ∧
    (isEmptyChunk s = false ↔ ∃ v ∈ s, v ≠ 0) ∧
    isEmptyChunk [] = true :=
  ⟨isEmptyChunk_eq_true_iff s, isEmptyChunk_eq_false_iff s, rfl⟩

/-! ## Backup: one iteration -/

theorem chunkBytes_length (data : List Byte) (i : Nat) :
    (chunkBytes data i).length = min ChunkSize (data.length - i * ChunkSize) := by
  simp [chunkBytes]

theorem take_min_chunk (data : List Byte) (i : Nat) :
    (data.drop (i * ChunkSize)).take (min ChunkSize (data.length - i * ChunkSize))
      = chunkBytes data i := by
  unfold chunkBytes
  rcases Nat.le_total ChunkSize (data.length - i * ChunkSize) with h | h
  · rw [Nat.min_eq_left h]
  · rw [Nat.min_eq_right h, List.take_of_length_le (by simp),
      List.take_of_length_le (by simpa using h)]

/-- The read of part `i` from a handle that stands at its offset returns the
bytes of the part and moves the handle past them. -/
theorem Read_part (data : List Byte) (i : Nat) :
    File.Read { data := data, pos := i * ChunkSize }
        (min ChunkSize (data.length - i * ChunkSize))
      = (chunkBytes data i, (chunkBytes data i).length, false,
          { data := data, pos := i * ChunkSize + (chunkBytes data i).length }) := by
  unfold File.Read
  have hmin : min (min ChunkSize (data.length - i * ChunkSize)) maxRW
      = min ChunkSize (data.length - i * ChunkSize) :=
    Nat.min_eq_left (le_trans (Nat.min_le_left _ _) ChunkSize_le_maxRW)
  simp only [hmin, take_min_chunk]
  have hl := chunkBytes_length data i
  rw [hl]
  simp only [Nat.sub_self, List.replicate_zero, List.append_nil]
  congr 2
  simp
  omega

theorem u64_of_lt {n : Nat} (h : n < 2 ^ 64) : u64 n = n := Nat.mod_eq_of_lt h

theorem u64Sub_one {n : Nat} (h0 : 0 < n) (h : n < 2 ^ 64) : u64Sub n 1 = n - 1 := by
  unfold u64Sub
  omega

/-- The state after iteration `i` when the handle stands at offset `i * ChunkSize`
within the file: the descriptor of part `i` is appended and its task submitted,
unless the part holds a non-zero byte and the stop flag is set. -/
theorem uploadPart_eq (env : Env) (data : List Byte) (i : Nat) (st : UploadState)
    (hlen : data.length < 2 ^ 63) (h0 : 0 < data.length) (hi : i * ChunkSize ≤ data.length)
    (hf : st.file = { data := data, pos := i * ChunkSize }) :
    uploadPart env (data.length : Int) i st =
      ({ file := { data := data, pos := i * ChunkSize + (chunkBytes data i).length },
         fm := if isEmptyChunk (chunkBytes data i) = false ∧
                 (st.eg.completeAll (runUploadTask env) (env.sched i) st.bucket).1.Stop = true
               then st.fm
               else { st.fm with Chunks := st.fm.Chunks ++ [chunkAt data i] },
         eg := match taskAt data i with
               | none => (st.eg.completeAll (runUploadTask env) (env.sched i) st.bucket).1
               | some t =>
                 if (st.eg.completeAll (runUploadTask env) (env.sched i) st.bucket).1.Stop = true
                 then (st.eg.completeAll (runUploadTask env) (env.sched i) st.bucket).1
                 else (st.eg.completeAll (runUploadTask env) (env.sched i) st.bucket).1.Go t,
         bucket := (st.eg.completeAll (runUploadTask env) (env.sched i) st.bucket).2 }, none) := by
  have hcs := ChunkSize_eq
  have hps := partSizeAt_eq hlen (i := i) (by omega)
  rw [if_pos hi] at hps
  have hl := chunkBytes_length data i
  have hstart : u64 (i * ChunkSize) = i * ChunkSize := u64_of_lt (by omega)
  have hend : u64Sub (u64 (i * ChunkSize + min ChunkSize (data.length - i * ChunkSize))) 1
      = i * ChunkSize + (chunkBytes data i).length - 1 := by
    rw [u64_of_lt (by omega), u64Sub_one (by omega) (by omega), hl]
  unfold uploadPart
  simp only [hps, hf, Read_part, hstart, hend]
  unfold taskAt chunkAt
  by_cases hz : isEmptyChunk (chunkBytes data i) = true
  · simp [hz]
  · simp only [Bool.not_eq_true] at hz
    simp only [hz, Bool.false_eq_true, if_false, true_and]
    split <;> rfl

/-! ## Backup: the loop -/

theorem pos_after_part (data : List Byte) (i : Nat) (hi : i * ChunkSize ≤ data.length) :
    i * ChunkSize + (chunkBytes data i).length = min ((i + 1) * ChunkSize) data.length := by
  rw [chunkBytes_length]
  have : (i + 1) * ChunkSize = i * ChunkSize + ChunkSize := by ring
  omega

theorem uploadLoop_succ_of_none (env : Env) (fs : Int) (m i : Nat) (st : UploadState)
    (h : (uploadPart env fs i st).2 = none) :
    uploadLoop env fs (m + 1) i st = uploadLoop env fs m (i + 1) (uploadPart env fs i st).1 := by
  rw [uploadLoop]
  cases hp : uploadPart env fs i st with
  | mk s a =>
    rw [hp] at h
    simp only at h
    subst h
    rfl

/-- When every iteration's offset lies within the file the loop runs to its
end, and, unless a task failed, it appends the descriptor of every part and
submits the task of every part that holds a non-zero byte. -/
theorem uploadLoop_chunks (env : Env) (data : List Byte)
    (hlen : data.length < 2 ^ 63) (h0 : 0 < data.length)
    (m i : Nat) (st : UploadState)
    (hf : st.file = { data := data, pos := min (i * ChunkSize) data.length })
    (hin : ∀ j, i ≤ j → j < i + m → j * ChunkSize ≤ data.length) :
    (uploadLoop env (data.length : Int) m i st).2 = none ∧
    ((uploadLoop env (data.length : Int) m i st).1.eg.err = none →
      st.eg.err = none ∧
      (uploadLoop env (data.length : Int) m i st).1.fm =
        { st.fm with Chunks := st.fm.Chunks ++ (List.range' i m).map (chunkAt data) } ∧
      (uploadLoop env (data.length : Int) m i st).1.eg.submitted =
        st.eg.submitted ++ (List.range' i m).filterMap (taskAt data)) := by
  induction m generalizing i st with
  | zero => simp [uploadLoop]
  | succ m ih =>
    have hle : i * ChunkSize ≤ data.length := hin i (le_refl _) (by omega)
    have hf1 := hf
    rw [Nat.min_eq_left hle] at hf1
    have hp := uploadPart_eq env data i st hlen h0 hle hf1
    rw [uploadLoop_succ_of_none env _ m i st (by rw [hp])]
    have hSf : (uploadPart env (data.length : Int) i st).1.file
        = { data := data, pos := min ((i + 1) * ChunkSize) data.length } := by
      rw [hp, ← pos_after_part data i hle]
    have hnext := ih (i + 1) _ hSf (fun j h1 h2 => hin j (by omega) (by omega))
    refine ⟨hnext.1, ?_⟩
    intro herr
    obtain ⟨he1, hfm, hsub⟩ := hnext.2 herr
    rw [hp] at he1
    simp only at he1
    -- the pool after the completions of this iteration has no error
    have hc : (st.eg.completeAll (runUploadTask env) (env.sched i) st.bucket).1.err = none := by
      cases ht : taskAt data i with
      | none => simpa [ht] using he1
      | some t =>
        simp only [ht] at he1
        split at he1
        · exact he1
        · simpa [Group.Go] using he1
    have hstop : (st.eg.completeAll (runUploadTask env) (env.sched i) st.bucket).1.Stop = false := by
      simp [Group.Stop, hc]
    have hst : st.eg.err = none := by
      by_contra hne
      have := Group.completeAll_inv (runUploadTask env) (fun g _ => g.err ≠ none)
        (fun k g w t _ hg => by
          simp only [Group.finish]
          cases hge : g.err with
          | none => exact absurd hge hg
          | some e => simp)
        (env.sched i) st.eg st.bucket hne
      exact this hc
    have hsubc : (st.eg.completeAll (runUploadTask env) (env.sched i) st.bucket).1.submitted
        = st.eg.submitted :=
      Group.completeAll_inv (runUploadTask env) (fun g _ => g.submitted = st.eg.submitted)
        (fun k g w t _ hg => by simpa [Group.finish] using hg)
        (env.sched i) st.eg st.bucket rfl
    refine ⟨hst, ?_, ?_⟩
    · rw [hfm, hp]
      simp [hstop, List.range'_succ]
    · rw [hsub, hp]
      cases ht : taskAt data i with
      | none => simp [hsubc, List.range'_succ, List.filterMap_cons, ht]
      | some t => simp [hstop, hsubc, Group.Go, List.range'_succ, List.filterMap_cons, ht]

/-! ## Backup: the whole run -/

/-- A file of size zero has no part. -/
theorem partsNum_zero (cs n : Nat) (h : partsNum ((0 : Nat) : Int) cs = some n) : n = 0 := by
  unfold partsNum at h
  simp only [Int.toNat_ofNat] at h
  have h0 : roundF64 0 = 0 := by decide
  rw [h0] at h
  split at h
  · exact absurd h (by simp)
  · simp at h
    exact h.symm

/-- An error the pool has recorded stays recorded. -/
theorem pool_err_mono {τ σ : Type} (run : τ → σ → Option Err × σ) (ks : List Nat)
    (g : Group τ) (w : σ) (h : (g.completeAll run ks w).1.err = none) : g.err = none := by
  by_contra hne
  exact Group.completeAll_inv run (fun g _ => g.err ≠ none)
    (fun k g w t _ hg => by
      simp only [Group.finish]
      cases hge : g.err with
      | none => exact absurd hge hg
      | some e => simp)
    ks g w hne h

/-- The outcome of a run whose loop ends without an abort, in terms of the state
the loop leaves. -/
theorem upload_of_loop (env : Env) (data : List Byte) (bucket : Bucket) (fileName : String)
    (cs n : Nat) (hn : partsNum (data.length : Int) cs = some n) (st : UploadState)
    (hloop : uploadLoop env (data.length : Int) n 0
      { file := { data := data, pos := 0 },
        fm := { FileName := fileName, TotalSize := data.length, BlobsLocation := "/here",
                Chunks := [] },
        eg := Group.New, bucket := bucket } = (st, none)) :
    (uploadFileToChunks env (some data) bucket fileName cs).eg =
      (Group.Wait (runUploadTask env)
        (st.eg.completeAll (runUploadTask env) (env.sched n) st.bucket).1
        (st.eg.completeAll (runUploadTask env) (env.sched n) st.bucket).2).2.1 ∧
    (uploadFileToChunks env (some data) bucket fileName cs).bucket =
      (Group.Wait (runUploadTask env)
        (st.eg.completeAll (runUploadTask env) (env.sched n) st.bucket).1
        (st.eg.completeAll (runUploadTask env) (env.sched n) st.bucket).2).2.2 ∧
    (uploadFileToChunks env (some data) bucket fileName cs).result =
      (match (uploadFileToChunks env (some data) bucket fileName cs).eg.err with
       | some _ => .error Abort.exit1
       | none => .ok st.fm) := by
  unfold uploadFileToChunks
  simp only [hn, hloop]
  rw [Group.Wait_fst]
  split <;> simp_all

/-- The outcome of a run all of whose iterations have their offset within the
file: no task is left pending; when no task failed the manifest lists the
descriptor of every part, in order, and the tasks submitted are those of the
parts that hold a non-zero byte; when a task failed the run ends with
`os.Exit(1)`. -/
theorem upload_run (env : Env) (data : List Byte) (bucket : Bucket) (fileName : String)
    (cs n : Nat) (hlen : data.length < 2 ^ 63)
    (hn : partsNum (data.length : Int) cs = some n)
    (hin : ∀ j, j < n → j * ChunkSize ≤ data.length) :
    (uploadFileToChunks env (some data) bucket fileName cs).eg.pending = [] ∧
    ((uploadFileToChunks env (some data) bucket fileName cs).eg.err = none →
      (uploadFileToChunks env (some data) bucket fileName cs).result =
        .ok { FileName := fileName, TotalSize := data.length, BlobsLocation := "/here",
              Chunks := (List.range n).map (chunkAt data) } ∧
      (uploadFileToChunks env (some data) bucket fileName cs).eg.submitted =
        (List.range n).filterMap (taskAt data)) ∧
    ((uploadFileToChunks env (some data) bucket fileName cs).eg.err ≠ none →
      (uploadFileToChunks env (some data) bucket fileName cs).result = .error Abort.exit1) := by
  -- the loop
  have hloop : ∃ st, uploadLoop env (data.length : Int) n 0
      { file := { data := data, pos := 0 },
        fm := { FileName := fileName, TotalSize := data.length, BlobsLocation := "/here",
                Chunks := [] },
        eg := Group.New, bucket := bucket } = (st, none) ∧
      (st.eg.err = none →
        st.fm = { FileName := fileName, TotalSize := data.length, BlobsLocation := "/here",
                  Chunks := (List.range n).map (chunkAt data) } ∧
        st.eg.submitted = (List.range n).filterMap (taskAt data)) := by
    rcases Nat.eq_zero_or_pos n with hz | hpos
    · subst hz
      exact ⟨_, rfl, fun _ => ⟨by simp, by simp [Group.New]⟩⟩
    · have h0 : 0 < data.length := by
        by_contra hc
        have hl : data.length = 0 := by omega
        rw [hl] at hn
        have := partsNum_zero cs n hn
        omega
      have hc := uploadLoop_chunks env data hlen h0 n 0
        { file := { data := data, pos := 0 },
          fm := { FileName := fileName, TotalSize := data.length, BlobsLocation := "/here",
                  Chunks := [] },
          eg := Group.New, bucket := bucket } (by simp)
        (fun j _ h2 => hin j (by omega))
      refine ⟨_, Prod.ext rfl hc.1, ?_⟩
      intro herr
      obtain ⟨_, hfm, hsub⟩ := hc.2 herr
      refine ⟨?_, ?_⟩
      · rw [hfm]; simp [List.range_eq_range']
      · rw [hsub]; simp [Group.New, List.range_eq_range']
  obtain ⟨st, hst, hok⟩ := hloop
  obtain ⟨heg, _, hres⟩ := upload_of_loop env data bucket fileName cs n hn st hst
  refine ⟨?_, ?_, ?_⟩
  · rw [heg]
    exact Group.Wait_pending _ _ _
  · intro herr
    -- no error at the end: none when the loop ended
    have h1 : (st.eg.completeAll (runUploadTask env) (env.sched n) st.bucket).1.err = none := by
      rw [heg] at herr
      exact pool_err_mono _ _ _ _ herr
    have h2 : st.eg.err = none := pool_err_mono _ _ _ _ h1
    have hsub : (uploadFileToChunks env (some data) bucket fileName cs).eg.submitted
        = st.eg.submitted := by
      rw [heg]
      have h3 := Group.completeAll_inv (runUploadTask env)
        (fun g _ => g.submitted = st.eg.submitted)
        (fun k g w t _ hg => by simpa [Group.finish] using hg)
        (env.sched n) st.eg st.bucket rfl
      exact Group.Wait_inv (runUploadTask env) (fun g _ => g.submitted = st.eg.submitted)
        (fun k g w t _ hg => by simpa [Group.finish] using hg) _ _ h3
    obtain ⟨hfm, hs⟩ := hok h2
    refine ⟨?_, ?_⟩
    · rw [hres, herr, hfm]
    · rw [hsub, hs]
  · intro herr
    rw [hres]
    cases he : (uploadFileToChunks env (some data) bucket fileName cs).eg.err with
    | none => exact absurd he herr
    | some e => rfl

/-! ## Backup: invariants of the pool and the bucket -/

/-- An invariant of the pool and the bucket that completions and submissions
keep is kept by an iteration. -/
theorem uploadPart_inv (env : Env) (P : Group UploadTask → Bucket → Prop)
    (hrun : ∀ k g b t, g.pending[k]? = some t → P g b →
      P (g.finish k t (runUploadTask env t b).1) (runUploadTask env t b).2)
    (hgo : ∀ g b t, g.err = none → P g b → P (g.Go t) b)
    (fs : Int) (i : Nat) (st : UploadState) (hP : P st.eg st.bucket) :
    P (uploadPart env fs i st).1.eg (uploadPart env fs i st).1.bucket := by
  have hc := Group.completeAll_inv (runUploadTask env) P hrun (env.sched i) st.eg st.bucket hP
  unfold uploadPart
  simp only
  split
  · exact hc
  · split
    · exact hc
    · split
      · exact hc
      · rename_i hstop
        apply hgo _ _ _ _ hc
        simpa [Group.Stop] using hstop

theorem uploadLoop_inv (env : Env) (P : Group UploadTask → Bucket → Prop)
    (hrun : ∀ k g b t, g.pending[k]? = some t → P g b →
      P (g.finish k t (runUploadTask env t b).1) (runUploadTask env t b).2)
    (hgo : ∀ g b t, g.err = none → P g b → P (g.Go t) b)
    (fs : Int) (m i : Nat) (st : UploadState) (hP : P st.eg st.bucket) :
    P (uploadLoop env fs m i st).1.eg (uploadLoop env fs m i st).1.bucket := by
  induction m generalizing i st with
  | zero => exact hP
  | succ m ih =>
    have hp := uploadPart_inv env P hrun hgo fs i st hP
    rw [uploadLoop]
    cases hu : uploadPart env fs i st with
    | mk s a =>
      rw [hu] at hp
      cases a with
      | none => exact ih _ _ hp
      | some a => exact hp

/-- An invariant of the pool and the bucket that completions and submissions
keep holds when the run ends, however it ends. -/
theorem upload_inv (env : Env) (P : Group UploadTask → Bucket → Prop)
    (hrun : ∀ k g b t, g.pending[k]? = some t → P g b →
      P (g.finish k t (runUploadTask env t b).1) (runUploadTask env t b).2)
    (hgo : ∀ g b t, g.err = none → P g b → P (g.Go t) b)
    (file : Option (List Byte)) (bucket : Bucket) (fileName : String) (cs : Nat)
    (hP : P Group.New bucket) :
    P (uploadFileToChunks env file bucket fileName cs).eg
      (uploadFileToChunks env file bucket fileName cs).bucket := by
  unfold uploadFileToChunks
  cases file with
  | none => exact hP
  | some data =>
    simp only
    cases hn : partsNum (data.length : Int) cs with
    | none => exact hP
    | some n =>
      simp only
      have hl := uploadLoop_inv env P hrun hgo (data.length : Int) n 0
        { file := { data := data, pos := 0 },
          fm := { FileName := fileName, TotalSize := data.length, BlobsLocation := "/here",
                  Chunks := [] },
          eg := Group.New, bucket := bucket } hP
      cases hu : uploadLoop env (data.length : Int) n 0
        { file := { data := data, pos := 0 },
          fm := { FileName := fileName, TotalSize := data.length, BlobsLocation := "/here",
                  Chunks := [] },
          eg := Group.New, bucket := bucket } with
      | mk st a =>
        rw [hu] at hl
        cases a with
        | some a => exact hl
        | none =>
          simp only
          have h1 := Group.completeAll_inv (runUploadTask env) P hrun (env.sched n) _ _ hl
          have h2 := Group.Wait_inv (runUploadTask env) P hrun _ _ h1
          split <;> exact h2

/-- A run that prints a manifest has recorded no error in its pool. -/
theorem upload_ok_err_none (env : Env) (file : Option (List Byte)) (bucket : Bucket)
    (fileName : String) (cs : Nat) (fm : Filemeta)
    (h : (uploadFileToChunks env file bucket fileName cs).result = .ok fm) :
    (uploadFileToChunks env file bucket fileName cs).eg.err = none := by
  unfold uploadFileToChunks at h ⊢
  cases file with
  | none => simp at h
  | some data =>
    simp only at h ⊢
    cases hn : partsNum (data.length : Int) cs with
    | none => rw [hn] at h; simp at h
    | some n =>
      rw [hn] at h
      simp only at h ⊢
      cases hu : uploadLoop env (data.length : Int) n 0
        { file := { data := data, pos := 0 },
          fm := { FileName := fileName, TotalSize := data.length, BlobsLocation := "/here",
                  Chunks := [] },
          eg := Group.New, bucket := bucket } with
      | mk st a =>
        rw [hu] at h
        cases a with
        | some a => simp at h
        | none =>
          simp only at h ⊢
          rw [Group.Wait_fst] at h ⊢
          split at h
          · simp at h
          · rename_i he
            simp only [he]

/-! ## Backup: a file of size zero -/

theorem partsNum_zero_eq {cs : Nat} (h : 0 < cs) : partsNum ((0 : Nat) : Int) cs = some 0 := by
  unfold partsNum
  simp only [Int.toNat_ofNat]
  have h0 : roundF64 0 = 0 := by decide
  have h1 := roundF64_pos h
  rw [h0, if_neg (by omega)]
  simp

theorem upload_empty_file (env : Env) (bucket : Bucket) (fileName : String) (cs : Nat)
    (h : 0 < cs) :
    (uploadFileToChunks env (some []) bucket fileName cs).result =
      .ok { FileName := fileName, TotalSize := 0, BlobsLocation := "/here", Chunks := [] } ∧
    (uploadFileToChunks env (some []) bucket fileName cs).bucket = bucket := by
  have hn := partsNum_zero_eq h
  unfold uploadFileToChunks
  simp only [List.length_nil, hn, uploadLoop]
  rw [Group.completeAll_of_nil _ _ _ _ rfl]
  simp only [Group.Wait, Group.New, List.length_nil, List.replicate_zero, Group.completeAll]
  constructor <;> first | rfl | trivial

/-- C10, as the code has it. There is no input validation: for a source file of
size 0 and every `chunkSize > 0`, `uploadFileToChunks` does not fail; it prints
a manifest with total size 0 and no chunk, and makes no store call. -/
theorem upload_size_zero_succeeds (env : Env) (bucket : Bucket) (fileName : String) (cs : Nat)
    (h : 0 < cs) :
    (uploadFileToChunks env (some []) bucket fileName cs).result =
      .ok { FileName := fileName, TotalSize := 0, BlobsLocation := "/here", Chunks := [] } ∧
    (uploadFileToChunks env (some []) bucket fileName cs).bucket = bucket :=
  upload_empty_file env bucket fileName cs h

/-- C10, witness: the statement at `chunkSize = 1`. -/
theorem upload_size_zero_succeeds_witness :
    0 < 1 ∧
    (uploadFileToChunks quietEnv (some []) emptyBucket "empty.img" 1).result =
      .ok { FileName := "empty.img", TotalSize := 0, BlobsLocation := "/here", Chunks := [] } ∧
    (uploadFileToChunks quietEnv (some []) emptyBucket "empty.img" 1).bucket = emptyBucket :=
  ⟨by decide, upload_size_zero_succeeds quietEnv emptyBucket "empty.img" 1 (by decide)⟩

/-- C10, counterexample: called as `main` calls it on a file of size 0,
`uploadFileToChunks` reports no failure; it prints a manifest. -/
theorem upload_size_zero_no_failure :
    (uploadFileToChunks quietEnv (some []) emptyBucket "file.img" ChunkSize).result =
      .ok { FileName := "file.img", TotalSize := 0, BlobsLocation := "/here", Chunks := [] } ∧
    ¬ ∃ a, (uploadFileToChunks quietEnv (some []) emptyBucket "file.img" ChunkSize).result
      = .error a := by
  have h : (uploadFileToChunks quietEnv (some []) emptyBucket "file.img" ChunkSize).result =
      .ok { FileName := "file.img", TotalSize := 0, BlobsLocation := "/here", Chunks := [] } := by
    decide
  refine ⟨h, ?_⟩
  rintro ⟨a, ha⟩
  rw [h] at ha
  exact absurd ha (by simp)

/-! ## Backup: fail-fast -/

/-- Every task that returned an error left an error recorded in the pool. -/
theorem upload_failed_task_recorded (env : Env) (file : Option (List Byte)) (bucket : Bucket)
    (fileName : String) (cs : Nat) (t : UploadTask) (e : Err)
    (h : (t, some e) ∈ (uploadFileToChunks env file bucket fileName cs).eg.finished) :
    (uploadFileToChunks env file bucket fileName cs).eg.err ≠ none := by
  have hinv := upload_inv env
    (fun g _ => ∀ t e, (t, some e) ∈ g.finished → g.err ≠ none)
    (fun k g b t _ hg t' e' hm => by
      simp only [Group.finish] at hm ⊢
      rw [List.mem_append] at hm
      cases hge : g.err with
      | some x => simp
      | none =>
        rcases hm with hm | hm
        · exact absurd hge (hg t' e' hm)
        · simp only [List.mem_singleton, Prod.mk.injEq] at hm
          simp [← hm.2])
    (fun g b t _ hg t' e' hm => by
      simp only [Group.Go] at hm ⊢
      exact hg t' e' hm)
    file bucket fileName cs
    (by intro t e hm; simp [Group.New] at hm)
  exact hinv t e h

/-- While the stop flag is set an iteration submits nothing. -/
theorem uploadPart_stopped (env : Env) (fs : Int) (i : Nat) (st : UploadState)
    (h : (st.eg.completeAll (runUploadTask env) (env.sched i) st.bucket).1.Stop = true) :
    (uploadPart env fs i st).1.eg
      = (st.eg.completeAll (runUploadTask env) (env.sched i) st.bucket).1 := by
  unfold uploadPart
  simp only
  split
  · rfl
  · split
    · rfl
    · rfl

/-- C8. Fail-fast upload: for every file, every schedule and every assignment of
failures to store transfers, if a submitted upload task returned an error then
`uploadFileToChunks` ends in failure and prints no manifest; and an iteration
of the loop at which the stop flag of the pool is set submits no task (the pool
is left as the completions before the iteration left it, and nothing is added
to the tasks submitted). -/
theorem upload_fail_fast :
    (∀ (env : Env) (file : Option (List Byte)) (bucket : Bucket) (fileName : String) (cs : Nat),
      (∃ t e, (t, some e) ∈ (uploadFileToChunks env file bucket fileName cs).eg.finished) →
      (∃ a, (uploadFileToChunks env file bucket fileName cs).result = .error a) ∧
      ∀ fm, (uploadFileToChunks env file bucket fileName cs).result ≠ .ok fm) ∧
    (∀ (env : Env) (fs : Int) (i : Nat) (st : UploadState),
      (st.eg.completeAll (runUploadTask env) (env.sched i) st.bucket).1.Stop = true →
      (uploadPart env fs i st).1.eg
        = (st.eg.completeAll (runUploadTask env) (env.sched i) st.bucket).1 ∧
      (uploadPart env fs i st).1.eg.submitted = st.eg.submitted) := by
  refine ⟨?_, ?_⟩
  · rintro env file bucket fileName cs ⟨t, e, hm⟩
    have herr := upload_failed_task_recorded env file bucket fileName cs t e hm
    have hno : ∀ fm, (uploadFileToChunks env file bucket fileName cs).result ≠ .ok fm :=
      fun fm hfm => herr (upload_ok_err_none env file bucket fileName cs fm hfm)
    refine ⟨?_, hno⟩
    cases hr : (uploadFileToChunks env file bucket fileName cs).result with
    | error a => exact ⟨a, rfl⟩
    | ok fm => exact absurd hr (hno fm)
  · intro env fs i st h
    have h1 := uploadPart_stopped env fs i st h
    refine ⟨h1, ?_⟩
    rw [h1]
    exact Group.completeAll_inv (runUploadTask env) (fun g _ => g.submitted = st.eg.submitted)
      (fun k g w t _ hg => by simpa [Group.finish] using hg) (env.sched i) st.eg st.bucket rfl

/-! ## The float quotient is exact below `2^53` -/

/-- The rounded quotient `m` of `a * X / b` lies in `((c - 1) * X, c * X]` for
`c` the exact ceiling of `a / b`, provided `a < 2^53` and `2^52 ≤ a * X / b`. -/
theorem roundQuot_bounds (a b X p : Nat) (hb : 0 < b) (ha : a < 2 ^ 53)
    (hp1 : p * b < a) (hp2 : a ≤ (p + 1) * b) (hq : 2 ^ 52 * b ≤ a * X) :
    p * X < roundQuot (a * X) b ∧ roundQuot (a * X) b ≤ (p + 1) * X := by
  have hdm : b * (a * X / b) + a * X % b = a * X := Nat.div_add_mod (a * X) b
  have hr : a * X % b < b := Nat.mod_lt _ hb
  unfold roundQuot
  simp only
  generalize a * X / b = q at hdm ⊢
  generalize a * X % b = r at hdm hr ⊢
  -- the products, as atoms
  have e1 : (p * b + 1) * X = b * (p * X) + X := by ring
  have e2 : (p + 1) * b * X = b * ((p + 1) * X) := by ring
  have e3 : 2 ^ 52 * b = b * 2 ^ 52 := by ring
  have e4 : b * (q + 1) = b * q + b := by ring
  have hN1 : b * (p * X) + X ≤ a * X := by
    rw [← e1]; exact Nat.mul_le_mul_right X hp1
  have hN2 : a * X ≤ b * ((p + 1) * X) := by
    rw [← e2]; exact Nat.mul_le_mul_right X hp2
  have hq52 : 2 ^ 52 < q + 1 := by
    apply Nat.lt_of_mul_lt_mul_left (a := b)
    rw [e4, ← e3]
    omega
  have hqle : q ≤ (p + 1) * X := by
    apply Nat.le_of_mul_le_mul_left (c := b) _ hb
    omega
  have hqge : p * X < q + 1 := by
    apply Nat.lt_of_mul_lt_mul_left (a := b)
    rw [e4]
    omega
  split
  · -- rounded up: the remainder is positive
    rename_i hup
    have hrpos : 0 < r := by omega
    refine ⟨hqge, ?_⟩
    have : q < (p + 1) * X := by
      apply Nat.lt_of_mul_lt_mul_left (a := b)
      omega
    omega
  · -- rounded down
    rename_i hdown
    refine ⟨?_, hqle⟩
    by_contra hc
    have hc' : q = p * X := by omega
    rw [hc'] at hdm hq52
    have h2X : 2 * X ≤ b := by omega
    have h1 : p * (2 * X) ≤ p * b := Nat.mul_le_mul_left p h2X
    have e5 : p * (2 * X) = 2 * (p * X) := by ring
    rw [e5] at h1
    have h53 : (2:Nat) ^ 53 = 2 * 2 ^ 52 := by norm_num
    omega

theorem find?_range_none_false (p : Nat → Bool) (n k : Nat) (hk : k < n) (hp : p k = true) :
    (List.range n).find? p ≠ none := by
  intro h
  rw [List.find?_eq_none] at h
  have := h k (List.mem_range.mpr hk)
  simp [hp] at this

/-- Below `2^53` the float quotient rounds up to the exact ceiling. -/
theorem ceilQuotF64_exact (a b : Nat) (ha0 : 0 < a) (hb : 0 < b) (ha : a < 2 ^ 53)
    (hb64 : b ≤ 2 ^ 64) : ceilQuotF64 a b = (a + b - 1) / b := by
  have hnot : ¬ 2 ^ 53 * b ≤ a := by
    have : 2 ^ 53 * 1 ≤ 2 ^ 53 * b := Nat.mul_le_mul_left _ hb
    omega
  unfold ceilQuotF64
  rw [if_neg hnot]
  split
  · rename_i k heq
    have hk : 2 ^ 52 * b ≤ a * 2 ^ k := by
      have := List.find?_some heq
      simpa using this
    have hX : 0 < 2 ^ k := Nat.two_pow_pos k
    -- the exact ceiling is `p + 1`
    obtain ⟨p, hp⟩ : ∃ p, (a + b - 1) / b = p + 1 := by
      have : 0 < (a + b - 1) / b := Nat.div_pos (by omega) hb
      exact ⟨(a + b - 1) / b - 1, by omega⟩
    have hdm := Nat.div_add_mod (a + b - 1) b
    have hr := Nat.mod_lt (a + b - 1) hb
    rw [hp] at hdm
    have e1 : b * (p + 1) = p * b + b := by ring
    have e2 : (p + 1) * b = p * b + b := by ring
    have hp1 : p * b < a := by omega
    have hp2 : a ≤ (p + 1) * b := by omega
    obtain ⟨h1, h2⟩ := roundQuot_bounds a b (2 ^ k) p hb ha hp1 hp2 hk
    rw [hp]
    have e3 : (p + 1) * 2 ^ k = p * 2 ^ k + 2 ^ k := by ring
    have e4 : (p + 1 + 1) * 2 ^ k = p * 2 ^ k + 2 ^ k + 2 ^ k := by ring
    apply Nat.div_eq_of_lt_le
    · omega
    · omega
  · rename_i heq
    exfalso
    refine find?_range_none_false _ 120 116 (by norm_num) ?_ heq
    simp only [decide_eq_true_eq]
    calc 2 ^ 52 * b ≤ 2 ^ 52 * 2 ^ 64 := Nat.mul_le_mul_left _ hb64
      _ = 1 * 2 ^ 116 := by norm_num
      _ ≤ a * 2 ^ 116 := Nat.mul_le_mul_right _ ha0

/-- For a file below `2^53` bytes the number of parts is the exact ceiling of
`fileSize / ChunkSize`. -/
theorem partsNum_exact {len : Nat} (h0 : 0 < len) (h : len < 2 ^ 53) :
    partsNum (len : Int) ChunkSize = some ((len + ChunkSize - 1) / ChunkSize) := by
  unfold partsNum
  simp only [Int.toNat_ofNat, roundF64_ChunkSize, roundF64_of_lt h]
  have hcs := ChunkSize_eq
  rw [if_neg (by omega), if_neg (by omega),
    ceilQuotF64_exact len ChunkSize h0 (by omega) h (by omega)]
  rw [if_pos]
  have : (len + ChunkSize - 1) / ChunkSize ≤ len + ChunkSize - 1 := Nat.div_le_self _ _
  omega

/-! ## Backup: what a printed manifest holds -/

theorem uploadPart_abort_iff (env : Env) (fs : Int) (i : Nat) (st : UploadState) :
    (uploadPart env fs i st).2 = none ↔ partSizeAt fs i ≠ none := by
  unfold uploadPart
  simp only
  cases hp : partSizeAt fs i with
  | none => simp
  | some p =>
    simp only
    split
    · simp
    · split <;> simp

theorem uploadLoop_parts_defined (env : Env) (fs : Int) (m i : Nat) (st : UploadState)
    (h : (uploadLoop env fs m i st).2 = none) :
    ∀ j, i ≤ j → j < i + m → partSizeAt fs j ≠ none := by
  induction m generalizing i st with
  | zero => intro j h1 h2; omega
  | succ m ih =>
    rw [uploadLoop] at h
    cases hu : uploadPart env fs i st with
    | mk s a =>
      rw [hu] at h
      cases a with
      | some a => simp at h
      | none =>
        simp only at h
        have hi : partSizeAt fs i ≠ none := by
          rw [← uploadPart_abort_iff env fs i st, hu]
        intro j h1 h2
        rcases Nat.eq_or_lt_of_le h1 with rfl | hlt
        · exact hi
        · exact ih (i + 1) s h j (by omega) (by omega)

/-- When the size of every part up to `n` is defined, the offset of every part
lies within the file. -/
theorem offsets_in_range {len n : Nat} (hlen : len < 2 ^ 63)
    (h : ∀ j, j < n → partSizeAt (len : Int) j ≠ none) :
    ∀ j, j < n → j * ChunkSize ≤ len := by
  intro j
  induction j with
  | zero => intro _; simp
  | succ j ih =>
    intro hj
    have h1 := ih (by omega)
    have h2 : (j + 1) * ChunkSize ≤ len + ChunkSize := by
      have : (j + 1) * ChunkSize = j * ChunkSize + ChunkSize := by ring
      omega
    have h3 := partSizeAt_eq hlen h2
    by_contra hc
    rw [if_neg hc] at h3
    exact h (j + 1) hj h3

/-- A run that prints a manifest went through every iteration of its loop with
the offset within the file. -/
theorem upload_ok_in_range (env : Env) (data : List Byte) (bucket : Bucket)
    (fileName : String) (cs : Nat) (fm : Filemeta) (hlen : data.length < 2 ^ 63)
    (h : (uploadFileToChunks env (some data) bucket fileName cs).result = .ok fm) :
    ∃ n, partsNum (data.length : Int) cs = some n ∧ ∀ j, j < n → j * ChunkSize ≤ data.length := by
  unfold uploadFileToChunks at h
  simp only at h
  cases hn : partsNum (data.length : Int) cs with
  | none => rw [hn] at h; simp at h
  | some n =>
    rw [hn] at h
    simp only at h
    refine ⟨n, rfl, offsets_in_range hlen ?_⟩
    cases hu : uploadLoop env (data.length : Int) n 0
        { file := { data := data, pos := 0 },
          fm := { FileName := fileName, TotalSize := data.length, BlobsLocation := "/here",
                  Chunks := [] },
          eg := Group.New, bucket := bucket } with
    | mk st a =>
      rw [hu] at h
      cases a with
      | some a => simp at h
      | none =>
        intro j hj
        exact uploadLoop_parts_defined env _ n 0 _ (by rw [hu]) j (Nat.zero_le _) (by omega)

/-- The manifest a run prints: the descriptor of every part, in order; and the
tasks the run submitted: the task of every part that holds a non-zero byte. -/
theorem upload_ok_spec (env : Env) (data : List Byte) (bucket : Bucket)
    (fileName : String) (cs : Nat) (fm : Filemeta) (hlen : data.length < 2 ^ 63)
    (h : (uploadFileToChunks env (some data) bucket fileName cs).result = .ok fm) :
    ∃ n, partsNum (data.length : Int) cs = some n ∧
      (∀ j, j < n → j * ChunkSize ≤ data.length) ∧
      fm = { FileName := fileName, TotalSize := data.length, BlobsLocation := "/here",
             Chunks := (List.range n).map (chunkAt data) } ∧
      (uploadFileToChunks env (some data) bucket fileName cs).eg.submitted =
        (List.range n).filterMap (taskAt data) ∧
      (uploadFileToChunks env (some data) bucket fileName cs).eg.pending = [] := by
  obtain ⟨n, hn, hin⟩ := upload_ok_in_range env data bucket fileName cs fm hlen h
  obtain ⟨hpend, hok, _⟩ := upload_run env data bucket fileName cs n hlen hn hin
  obtain ⟨hres, hsub⟩ := hok (upload_ok_err_none env _ bucket fileName cs fm h)
  refine ⟨n, hn, hin, ?_, hsub, hpend⟩
  rw [hres] at h
  injection h with h
  exact h.symm

/-- The bytes in the range of the descriptor of a part are the bytes of the part. -/
theorem chunkRegion_chunkAt (data : List Byte) (i : Nat) (h0 : 0 < data.length)
    (hi : i * ChunkSize ≤ data.length) :
    chunkRegion data (chunkAt data i) = chunkBytes data i := by
  have hl := chunkBytes_length data i
  have hcs := ChunkSize_pos
  unfold chunkRegion chunkAt
  simp only
  have : i * ChunkSize + (chunkBytes data i).length - 1 + 1 - i * ChunkSize
      = min ChunkSize (data.length - i * ChunkSize) := by
    rcases Nat.eq_zero_or_pos i with rfl | hpos
    · simp only [Nat.zero_mul, Nat.sub_zero, Nat.zero_add] at hl ⊢
      omega
    · have : ChunkSize ≤ i * ChunkSize := Nat.le_mul_of_pos_left _ hpos
      omega
  rw [this, take_min_chunk]

/-! ## Backup: the descriptor of a chunk -/

theorem hexDigit_mem {n : Nat} (h : n < 16) : hexDigit n ∈ "0123456789abcdef".data := by
  interval_cases n <;> decide

theorem hexOfBytes_lowercase (bs : List Byte) :
    (hexOfBytes bs).length = 2 * bs.length ∧
    ∀ c ∈ (hexOfBytes bs).data, c ∈ "0123456789abcdef".data := by
  unfold hexOfBytes
  constructor
  · simp only [String.length]
    induction bs with
    | nil => rfl
    | cons b bs ih => simp only [List.flatMap_cons, List.length_append, ih, List.length_cons,
        List.length_nil]; omega
  · intro c hc
    simp only [List.mem_flatMap, List.mem_cons, List.mem_singleton, List.not_mem_nil,
      or_false] at hc
    obtain ⟨b, _, rfl | rfl⟩ := hc
    · exact hexDigit_mem (by omega)
    · exact hexDigit_mem (Nat.mod_lt _ (by norm_num))

theorem completeAll_submitted {σ : Type} (run : UploadTask → σ → Option Err × σ)
    (ks : List Nat) (g : Group UploadTask) (w : σ) :
    (g.completeAll run ks w).1.submitted = g.submitted :=
  Group.completeAll_inv run (fun g' _ => g'.submitted = g.submitted)
    (fun k g' w t _ hg => by simpa [Group.finish] using hg) ks g w rfl

/-- What one iteration does to the manifest and to the tasks submitted. -/
theorem uploadPart_descriptor (env : Env) (fs : Int) (i : Nat) (st : UploadState) :
    ((uploadPart env fs i st).1.fm.Chunks = st.fm.Chunks ∧
      (uploadPart env fs i st).1.eg.submitted = st.eg.submitted) ∨
    ∃ p cm, partSizeAt fs i = some p ∧
      (uploadPart env fs i st).1.fm.Chunks = st.fm.Chunks ++ [cm] ∧
      (cm.IsEmpty = true ↔ ∀ v ∈ (File.Read st.file p).1, v = 0) ∧
      (cm.IsEmpty = true → cm.Content = "" ∧
        (uploadPart env fs i st).1.eg.submitted = st.eg.submitted) ∧
      (cm.IsEmpty = false →
        cm.Content = hexOfBytes (sha1Sum (File.Read st.file p).1) ∧
        (uploadPart env fs i st).1.eg.submitted = st.eg.submitted ++
          [{ fileName := cm.Content ++ ".blob", partBuffer := (File.Read st.file p).1 }]) := by
  have hs := completeAll_submitted (runUploadTask env) (env.sched i) st.eg st.bucket
  unfold uploadPart
  simp only
  cases hp : partSizeAt fs i with
  | none => left; exact ⟨rfl, hs⟩
  | some p =>
    simp only
    by_cases hz : isEmptyChunk (File.Read st.file p).1 = true
    · right
      refine ⟨p, { Start := u64 (i * ChunkSize),
                   End := u64Sub (u64 (u64 (i * ChunkSize) + p)) 1,
                   Content := "", IsEmpty := true }, rfl, ?_, ?_, ?_, ?_⟩
      · rw [if_pos hz]
      · simp only [true_iff]
        exact (isEmptyChunk_eq_true_iff _).mp hz
      · intro _
        rw [if_pos hz]
        exact ⟨rfl, hs⟩
      · intro hc
        simp at hc
    · rw [if_neg hz]
      by_cases hstop : (st.eg.completeAll (runUploadTask env) (env.sched i) st.bucket).1.Stop = true
      · left
        rw [if_pos hstop]
        exact ⟨rfl, hs⟩
      · right
        rw [if_neg hstop]
        refine ⟨p, { Start := u64 (i * ChunkSize),
                     End := u64Sub (u64 (u64 (i * ChunkSize) + p)) 1,
                     Content := hexOfBytes (sha1Sum (File.Read st.file p).1),
                     IsEmpty := false }, rfl, rfl, ?_, ?_, ?_⟩
        · simp only [Bool.false_eq_true, false_iff]
          intro hall
          exact hz ((isEmptyChunk_eq_true_iff _).mpr hall)
        · intro hc
          simp at hc
        · intro _
          refine ⟨rfl, ?_⟩
          simp only [Group.Go, hs]

/-- C7. Chunk descriptor invariant. (1) An iteration of the loop of
`uploadFileToChunks` either appends nothing and submits nothing, or appends
exactly one descriptor `cm`, for which: `cm.IsEmpty` is true exactly when every
byte read for the chunk is zero; when it is true the digest is the empty
string and no task is submitted; when it is false the digest is the hex
encoding of the SHA-1 of exactly the bytes read, and the one task submitted is
the exists/write task for `digest + ".blob"` and those bytes. (2) In a manifest
that a run prints, the same holds of every descriptor with the bytes of the
source file in the descriptor's range, and the tasks submitted are exactly the
tasks of the descriptors with `IsEmpty` false, in order. (3) The hex encoding
has two characters per byte, all of them lowercase hexadecimal digits. -/
theorem upload_descriptor_invariant :
    (∀ (env : Env) (fs : Int) (i : Nat) (st : UploadState),
      ((uploadPart env fs i st).1.fm.Chunks = st.fm.Chunks ∧
        (uploadPart env fs i st).1.eg.submitted = st.eg.submitted) ∨
      ∃ p cm, partSizeAt fs i = some p ∧
        (uploadPart env fs i st).1.fm.Chunks = st.fm.Chunks ++ [cm] ∧
        (cm.IsEmpty = true ↔ ∀ v ∈ (File.Read st.file p).1, v = 0) ∧
        (cm.IsEmpty = true → cm.Content = "" ∧
          (uploadPart env fs i st).1.eg.submitted = st.eg.submitted) ∧
        (cm.IsEmpty = false →
          cm.Content = hexOfBytes (sha1Sum (File.Read st.file p).1) ∧
          (uploadPart env fs i st).1.eg.submitted = st.eg.submitted ++
            [{ fileName := cm.Content ++ ".blob", partBuffer := (File.Read st.file p).1 }])) ∧
    (∀ (env : Env) (data : List Byte) (bucket : Bucket) (fileName : String) (cs : Nat)
      (fm : Filemeta), data.length < 2 ^ 63 →
      (uploadFileToChunks env (some data) bucket fileName cs).result = .ok fm →
      (∀ cm ∈ fm.Chunks,
        (cm.IsEmpty = true ↔ ∀ v ∈ chunkRegion data cm, v = 0) ∧
        (cm.IsEmpty = true → cm.Content = "") ∧
        (cm.IsEmpty = false → cm.Content = hexOfBytes (sha1Sum (chunkRegion data cm)))) ∧
      (uploadFileToChunks env (some data) bucket fileName cs).eg.submitted =
        fm.Chunks.filterMap (fun cm =>
          if cm.IsEmpty then none
          else some { fileName := cm.Content ++ ".blob", partBuffer := chunkRegion data cm })) ∧
    (∀ bs : List Byte, (hexOfBytes bs).length = 2 * bs.length ∧
      ∀ c ∈ (hexOfBytes bs).data, c ∈ "0123456789abcdef".data) := by
  refine ⟨uploadPart_descriptor, ?_, hexOfBytes_lowercase⟩
  intro env data bucket fileName cs fm hlen hok
  obtain ⟨n, hn, hin, hfm, hsub, _⟩ := upload_ok_spec env data bucket fileName cs fm hlen hok
  have h0 : ∀ j, j < n → 0 < data.length := by
    intro j hj
    by_contra hc
    have hl : data.length = 0 := by omega
    rw [hl] at hn
    have := partsNum_zero cs n hn
    omega
  subst hfm
  simp only
  constructor
  · intro cm hcm
    rw [List.mem_map] at hcm
    obtain ⟨j, hj, rfl⟩ := hcm
    rw [List.mem_range] at hj
    rw [chunkRegion_chunkAt data j (h0 j hj) (hin j hj)]
    unfold chunkAt
    simp only
    refine ⟨isEmptyChunk_eq_true_iff _, ?_, ?_⟩
    · intro h; rw [if_pos h]
    · intro h; rw [if_neg (by simp [h])]
  · rw [hsub, List.filterMap_map]
    apply List.filterMap_congr
    intro j hj
    rw [List.mem_range] at hj
    simp only [Function.comp]
    rw [chunkRegion_chunkAt data j (h0 j hj) (hin j hj)]
    unfold taskAt chunkAt
    simp only
    by_cases hz : isEmptyChunk (chunkBytes data j) = true
    · simp [hz]
    · simp [hz]

set_option maxRecDepth 100000 in
/-- C7, an instance: the manifest and the task for a file of three non-zero bytes. -/
theorem upload_descriptor_invariant_witness :
    (uploadFileToChunks quietEnv (some [1, 2, 3]) emptyBucket "file.img" ChunkSize).result =
      .ok { FileName := "file.img", TotalSize := 3, BlobsLocation := "/here",
            Chunks := [{ Start := 0, End := 2,
                         Content := "7037807198c22a7d2b0807371d763779a84fdfcf",
                         IsEmpty := false }] } ∧
    (uploadFileToChunks quietEnv (some [1, 2, 3]) emptyBucket "file.img" ChunkSize).eg.submitted =
      [{ fileName := "7037807198c22a7d2b0807371d763779a84fdfcf.blob", partBuffer := [1, 2, 3] }] := by
  have h : (uploadFileToChunks quietEnv (some [1, 2, 3]) emptyBucket "file.img" ChunkSize).result =
      .ok { FileName := "file.img", TotalSize := 3, BlobsLocation := "/here",
            Chunks := [{ Start := 0, End := 2,
                         Content := "7037807198c22a7d2b0807371d763779a84fdfcf",
                         IsEmpty := false }] } := by decide
  refine ⟨h, ?_⟩
  rw [(upload_descriptor_invariant.2.1 quietEnv [1, 2, 3] emptyBucket "file.img" ChunkSize _
    (by decide) h).2]
  decide

/-! ## Backup: runs in which no transfer fails -/

/-- When no transfer fails no task returns an error. -/
theorem upload_no_fault (env : Env) (hf : ∀ k, env.fault k = false)
    (file : Option (List Byte)) (bucket : Bucket) (fileName : String) (cs : Nat) :
    (uploadFileToChunks env file bucket fileName cs).eg.err = none := by
  apply upload_inv env (fun g _ => g.err = none)
  · intro k g b t _ hg
    simp only [Group.finish, hg, Option.isSome_none, Bool.false_eq_true, if_false]
    unfold runUploadTask writeToGoogleStorage
    simp only [hf]
    split <;> simp
  · intro g b t _ hg
    exact hg
  · rfl

/-- When no transfer fails, a run all of whose iterations have their offset
within the file prints its manifest. -/
theorem upload_no_fault_ok (env : Env) (hf : ∀ k, env.fault k = false)
    (data : List Byte) (bucket : Bucket) (fileName : String)
    (cs n : Nat) (hlen : data.length < 2 ^ 63)
    (hn : partsNum (data.length : Int) cs = some n)
    (hin : ∀ j, j < n → j * ChunkSize ≤ data.length) :
    (uploadFileToChunks env (some data) bucket fileName cs).result =
      .ok { FileName := fileName, TotalSize := data.length, BlobsLocation := "/here",
            Chunks := (List.range n).map (chunkAt data) } :=
  ((upload_run env data bucket fileName cs n hlen hn hin).2.1
    (upload_no_fault env hf _ bucket fileName cs)).1

/-! ## Backup: the chunk size argument -/

/-- C2, the code at two failing inputs. The loop takes the part size and the
offsets from the global `ChunkSize`, not from the argument `chunkSize`. With
`chunkSize = 524288000` (500 MiB) every file of 262144001 bytes gets the single
range `[0, 262143999]`, which leaves the last byte out; with
`chunkSize = 131072000` (125 MiB) every file of 262144000 bytes gets the
ranges `[0, 262143999]` and `[262144000, 262143999]`, of lengths 262144000 and
0 and not 131072000 each. -/
theorem upload_ranges_ignore_chunkSize (env : Env) (data : List Byte) (bucket : Bucket)
    (fileName : String) (fm : Filemeta) :
    (data.length = 262144001 →
      (uploadFileToChunks env (some data) bucket fileName 524288000).result = .ok fm →
      fm.Chunks.map (fun c => (c.Start, c.End)) = [(0, 262143999)]) ∧
    (data.length = 262144000 →
      (uploadFileToChunks env (some data) bucket fileName 131072000).result = .ok fm →
      fm.Chunks.map (fun c => (c.Start, c.End)) = [(0, 262143999), (262144000, 262143999)]) := by
  have hcs := ChunkSize_eq
  constructor
  · intro hlen hok
    obtain ⟨n, hn, _, hfm, _⟩ :=
      upload_ok_spec env data bucket fileName 524288000 fm (by omega) hok
    rw [hlen] at hn
    have h1 : partsNum ((262144001 : Nat) : Int) 524288000 = some 1 := by decide
    rw [h1] at hn
    injection hn with hn
    subst hn
    subst hfm
    have hl := chunkBytes_length data 0
    have hr : List.range 1 = [0] := by decide
    simp only [hr, List.map_cons, List.map_nil, chunkAt, Nat.zero_mul, Nat.zero_add]
    simp only [List.cons.injEq, Prod.mk.injEq, true_and, and_true]
    omega
  · intro hlen hok
    obtain ⟨n, hn, _, hfm, _⟩ :=
      upload_ok_spec env data bucket fileName 131072000 fm (by omega) hok
    rw [hlen] at hn
    have h1 : partsNum ((262144000 : Nat) : Int) 131072000 = some 2 := by decide
    rw [h1] at hn
    injection hn with hn
    subst hn
    subst hfm
    have hl0 := chunkBytes_length data 0
    have hl1 := chunkBytes_length data 1
    have hr : List.range 2 = [0, 1] := by decide
    simp only [hr, List.map_cons, List.map_nil, chunkAt, Nat.zero_mul, Nat.zero_add, Nat.one_mul]
    simp only [List.cons.injEq, Prod.mk.injEq, true_and, and_true]
    omega

theorem replicate_length_lt (n : Nat) (h : n < 2 ^ 63) :
    (List.replicate n (0 : Byte)).length < 2 ^ 63 := by
  rw [List.length_replicate]
  exact h

/-- C2, witness: the all-zero file of 262144001 bytes is uploaded without
failure with `chunkSize = 524288000`, so the statement applies to it. -/
theorem upload_ranges_ignore_chunkSize_witness :
    ((uploadFileToChunks quietEnv (some (List.replicate 262144001 0)) emptyBucket "file.img"
        524288000).result =
      .ok { FileName := "file.img",
            TotalSize := ((List.replicate 262144001 (0 : Byte)).length : Int),
            BlobsLocation := "/here",
            Chunks := (List.range 1).map (chunkAt (List.replicate 262144001 0)) }) ∧
    ((List.range 1).map (chunkAt (List.replicate 262144001 0))).map (fun c => (c.Start, c.End))
      = [(0, 262143999)] := by
  have hlen : (List.replicate 262144001 (0 : Byte)).length = 262144001 := List.length_replicate _ _
  have hcs := ChunkSize_eq
  have hok := upload_no_fault_ok quietEnv (fun _ => rfl) (List.replicate 262144001 0)
    emptyBucket "file.img" 524288000 1 (replicate_length_lt _ (by norm_num))
    (by rw [hlen]; decide) (by intro j hj; rw [hlen]; interval_cases j; omega)
  exact ⟨hok, (upload_ranges_ignore_chunkSize quietEnv (List.replicate 262144001 0) emptyBucket
    "file.img" _).1 hlen hok⟩

/-! ## Backup: the partition of the file -/

theorem parts_in_range (len : Nat) :
    ∀ j, j < (len + ChunkSize - 1) / ChunkSize → j * ChunkSize < len := by
  intro j hj
  have hcs := ChunkSize_pos
  have h1 : (j + 1) * ChunkSize ≤ len + ChunkSize - 1 := by
    have := Nat.mul_le_of_le_div ChunkSize (j + 1) _ hj
    exact this
  have : (j + 1) * ChunkSize = j * ChunkSize + ChunkSize := by ring
  omega

/-- The manifest of a file below `2^53` bytes, uploaded as `main` does it: the
parts are `ceil(size / ChunkSize)` in number, they partition `[0, size)` in
order, each is at most `ChunkSize` long and only the last may be shorter. -/
theorem upload_partition (env : Env) (data : List Byte) (bucket : Bucket)
    (fileName : String) (fm : Filemeta) (h0 : 0 < data.length) (hlen : data.length < 2 ^ 53)
    (hok : (uploadFileToChunks env (some data) bucket fileName ChunkSize).result = .ok fm) :
    fm.TotalSize = data.length ∧
    fm.Chunks = (List.range ((data.length + ChunkSize - 1) / ChunkSize)).map (chunkAt data) ∧
    (∀ j, j < (data.length + ChunkSize - 1) / ChunkSize →
      (chunkAt data j).Start = j * ChunkSize ∧
      (chunkAt data j).Start ≤ (chunkAt data j).End ∧
      (chunkAt data j).End + 1 - (chunkAt data j).Start ≤ ChunkSize ∧
      (j + 1 < (data.length + ChunkSize - 1) / ChunkSize →
        (chunkAt data j).End + 1 = (j + 1) * ChunkSize) ∧
      (j + 1 = (data.length + ChunkSize - 1) / ChunkSize →
        (chunkAt data j).End + 1 = data.length)) := by
  have hcs := ChunkSize_pos
  obtain ⟨n, hn, _, hfm, _⟩ :=
    upload_ok_spec env data bucket fileName ChunkSize fm
      (lt_of_lt_of_le hlen (by norm_num)) hok
  rw [partsNum_exact h0 hlen] at hn
  injection hn with hn
  subst hn
  subst hfm
  refine ⟨rfl, rfl, ?_⟩
  intro j hj
  have hjr := parts_in_range _ j hj
  have hl := chunkBytes_length data j
  have hmul : (j + 1) * ChunkSize = j * ChunkSize + ChunkSize := by ring
  unfold chunkAt
  simp only
  refine ⟨trivial, by omega, by omega, ?_, ?_⟩
  · intro hj1
    have := parts_in_range _ (j + 1) hj1
    omega
  · intro hj1
    have hge : data.length ≤ (j + 1) * ChunkSize := by
      have h2 := Nat.lt_mul_div_succ (data.length + ChunkSize - 1) hcs
      rw [← hj1] at h2
      have : ChunkSize * (j + 1 + 1) = j * ChunkSize + ChunkSize + ChunkSize := by ring
      omega
    omega

/-! ## Backup: a file of more than `2^53` bytes -/

theorem huge_parts :
    partsNum ((9007199420416001 : Nat) : Int) ChunkSize = some 34359739 := by decide

/-- C3, the code at a failing input. The number of parts is computed in
`float64`. A file of 9007199420416001 bytes (34359739 chunks of 250 MiB and
one byte) has its size rounded to 9007199420416000, so the manifest that a run
prints holds 34359739 chunks, none of which reaches the last byte, at offset
9007199420416000, where the specification has the last chunk end. -/
theorem upload_huge_file_loses_tail (env : Env) (data : List Byte) (bucket : Bucket)
    (fileName : String) (fm : Filemeta) (hlen : data.length = 9007199420416001)
    (hok : (uploadFileToChunks env (some data) bucket fileName ChunkSize).result = .ok fm) :
    fm.TotalSize = 9007199420416001 ∧ fm.Chunks.length = 34359739 ∧
    ∀ c ∈ fm.Chunks, c.End < 9007199420416000 := by
  have hcs := ChunkSize_eq
  obtain ⟨n, hn, _, hfm, _⟩ :=
    upload_ok_spec env data bucket fileName ChunkSize fm (by omega) hok
  rw [hlen, huge_parts] at hn
  injection hn with hn
  rw [hfm]
  refine ⟨?_, ?_, ?_⟩
  · simp only [hlen, Nat.cast_ofNat]
  · rw [List.length_map, List.length_range]
    exact hn.symm
  · intro c hc
    rw [List.mem_map] at hc
    obtain ⟨j, hj, rfl⟩ := hc
    rw [List.mem_range] at hj
    have hl := chunkBytes_length data j
    unfold chunkAt
    simp only
    rw [hcs] at hl ⊢
    omega

/-- C3, witness: the all-zero file of that size is uploaded without failure, so
the statement applies to it. -/
theorem upload_huge_file_loses_tail_witness :
    (List.replicate 9007199420416001 (0 : Byte)).length = 9007199420416001 ∧
    ∃ fm, (uploadFileToChunks quietEnv (some (List.replicate 9007199420416001 0)) emptyBucket
        "file.img" ChunkSize).result = .ok fm ∧
    fm.TotalSize = 9007199420416001 ∧ fm.Chunks.length = 34359739 ∧
    ∀ c ∈ fm.Chunks, c.End < 9007199420416000 := by
  have hlen : (List.replicate 9007199420416001 (0 : Byte)).length = 9007199420416001 :=
    List.length_replicate _ _
  have hcs := ChunkSize_eq
  obtain ⟨n, hn⟩ : ∃ n, n = 34359739 := ⟨_, rfl⟩
  have hok := upload_no_fault_ok quietEnv (fun _ => rfl) (List.replicate 9007199420416001 0)
    emptyBucket "file.img" ChunkSize n (replicate_length_lt _ (by norm_num))
    (by rw [hlen, hn]; exact huge_parts) (by intro j hj; rw [hlen, hcs]; omega)
  exact ⟨hlen, _, hok, upload_huge_file_loses_tail quietEnv (List.replicate 9007199420416001 0)
    emptyBucket "file.img" _ hlen hok⟩

/-! ## Backup: deduplication -/

/-- What the task of a chunk does to the bucket: one `exists` call on its key,
and one `write` of its bytes under the key exactly when the key is absent. -/
theorem runUploadTask_calls (env : Env) (t : UploadTask) (b : Bucket) :
    (b.has t.fileName = true →
      (runUploadTask env t b).2.calls = b.calls ++ [StoreCall.exist t.fileName] ∧
      (runUploadTask env t b).2.objects = b.objects ∧ (runUploadTask env t b).1 = none) ∧
    (b.has t.fileName = false →
      (runUploadTask env t b).2.calls =
        b.calls ++ [StoreCall.exist t.fileName, StoreCall.write t.fileName t.partBuffer] ∧
      (env.fault (b.calls.length + 1) = false →
        (runUploadTask env t b).2.objects = (t.fileName, t.partBuffer) :: b.objects ∧
        (runUploadTask env t b).1 = none)) := by
  unfold runUploadTask checkFileExistsOnGoogleStorage writeToGoogleStorage Bucket.has
  constructor
  · intro h
    simp [h]
  · intro h
    simp only [h, Bool.false_eq_true, if_false, List.length_append, List.length_singleton]
    constructor
    · split <;> simp
    · intro hf
      simp [hf]

theorem Consistent_finish {τ : Type} (g : Group τ) (k : Nat) (t : τ) (e : Option Err)
    (hk : g.pending[k]? = some t) (h : g.Consistent) : (g.finish k t e).Consistent := by
  obtain ⟨h1, h2, h3⟩ := h
  have ht : t ∈ g.pending := Group.mem_pending_of_getElem? hk
  refine ⟨?_, ?_, ?_⟩
  · intro x hx
    simp only [Group.finish] at hx ⊢
    rcases h1 x hx with hp | ⟨e', he'⟩
    · rcases Group.mem_eraseIdx_or hk hp with h | h
      · left; exact h
      · right; exact ⟨e, by rw [h]; simp⟩
    · right; exact ⟨e', by simp [he']⟩
  · intro x hx
    simp only [Group.finish] at hx ⊢
    exact h2 x (List.mem_of_mem_eraseIdx hx)
  · intro p hp
    simp only [Group.finish, List.mem_append, List.mem_singleton] at hp ⊢
    rcases hp with hp | rfl
    · exact h3 p hp
    · exact h2 t ht

theorem Consistent_Go {τ : Type} (g : Group τ) (t : τ) (h : g.Consistent) :
    (g.Go t).Consistent := by
  obtain ⟨h1, h2, h3⟩ := h
  refine ⟨?_, ?_, ?_⟩
  · intro x hx
    simp only [Group.Go, List.mem_append, List.mem_singleton] at hx ⊢
    rcases hx with hx | rfl
    · rcases h1 x hx with hp | he
      · left; left; exact hp
      · right; exact he
    · left; right; rfl
  · intro x hx
    simp only [Group.Go, List.mem_append, List.mem_singleton] at hx ⊢
    rcases hx with hx | rfl
    · left; exact h2 x hx
    · right; rfl
  · intro p hp
    simp only [Group.Go, List.mem_append] at hp ⊢
    left; exact h3 p hp

theorem countP_append_one (p : StoreCall → Bool) (l : List StoreCall) (c : StoreCall) :
    (l ++ [c]).countP p = l.countP p + (if p c then 1 else 0) := by
  rw [List.countP_append, List.countP_singleton]

/-- The completion of a task keeps the account of the store calls for a key. -/
theorem DedupInv_finish (env : Env) (hf : ∀ n, env.fault n = false) (k : String) (b0 : Bucket)
    (j : Nat) (g : Group UploadTask) (b : Bucket) (t : UploadTask)
    (h : DedupInv k b0 g b) :
    DedupInv k b0 (g.finish j t (runUploadTask env t b).1) (runUploadTask env t b).2 := by
  obtain ⟨h1, h2, h3⟩ := h
  have hc := runUploadTask_calls env t b
  unfold DedupInv
  simp only [Group.finish, List.any_append, List.any_cons, List.any_nil, Bool.or_false]
  by_cases hkey : t.fileName = k
  · -- a task for the key
    subst hkey
    simp only [beq_self_eq_true, Bool.or_true, if_true, Bool.not_true, Bool.or_false]
    cases hhas : b.has t.fileName with
    | true =>
      obtain ⟨hcalls, hobj, _⟩ := hc.1 hhas
      have hhas' : Bucket.has (runUploadTask env t b).2 t.fileName = true := by
        unfold Bucket.has at hhas ⊢
        rw [hobj]; exact hhas
      rw [hcalls, countP_append_one, countP_append_one, hhas']
      simp only [StoreCall.isExistOn, StoreCall.isWriteTo, beq_self_eq_true, if_true,
        Bool.false_eq_true, if_false, Nat.add_zero]
      rw [hhas] at h3
      refine ⟨?_, ?_, ?_⟩
      · split at h1 <;> omega
      · rw [h2]
        cases hb0 : b0.has t.fileName with
        | true => simp
        | false =>
          rw [hb0] at h3
          simp only [Bool.false_or] at h3
          simp [← h3]
      · cases hb0 : b0.has t.fileName <;> simp
    | false =>
      obtain ⟨hcalls, hrest⟩ := hc.2 hhas
      obtain ⟨hobj, _⟩ := hrest (hf _)
      have hhas' : Bucket.has (runUploadTask env t b).2 t.fileName = true := by
        unfold Bucket.has
        rw [hobj]; simp
      rw [hhas] at h3
      have hb0 : b0.has t.fileName = false := by
        cases hb : b0.has t.fileName with
        | false => rfl
        | true => rw [hb] at h3; simp at h3
      have hdone : (g.finished.any fun p => p.1.fileName == t.fileName) = false := by
        cases hd : (g.finished.any fun p => p.1.fileName == t.fileName) with
        | false => rfl
        | true => rw [hd] at h3; simp at h3
      rw [hdone] at h1 h2
      rw [hb0] at h2
      rw [hcalls, hhas', hb0]
      have e1 : b.calls ++ [StoreCall.exist t.fileName, StoreCall.write t.fileName t.partBuffer]
          = (b.calls ++ [StoreCall.exist t.fileName]) ++ [StoreCall.write t.fileName t.partBuffer] := by
        simp
      rw [e1, countP_append_one, countP_append_one, countP_append_one, countP_append_one]
      simp only [StoreCall.isExistOn, StoreCall.isWriteTo, beq_self_eq_true, if_true,
        Bool.false_eq_true, if_false, Nat.add_zero, Bool.false_or]
      simp only [Bool.false_or, Bool.not_false, if_true, Bool.false_eq_true, if_false] at h1 h2
      refine ⟨by omega, by omega, trivial⟩
  · -- a task for another key
    have hne : (t.fileName == k) = false := by simpa using hkey
    simp only [hne, Bool.or_false]
    have hcnt : (runUploadTask env t b).2.calls.countP (StoreCall.isExistOn k)
          = b.calls.countP (StoreCall.isExistOn k) ∧
        (runUploadTask env t b).2.calls.countP (StoreCall.isWriteTo k)
          = b.calls.countP (StoreCall.isWriteTo k) ∧
        Bucket.has (runUploadTask env t b).2 k = b.has k := by
      cases hhas : b.has t.fileName with
      | true =>
        obtain ⟨hcalls, hobj, _⟩ := hc.1 hhas
        rw [hcalls, countP_append_one, countP_append_one]
        simp only [StoreCall.isExistOn, StoreCall.isWriteTo, hne, Bool.false_eq_true, if_false,
          Nat.add_zero, true_and]
        unfold Bucket.has
        rw [hobj]
      | false =>
        obtain ⟨hcalls, hrest⟩ := hc.2 hhas
        obtain ⟨hobj, _⟩ := hrest (hf _)
        have e1 : b.calls ++ [StoreCall.exist t.fileName, StoreCall.write t.fileName t.partBuffer]
            = (b.calls ++ [StoreCall.exist t.fileName])
              ++ [StoreCall.write t.fileName t.partBuffer] := by
          simp
        rw [hcalls, e1, countP_append_one, countP_append_one, countP_append_one,
          countP_append_one]
        simp only [StoreCall.isExistOn, StoreCall.isWriteTo, hne, Bool.false_eq_true, if_false,
          Nat.add_zero, true_and]
        unfold Bucket.has
        rw [hobj]
        simp [hne]
    obtain ⟨c1, c2, c3⟩ := hcnt
    rw [c1, c2, c3]
    exact ⟨h1, h2, h3⟩

/-- The account of the store calls for a key, and the consistency of the pool's
history, hold when a run in which no transfer fails ends. -/
theorem upload_dedup_run (env : Env) (hf : ∀ n, env.fault n = false) (k : String)
    (file : Option (List Byte)) (b0 : Bucket) (fileName : String) (cs : Nat) :
    DedupInv k b0 (uploadFileToChunks env file b0 fileName cs).eg
        (uploadFileToChunks env file b0 fileName cs).bucket ∧
      (uploadFileToChunks env file b0 fileName cs).eg.Consistent := by
  apply upload_inv env (fun g b => DedupInv k b0 g b ∧ g.Consistent)
  · intro j g b t hj h
    exact ⟨DedupInv_finish env hf k b0 j g b t h.1, Consistent_finish g j t _ hj h.2⟩
  · intro g b t _ h
    exact ⟨h.1, Consistent_Go g t h.2⟩
  · refine ⟨?_, ?_⟩
    · unfold DedupInv
      simp [Group.New]
    · unfold Group.Consistent
      simp [Group.New]

/-- In a manifest that a run prints, a descriptor describes the bytes of the
file in its range, and the task of a descriptor with `IsEmpty` false was
submitted. -/
theorem upload_ok_chunk (env : Env) (data : List Byte) (bucket : Bucket)
    (fileName : String) (cs : Nat) (fm : Filemeta) (hlen : data.length < 2 ^ 63)
    (hok : (uploadFileToChunks env (some data) bucket fileName cs).result = .ok fm)
    (cm : Chunkmeta) (hcm : cm ∈ fm.Chunks) :
    cm.IsEmpty = isEmptyChunk (chunkRegion data cm) ∧
    cm.Content = (if cm.IsEmpty then "" else hexOfBytes (sha1Sum (chunkRegion data cm))) ∧
    (cm.IsEmpty = false →
      ({ fileName := cm.Content ++ ".blob", partBuffer := chunkRegion data cm } : UploadTask)
        ∈ (uploadFileToChunks env (some data) bucket fileName cs).eg.submitted) := by
  obtain ⟨n, hn, hin, hfm, hsub, _⟩ := upload_ok_spec env data bucket fileName cs fm hlen hok
  subst hfm
  simp only [List.mem_map, List.mem_range] at hcm
  obtain ⟨j, hj, rfl⟩ := hcm
  have h0 : 0 < data.length := by
    by_contra hc
    have hl : data.length = 0 := by omega
    rw [hl] at hn
    have := partsNum_zero cs n hn
    omega
  rw [chunkRegion_chunkAt data j h0 (hin j hj)]
  refine ⟨rfl, rfl, ?_⟩
  intro hne
  rw [hsub, List.mem_filterMap]
  refine ⟨j, List.mem_range.mpr hj, ?_⟩
  unfold chunkAt at hne ⊢
  simp only at hne
  unfold taskAt
  simp [hne]

/-- When the run has ended with nothing pending, a task for the key has
completed exactly when one was submitted. -/
theorem done_iff_submitted (g : Group UploadTask) (k : String) (hc : g.Consistent)
    (hp : g.pending = []) :
    g.finished.any (fun p => p.1.fileName == k) = g.submitted.any (fun t => t.fileName == k) := by
  obtain ⟨h1, _, h3⟩ := hc
  rw [Bool.eq_iff_iff]
  simp only [List.any_eq_true, beq_iff_eq]
  constructor
  · rintro ⟨p, hp1, hp2⟩
    exact ⟨p.1, h3 p hp1, hp2⟩
  · rintro ⟨t, ht1, ht2⟩
    rcases h1 t ht1 with h | ⟨e, he⟩
    · rw [hp] at h; simp at h
    · exact ⟨(t, e), he, ht2⟩

/-- C4, as the code has it. Dedup property, with the bucket as a set of keys,
tasks run one after another and no transfer failing. (1) The task of a chunk
calls `exists` once on its key, and calls `write` for that key and those bytes
exactly when the key is absent. (2) The key of a chunk that holds a non-zero
byte is the hex SHA-1 of its bytes followed by `.blob`, and two chunks with
the same bytes have the same key. (3) If the bucket does not hold the key
before the first upload, then uploading the same non-zero bytes twice (a chunk
of a first file, then a chunk of a second file, which may be the same file)
makes exactly one `write` call for the key, in the first upload, however many
chunks of either file hold these bytes; and each upload makes at least one
`exists` call on the key. -/
theorem upload_dedup (env1 env2 : Env) (data1 data2 : List Byte) (b0 : Bucket)
    (name1 name2 : String) (cs1 cs2 : Nat) (fm1 fm2 : Filemeta) (cm1 cm2 : Chunkmeta)
    (hf1 : ∀ n, env1.fault n = false) (hf2 : ∀ n, env2.fault n = false)
    (hl1 : data1.length < 2 ^ 63) (hl2 : data2.length < 2 ^ 63)
    (hok1 : (uploadFileToChunks env1 (some data1) b0 name1 cs1).result = .ok fm1)
    (hok2 : (uploadFileToChunks env2 (some data2)
      (uploadFileToChunks env1 (some data1) b0 name1 cs1).bucket name2 cs2).result = .ok fm2)
    (hc1 : cm1 ∈ fm1.Chunks) (hc2 : cm2 ∈ fm2.Chunks)
    (hnz : isEmptyChunk (chunkRegion data1 cm1) = false)
    (hsame : chunkRegion data2 cm2 = chunkRegion data1 cm1)
    (habs : b0.has (cm1.Content ++ ".blob") = false) :
    (∀ (env : Env) (t : UploadTask) (b : Bucket),
      (b.has t.fileName = true →
        (runUploadTask env t b).2.calls = b.calls ++ [StoreCall.exist t.fileName]) ∧
      (b.has t.fileName = false →
        (runUploadTask env t b).2.calls =
          b.calls ++ [StoreCall.exist t.fileName, StoreCall.write t.fileName t.partBuffer])) ∧
    (cm1.Content = hexOfBytes (sha1Sum (chunkRegion data1 cm1)) ∧ cm2.Content = cm1.Content) ∧
    (uploadFileToChunks env1 (some data1) b0 name1 cs1).bucket.calls.countP
        (StoreCall.isWriteTo (cm1.Content ++ ".blob"))
      = b0.calls.countP (StoreCall.isWriteTo (cm1.Content ++ ".blob")) + 1 ∧
    (uploadFileToChunks env2 (some data2)
        (uploadFileToChunks env1 (some data1) b0 name1 cs1).bucket name2 cs2).bucket.calls.countP
        (StoreCall.isWriteTo (cm1.Content ++ ".blob"))
      = (uploadFileToChunks env1 (some data1) b0 name1 cs1).bucket.calls.countP
        (StoreCall.isWriteTo (cm1.Content ++ ".blob")) ∧
    b0.calls.countP (StoreCall.isExistOn (cm1.Content ++ ".blob")) + 1
      ≤ (uploadFileToChunks env1 (some data1) b0 name1 cs1).bucket.calls.countP
        (StoreCall.isExistOn (cm1.Content ++ ".blob")) ∧
    (uploadFileToChunks env1 (some data1) b0 name1 cs1).bucket.calls.countP
        (StoreCall.isExistOn (cm1.Content ++ ".blob")) + 1
      ≤ (uploadFileToChunks env2 (some data2)
        (uploadFileToChunks env1 (some data1) b0 name1 cs1).bucket name2 cs2).bucket.calls.countP
        (StoreCall.isExistOn (cm1.Content ++ ".blob")) := by
  -- the two descriptors
  obtain ⟨he1, hcont1, hsub1⟩ := upload_ok_chunk env1 data1 b0 name1 cs1 fm1 hl1 hok1 cm1 hc1
  obtain ⟨he2, hcont2, hsub2⟩ := upload_ok_chunk env2 data2 _ name2 cs2 fm2 hl2 hok2 cm2 hc2
  rw [hnz] at he1
  rw [hsame, hnz] at he2
  rw [he1] at hcont1
  rw [he2, hsame] at hcont2
  simp only [Bool.false_eq_true, if_false] at hcont1 hcont2
  have hkey : cm2.Content = cm1.Content := by rw [hcont1, hcont2]
  -- the first run
  obtain ⟨hd1, hcons1⟩ := upload_dedup_run env1 hf1 (cm1.Content ++ ".blob") (some data1) b0 name1 cs1
  obtain ⟨_, _, _, _, _, hpend1⟩ := upload_ok_spec env1 data1 b0 name1 cs1 fm1 hl1 hok1
  have hdone1 : (uploadFileToChunks env1 (some data1) b0 name1 cs1).eg.finished.any
      (fun p => p.1.fileName == cm1.Content ++ ".blob") = true := by
    rw [done_iff_submitted _ _ hcons1 hpend1, List.any_eq_true]
    exact ⟨_, hsub1 he1, by simp⟩
  -- the second run
  obtain ⟨hd2, hcons2⟩ := upload_dedup_run env2 hf2 (cm1.Content ++ ".blob") (some data2)
    (uploadFileToChunks env1 (some data1) b0 name1 cs1).bucket name2 cs2
  obtain ⟨_, _, _, _, _, hpend2⟩ := upload_ok_spec env2 data2 _ name2 cs2 fm2 hl2 hok2
  have hdone2 : (uploadFileToChunks env2 (some data2)
      (uploadFileToChunks env1 (some data1) b0 name1 cs1).bucket name2 cs2).eg.finished.any
      (fun p => p.1.fileName == cm1.Content ++ ".blob") = true := by
    rw [done_iff_submitted _ _ hcons2 hpend2, List.any_eq_true]
    exact ⟨_, hsub2 he2, by simp [hkey]⟩
  unfold DedupInv at hd1 hd2
  rw [hdone1, habs] at hd1
  rw [hdone2] at hd2
  obtain ⟨a1, a2, a3⟩ := hd1
  obtain ⟨c1, c2, _⟩ := hd2
  simp only [Bool.or_true] at a3
  rw [a3] at c2
  simp only [if_true, Bool.not_true, Bool.or_false, Bool.false_eq_true, if_false, Bool.true_or,
    Nat.add_zero] at a1 a2 c1 c2
  refine ⟨?_, ⟨hcont1, hkey⟩, a2, c2, a1, c1⟩
  intro env t b
  exact ⟨fun h => ((runUploadTask_calls env t b).1 h).1,
    fun h => ((runUploadTask_calls env t b).2 h).1⟩

set_option maxRecDepth 100000 in
/-- C4, witness: the file of the three bytes `1, 2, 3` uploaded twice to a
bucket that starts empty. -/
theorem upload_dedup_witness :
    (uploadFileToChunks quietEnv (some [1, 2, 3]) emptyBucket "file.img" ChunkSize).result =
      .ok { FileName := "file.img", TotalSize := 3, BlobsLocation := "/here",
            Chunks := [{ Start := 0, End := 2,
                         Content := "7037807198c22a7d2b0807371d763779a84fdfcf",
                         IsEmpty := false }] } ∧
    emptyBucket.has "7037807198c22a7d2b0807371d763779a84fdfcf.blob" = false ∧
    (uploadFileToChunks quietEnv (some [1, 2, 3]) emptyBucket "file.img"
        ChunkSize).bucket.calls.countP
        (StoreCall.isWriteTo "7037807198c22a7d2b0807371d763779a84fdfcf.blob") = 1 ∧
    (uploadFileToChunks quietEnv (some [1, 2, 3])
        (uploadFileToChunks quietEnv (some [1, 2, 3]) emptyBucket "file.img" ChunkSize).bucket
        "file.img" ChunkSize).bucket.calls.countP
        (StoreCall.isWriteTo "7037807198c22a7d2b0807371d763779a84fdfcf.blob") = 1 := by
  have hok1 : (uploadFileToChunks quietEnv (some [1, 2, 3]) emptyBucket "file.img"
      ChunkSize).result =
      .ok { FileName := "file.img", TotalSize := 3, BlobsLocation := "/here",
            Chunks := [{ Start := 0, End := 2,
                         Content := "7037807198c22a7d2b0807371d763779a84fdfcf",
                         IsEmpty := false }] } := by decide
  have hok2 : (uploadFileToChunks quietEnv (some [1, 2, 3])
      (uploadFileToChunks quietEnv (some [1, 2, 3]) emptyBucket "file.img" ChunkSize).bucket
      "file.img" ChunkSize).result =
      .ok { FileName := "file.img", TotalSize := 3, BlobsLocation := "/here",
            Chunks := [{ Start := 0, End := 2,
                         Content := "7037807198c22a7d2b0807371d763779a84fdfcf",
                         IsEmpty := false }] } := by decide
  have habs : emptyBucket.has "7037807198c22a7d2b0807371d763779a84fdfcf.blob" = false := by
    decide
  have h := upload_dedup quietEnv quietEnv [1, 2, 3] [1, 2, 3] emptyBucket "file.img" "file.img"
    ChunkSize ChunkSize _ _
    { Start := 0, End := 2, Content := "7037807198c22a7d2b0807371d763779a84fdfcf",
      IsEmpty := false }
    { Start := 0, End := 2, Content := "7037807198c22a7d2b0807371d763779a84fdfcf",
      IsEmpty := false }
    (fun _ => rfl) (fun _ => rfl) (by decide) (by decide) hok1 hok2
    (by simp) (by simp) (by decide) rfl habs
  obtain ⟨_, _, h1, h2, _, _⟩ := h
  have e : ("7037807198c22a7d2b0807371d763779a84fdfcf" ++ ".blob" : String)
      = "7037807198c22a7d2b0807371d763779a84fdfcf.blob" := by decide
  simp only [e] at h1 h2
  refine ⟨hok1, habs, ?_, ?_⟩
  · rw [h1]; rfl
  · rw [h2, h1]; rfl

set_option maxRecDepth 100000 in
/-- C4, counterexample: the same file uploaded twice to a bucket that already
holds its blob. Both uploads succeed and make one `exists` call each, and no
`write` call is made at all, not exactly one. -/
theorem upload_dedup_prefilled_no_write :
    (uploadFileToChunks quietEnv (some [1, 2, 3]) prefilledBucket "file.img" ChunkSize).result =
      .ok { FileName := "file.img", TotalSize := 3, BlobsLocation := "/here",
            Chunks := [{ Start := 0, End := 2,
                         Content := "7037807198c22a7d2b0807371d763779a84fdfcf",
                         IsEmpty := false }] } ∧
    (uploadFileToChunks quietEnv (some [1, 2, 3])
        (uploadFileToChunks quietEnv (some [1, 2, 3]) prefilledBucket "file.img"
          ChunkSize).bucket "file.img" ChunkSize).result =
      .ok { FileName := "file.img", TotalSize := 3, BlobsLocation := "/here",
            Chunks := [{ Start := 0, End := 2,
                         Content := "7037807198c22a7d2b0807371d763779a84fdfcf",
                         IsEmpty := false }] } ∧
    (uploadFileToChunks quietEnv (some [1, 2, 3])
        (uploadFileToChunks quietEnv (some [1, 2, 3]) prefilledBucket "file.img"
          ChunkSize).bucket "file.img" ChunkSize).bucket.calls =
      [StoreCall.exist "7037807198c22a7d2b0807371d763779a84fdfcf.blob",
       StoreCall.exist "7037807198c22a7d2b0807371d763779a84fdfcf.blob"] ∧
    (uploadFileToChunks quietEnv (some [1, 2, 3])
        (uploadFileToChunks quietEnv (some [1, 2, 3]) prefilledBucket "file.img"
          ChunkSize).bucket "file.img" ChunkSize).bucket.calls.countP
        (StoreCall.isWriteTo "7037807198c22a7d2b0807371d763779a84fdfcf.blob") ≠ 1 := by
  refine ⟨by decide, by decide, by decide, by decide⟩

/-! ## Restore: one chunk -/

theorem int64OfU64_of_lt {n : Nat} (h : n < 2 ^ 63) : int64OfU64 n = (n : Int) := by
  unfold int64OfU64
  rw [if_pos h]

theorem chunk_len {s e : Nat} (h1 : s ≤ e) (h2 : e + 1 < 2 ^ 63) :
    int64OfU64 (u64 (u64Sub e s + 1)) = ((e + 1 - s : Nat) : Int) := by
  have hs : u64Sub e s = e - s := by
    unfold u64Sub
    omega
  rw [hs, u64_of_lt (by omega), int64OfU64_of_lt (by omega)]
  congr 1
  omega

/-- The read of the range of a descriptor that lies within the file returns the
bytes of the range; end of file is not reported. -/
theorem Read_region (data : List Byte) (c : Chunkmeta)
    (h1 : c.Start ≤ c.End) (h2 : c.End < data.length) (h4 : c.End + 1 - c.Start ≤ maxRW) :
    File.Read { data := data, pos := c.Start } (c.End + 1 - c.Start)
      = (chunkRegion data c, c.End + 1 - c.Start, false, { data := data, pos := c.End + 1 }) := by
  unfold File.Read chunkRegion
  rw [Nat.min_eq_left h4]
  have hl : ((data.drop c.Start).take (c.End + 1 - c.Start)).length = c.End + 1 - c.Start := by
    simp
    omega
  simp only [hl, Nat.sub_self, List.replicate_zero, List.append_nil]
  congr 2
  simp
  omega

/-- The iteration for a chunk whose range lies within the destination: the
bytes of the file and the bucket stay as the completions before the iteration
left them, and a task, to fetch `Content + ".blob"` and write it at `Start`,
is submitted exactly when the range reads as all zero and `IsEmpty` is false. -/
theorem downloadChunk_eq (env : Env) (j : Nat) (c : Chunkmeta) (st : DownloadState)
    (h1 : c.Start ≤ c.End)
    (h2 : c.End < (st.eg.completeAll (runDownloadTask env) (env.sched j)
      (st.f, st.bucket)).2.1.data.length)
    (h3 : (st.eg.completeAll (runDownloadTask env) (env.sched j)
      (st.f, st.bucket)).2.1.data.length < 2 ^ 63)
    (h4 : c.End + 1 - c.Start ≤ maxRW) :
    downloadChunk env j c st =
      ({ f := { data := (st.eg.completeAll (runDownloadTask env) (env.sched j)
                  (st.f, st.bucket)).2.1.data,
                pos := c.End + 1 },
         eg := if isEmptyChunk (chunkRegion (st.eg.completeAll (runDownloadTask env) (env.sched j)
                    (st.f, st.bucket)).2.1.data c) = true ∧ c.IsEmpty = false
               then (st.eg.completeAll (runDownloadTask env) (env.sched j)
                 (st.f, st.bucket)).1.Go
                   { blobPath := c.Content ++ ".blob", blobStart := (c.Start : Int) }
               else (st.eg.completeAll (runDownloadTask env) (env.sched j) (st.f, st.bucket)).1,
         bucket := (st.eg.completeAll (runDownloadTask env) (env.sched j)
           (st.f, st.bucket)).2.2 }, none) := by
  unfold downloadChunk
  simp only
  generalize (st.eg.completeAll (runDownloadTask env) (env.sched j) (st.f, st.bucket)) = r at h2 h3 ⊢
  have hstart : int64OfU64 c.Start = (c.Start : Int) := int64OfU64_of_lt (by omega)
  have hlen := chunk_len h1 (show c.End + 1 < 2 ^ 63 by omega)
  rw [hstart, hlen]
  have hseek : File.Seek r.2.1 (c.Start : Int) = { data := r.2.1.data, pos := c.Start } := by
    unfold File.Seek
    rw [if_neg (by omega)]
    simp
  have hrw := maxRW_eq
  have hma := maxAlloc_eq
  rw [hseek, if_neg (by omega), Int.toNat_ofNat, Read_region r.2.1.data c h1 h2 h4]
  simp only [Bool.false_eq_true, if_false]
  by_cases hz : isEmptyChunk (chunkRegion r.2.1.data c) = true
  · by_cases he : c.IsEmpty = true
    · simp [hz, he]
    · simp [hz, he]
  · simp [hz]

/-! ## Restore: invariants of the pool, the file and the bucket -/

/-- An invariant that completions and submissions keep, and that does not
depend on the offset of the file handle, is kept by an iteration. -/
theorem downloadChunk_inv (env : Env) (P : Group DownloadTask → List Byte → Bucket → Prop)
    (hrun : ∀ k g w t, g.pending[k]? = some t → P g w.1.data w.2 →
      P (g.finish k t (runDownloadTask env t w).1) (runDownloadTask env t w).2.1.data
        (runDownloadTask env t w).2.2)
    (hgo : ∀ g d b t, P g d b → P (g.Go t) d b)
    (j : Nat) (c : Chunkmeta) (st : DownloadState) (hP : P st.eg st.f.data st.bucket) :
    P (downloadChunk env j c st).1.eg (downloadChunk env j c st).1.f.data
      (downloadChunk env j c st).1.bucket := by
  have hc := Group.completeAll_inv (runDownloadTask env) (fun g w => P g w.1.data w.2) hrun
    (env.sched j) st.eg (st.f, st.bucket) hP
  unfold downloadChunk
  simp only
  generalize (st.eg.completeAll (runDownloadTask env) (env.sched j) (st.f, st.bucket)) = r at hc ⊢
  have hseek : (File.Seek r.2.1 (int64OfU64 c.Start)).data = r.2.1.data := by
    unfold File.Seek
    split <;> rfl
  have hread : ∀ n, (File.Read (File.Seek r.2.1 (int64OfU64 c.Start)) n).2.2.2.data
      = r.2.1.data := by
    intro n
    simp only [File.Read, hseek]
  split
  · exact hc
  · split
    · simp only [hread]; exact hc
    · split
      · split
        · simp only [hread]; exact hc
        · simp only [hread]; exact hgo _ _ _ _ hc
      · split <;> (simp only [hread]; exact hc)

theorem downloadLoop_inv (env : Env) (P : Group DownloadTask → List Byte → Bucket → Prop)
    (hrun : ∀ k g w t, g.pending[k]? = some t → P g w.1.data w.2 →
      P (g.finish k t (runDownloadTask env t w).1) (runDownloadTask env t w).2.1.data
        (runDownloadTask env t w).2.2)
    (hgo : ∀ g d b t, P g d b → P (g.Go t) d b)
    (cs : List Chunkmeta) (j : Nat) (st : DownloadState) (hP : P st.eg st.f.data st.bucket) :
    P (downloadLoop env cs j st).1.eg (downloadLoop env cs j st).1.f.data
      (downloadLoop env cs j st).1.bucket := by
  induction cs generalizing j st with
  | nil => exact hP
  | cons c cs ih =>
    have hp := downloadChunk_inv env P hrun hgo j c st hP
    rw [downloadLoop]
    cases hu : downloadChunk env j c st with
    | mk s a =>
      rw [hu] at hp
      cases a with
      | none => exact ih _ _ hp
      | some a => exact hp

/-- An invariant that completions and submissions keep holds when a restore
that could size its destination ends, however it ends. -/
theorem download_inv (env : Env) (P : Group DownloadTask → List Byte → Bucket → Prop)
    (hrun : ∀ k g w t, g.pending[k]? = some t → P g w.1.data w.2 →
      P (g.finish k t (runDownloadTask env t w).1) (runDownloadTask env t w).2.1.data
        (runDownloadTask env t w).2.2)
    (hgo : ∀ g d b t, P g d b → P (g.Go t) d b)
    (data : List Byte) (bucket : Bucket) (fm : Filemeta) (f0 : File)
    (ht : File.Truncate { data := data, pos := 0 } fm.TotalSize = some f0)
    (hP : P Group.New f0.data bucket) :
    P (downloadFileFromChunks env (some data) bucket fm).eg
      (downloadFileFromChunks env (some data) bucket fm).f.data
      (downloadFileFromChunks env (some data) bucket fm).bucket := by
  unfold downloadFileFromChunks
  simp only [ht]
  have hl := downloadLoop_inv env P hrun hgo fm.Chunks 0
    { f := f0, eg := Group.New, bucket := bucket } hP
  cases hu : downloadLoop env fm.Chunks 0 { f := f0, eg := Group.New, bucket := bucket } with
  | mk st a =>
    rw [hu] at hl
    cases a with
    | some a => exact hl
    | none =>
      simp only
      have h1 := Group.completeAll_inv (runDownloadTask env) (fun g w => P g w.1.data w.2) hrun
        (env.sched fm.Chunks.length) st.eg (st.f, st.bucket) hl
      have h2 := Group.Wait_inv (runDownloadTask env) (fun g w => P g w.1.data w.2) hrun _ _ h1
      split <;> exact h2

theorem downloadChunk_abort (env : Env) (j : Nat) (c : Chunkmeta) (st : DownloadState)
    (a : Abort) (h : (downloadChunk env j c st).2 = some a) :
    a = Abort.panic ∨ a = Abort.fatal := by
  unfold downloadChunk at h
  simp only at h
  split at h
  · left; simpa using h.symm
  · split at h
    · right; simpa using h.symm
    · split at h
      · split at h <;> simp at h
      · split at h <;> simp at h

theorem downloadLoop_abort (env : Env) (cs : List Chunkmeta) (j : Nat) (st : DownloadState)
    (a : Abort) (h : (downloadLoop env cs j st).2 = some a) :
    a = Abort.panic ∨ a = Abort.fatal := by
  induction cs generalizing j st with
  | nil => simp [downloadLoop] at h
  | cons c cs ih =>
    rw [downloadLoop] at h
    cases hu : downloadChunk env j c st with
    | mk s a' =>
      rw [hu] at h
      cases a' with
      | none => exact ih _ _ h
      | some a' =>
        simp only at h
        injection h with h
        subst h
        exact downloadChunk_abort env j c st a' (by rw [hu])

/-- A restore that returns or ends with `os.Exit(1)` has waited for its pool:
nothing is pending. -/
theorem download_pending (env : Env) (dest : Option (List Byte)) (bucket : Bucket)
    (fm : Filemeta)
    (h : (downloadFileFromChunks env dest bucket fm).abort = none ∨
      (downloadFileFromChunks env dest bucket fm).abort = some Abort.exit1) :
    (downloadFileFromChunks env dest bucket fm).eg.pending = [] := by
  unfold downloadFileFromChunks at h ⊢
  cases dest with
  | none => rfl
  | some data =>
    simp only at h ⊢
    cases ht : File.Truncate { data := data, pos := 0 } fm.TotalSize with
    | none => rfl
    | some f0 =>
      rw [ht] at h
      simp only at h ⊢
      cases hu : downloadLoop env fm.Chunks 0 { f := f0, eg := Group.New, bucket := bucket } with
      | mk st a =>
        cases a with
        | some a =>
          -- the loop stopped at a panic or at `log.Fatalf`
          exfalso
          rw [hu] at h
          simp only at h
          have ha : a = Abort.panic ∨ a = Abort.fatal :=
            downloadLoop_abort env fm.Chunks 0 _ a (by rw [hu])
          rcases h with h | h
          · simp at h
          · rcases ha with rfl | rfl <;> simp at h
        | none =>
          simp only
          split <;> exact Group.Wait_pending _ _ _

/-! ## Restore: a destination that needs nothing -/

/-- When no chunk of the manifest both reads as all zero and has `IsEmpty`
false, the loop submits nothing, calls the store for nothing and leaves the
bytes of the file as they are. -/
theorem downloadLoop_noop (env : Env) (cs : List Chunkmeta) (j : Nat) (st : DownloadState)
    (heg : st.eg = Group.New) (hlen : st.f.data.length < 2 ^ 63)
    (hcs : ∀ c ∈ cs, c.Start ≤ c.End ∧ c.End < st.f.data.length ∧
      c.End + 1 - c.Start ≤ maxRW ∧
      (isEmptyChunk (chunkRegion st.f.data c) = true → c.IsEmpty = true)) :
    (downloadLoop env cs j st).2 = none ∧
    (downloadLoop env cs j st).1.f.data = st.f.data ∧
    (downloadLoop env cs j st).1.eg = Group.New ∧
    (downloadLoop env cs j st).1.bucket = st.bucket := by
  induction cs generalizing j st with
  | nil => exact ⟨rfl, rfl, heg, rfl⟩
  | cons c cs ih =>
    have hnil : st.eg.completeAll (runDownloadTask env) (env.sched j) (st.f, st.bucket)
        = (st.eg, (st.f, st.bucket)) :=
      Group.completeAll_of_nil _ _ _ _ (by rw [heg]; rfl)
    obtain ⟨h1, h2, h4, h3⟩ := hcs c (List.mem_cons_self _ _)
    have hd := downloadChunk_eq env j c st h1 (by rw [hnil]; exact h2) (by rw [hnil]; exact hlen) h4
    rw [hnil] at hd
    simp only at hd
    have hcond : ¬ (isEmptyChunk (chunkRegion st.f.data c) = true ∧ c.IsEmpty = false) := by
      rintro ⟨ha, hb⟩
      rw [h3 ha] at hb
      simp at hb
    rw [if_neg hcond] at hd
    rw [downloadLoop, hd]
    simp only
    have hnext := ih (j + 1)
      { f := { data := st.f.data, pos := c.End + 1 }, eg := st.eg, bucket := st.bucket }
      heg hlen (fun c' hc' => hcs c' (List.mem_cons_of_mem _ hc'))
    exact hnext

/-- A restore whose sized destination needs nothing returns normally, with the
bytes of the destination unchanged, no task submitted and no store call made. -/
theorem download_noop (env : Env) (data : List Byte) (bucket : Bucket) (fm : Filemeta)
    (f0 : File) (ht : File.Truncate { data := data, pos := 0 } fm.TotalSize = some f0)
    (hlen : f0.data.length < 2 ^ 63)
    (hcs : ∀ c ∈ fm.Chunks, c.Start ≤ c.End ∧ c.End < f0.data.length ∧
      c.End + 1 - c.Start ≤ maxRW ∧
      (isEmptyChunk (chunkRegion f0.data c) = true → c.IsEmpty = true)) :
    (downloadFileFromChunks env (some data) bucket fm).abort = none ∧
    (downloadFileFromChunks env (some data) bucket fm).f.data = f0.data ∧
    (downloadFileFromChunks env (some data) bucket fm).eg = Group.New ∧
    (downloadFileFromChunks env (some data) bucket fm).bucket = bucket := by
  obtain ⟨h1, h2, h3, h4⟩ := downloadLoop_noop env fm.Chunks 0
    { f := f0, eg := Group.New, bucket := bucket } rfl hlen hcs
  unfold downloadFileFromChunks
  simp only [ht]
  cases hu : downloadLoop env fm.Chunks 0 { f := f0, eg := Group.New, bucket := bucket } with
  | mk st a =>
    rw [hu] at h1 h2 h3 h4
    simp only at h1 h2 h3 h4
    subst h1
    simp only
    rw [h3, Group.completeAll_of_nil _ _ _ _ rfl]
    simp only [Group.Wait, Group.New, List.length_nil, List.replicate_zero, Group.completeAll]
    exact ⟨trivial, h2, trivial, h4⟩

theorem Truncate_same (data : List Byte) :
    File.Truncate { data := data, pos := 0 } (data.length : Int)
      = some { data := data, pos := 0 } := by
  unfold File.Truncate
  rw [if_neg (by omega)]
  simp

/-! ## Restore: the fetch task and the account of the store calls -/

/-- What the fetch task does: one `read` call for its blob; when the read
succeeds the blob is written at the task's offset, when it fails the file is
left as it is and the error is the task's. The bucket keeps its objects. -/
theorem runDownloadTask_spec (env : Env) (t : DownloadTask) (w : File × Bucket) :
    (runDownloadTask env t w).2.2.calls = w.2.calls ++ [StoreCall.read t.blobPath] ∧
    (runDownloadTask env t w).2.2.objects = w.2.objects ∧
    (∀ o, env.fault w.2.calls.length = false →
      w.2.objects.find? (fun o => o.1 == t.blobPath) = some o →
      (runDownloadTask env t w).1 = none ∧
      (runDownloadTask env t w).2.1 = (w.1.Seek t.blobStart).Write o.2) ∧
    ((runDownloadTask env t w).1 ≠ none → (runDownloadTask env t w).2.1 = w.1) := by
  unfold runDownloadTask readFromGoogleStorage
  simp only
  cases hf : env.fault w.2.calls.length with
  | true => simp
  | false =>
    simp only [Bool.false_eq_true, if_false]
    cases hfind : w.2.objects.find? (fun o => o.1 == t.blobPath) with
    | none => simp
    | some o => simp

/-- A write at an offset within the file replaces the bytes from the offset on
and leaves the others. -/
theorem Write_at (data : List Byte) (pos start : Nat) (d : List Byte) (hd : d ≠ [])
    (h : start + d.length ≤ data.length) :
    ((File.Seek { data := data, pos := pos } (start : Int)).Write d).data
      = data.take start ++ d ++ data.drop (start + d.length) := by
  have hseek : File.Seek { data := data, pos := pos } (start : Int)
      = { data := data, pos := start } := by
    unfold File.Seek
    rw [if_neg (by omega)]
    simp
  rw [hseek]
  unfold File.Write
  simp only [if_neg hd]
  have : start - data.length = 0 := by omega
  rw [this, List.replicate_zero, List.append_nil]

theorem perm_cons_eraseIdx {τ : Type} {l : List τ} {k : Nat} {t : τ} (h : l[k]? = some t) :
    (t :: l.eraseIdx k).Perm l := by
  induction l generalizing k with
  | nil => simp at h
  | cons a l ih =>
    cases k with
    | zero =>
      simp at h
      subst h
      simp
    | succ k =>
      simp at h
      simp only [List.eraseIdx_cons_succ]
      exact (List.Perm.swap a t _).trans ((ih h).cons a)

/-- The account of a restore: the calls made to the store are one `read` per
completed task, in order of completion; the bucket keeps its objects; and the
tasks submitted are the completed and the pending ones. -/
theorem download_account (env : Env) (dest : Option (List Byte)) (bucket : Bucket)
    (fm : Filemeta) :
    (downloadFileFromChunks env dest bucket fm).bucket.calls =
      bucket.calls ++ (downloadFileFromChunks env dest bucket fm).eg.finished.map
        (fun p => StoreCall.read p.1.blobPath) ∧
    (downloadFileFromChunks env dest bucket fm).bucket.objects = bucket.objects ∧
    (downloadFileFromChunks env dest bucket fm).eg.submitted.Perm
      ((downloadFileFromChunks env dest bucket fm).eg.finished.map Prod.fst ++
        (downloadFileFromChunks env dest bucket fm).eg.pending) := by
  cases dest with
  | none => simp [downloadFileFromChunks, Group.New]
  | some data =>
    cases ht : File.Truncate { data := data, pos := 0 } fm.TotalSize with
    | none => simp [downloadFileFromChunks, ht, Group.New]
    | some f0 =>
      apply download_inv env
        (fun g _ b => b.calls = bucket.calls ++ g.finished.map (fun p => StoreCall.read p.1.blobPath) ∧
          b.objects = bucket.objects ∧ g.submitted.Perm (g.finished.map Prod.fst ++ g.pending))
        _ _ data bucket fm f0 ht
      · simp [Group.New]
      · intro k g w t hk h
        obtain ⟨h1, h2, h3⟩ := h
        obtain ⟨s1, s2, _, _⟩ := runDownloadTask_spec env t w
        refine ⟨?_, ?_, ?_⟩
        · rw [s1, h1]
          simp [Group.finish]
        · rw [s2, h2]
        · simp only [Group.finish, List.map_append, List.map_cons, List.map_nil,
            List.append_assoc, List.singleton_append]
          exact h3.trans ((perm_cons_eraseIdx hk).symm.append_left _)
      · intro g d b t h
        obtain ⟨h1, h2, h3⟩ := h
        refine ⟨h1, h2, ?_⟩
        simp only [Group.Go]
        rw [← List.append_assoc]
        exact h3.append_right _

/-! ## Round trip: a file of more than `2^53` bytes -/

theorem chunkBytes_zero_prefix (m j : Nat) (tail : List Byte)
    (h : (j + 1) * ChunkSize ≤ m) :
    chunkBytes (List.replicate m 0 ++ tail) j = List.replicate ChunkSize 0 := by
  have hmul : (j + 1) * ChunkSize = j * ChunkSize + ChunkSize := by ring
  unfold chunkBytes
  rw [List.drop_append_of_le_length (by rw [List.length_replicate]; omega), List.drop_replicate,
    List.take_append_of_le_length (by rw [List.length_replicate]; omega), List.take_replicate,
    Nat.min_eq_left (by omega)]

/-- A file of `m` zero bytes and a final byte `1`, whose manifest has `n` parts
that all end within the zero bytes: the manifest that a backup prints holds
only empty chunks, and a restore from it into a destination that reads as all
zero returns normally and leaves the destination all zero; the final byte is
not restored. -/
theorem roundtrip_zero_prefix (env env2 : Env) (fm : Filemeta) (m n : Nat)
    (hm : m + 1 < 2 ^ 63) (hn : partsNum ((m + 1 : Nat) : Int) ChunkSize = some n)
    (hcover : n * ChunkSize ≤ m)
    (hok : (uploadFileToChunks env (some (List.replicate m 0 ++ [1])) emptyBucket "file.img"
      ChunkSize).result = .ok fm) :
    (downloadFileFromChunks env2 (some [])
      (uploadFileToChunks env (some (List.replicate m 0 ++ [1])) emptyBucket "file.img"
        ChunkSize).bucket fm).abort = none ∧
    (downloadFileFromChunks env2 (some [])
      (uploadFileToChunks env (some (List.replicate m 0 ++ [1])) emptyBucket "file.img"
        ChunkSize).bucket fm).f.data = List.replicate (m + 1) 0 ∧
    (downloadFileFromChunks env2 (some [])
      (uploadFileToChunks env (some (List.replicate m 0 ++ [1])) emptyBucket "file.img"
        ChunkSize).bucket fm).f.data ≠ List.replicate m 0 ++ [1] := by
  have hcs := ChunkSize_pos
  have hlen : (List.replicate m (0 : Byte) ++ [1]).length = m + 1 := by
    rw [List.length_append, List.length_replicate, List.length_singleton]
  obtain ⟨n', hn', _, hfm, _⟩ := upload_ok_spec env (List.replicate m 0 ++ [1]) emptyBucket
    "file.img" ChunkSize fm (by rw [hlen]; exact hm) hok
  rw [hlen, hn] at hn'
  injection hn' with hn'
  subst hn'
  -- the destination, sized
  have ht : File.Truncate { data := [], pos := 0 } fm.TotalSize
      = some { data := List.replicate (m + 1) 0, pos := 0 } := by
    rw [hfm]
    simp only [hlen]
    unfold File.Truncate
    rw [if_neg (by omega)]
    simp
  have hnoop := download_noop env2 [] (uploadFileToChunks env (some (List.replicate m 0 ++ [1]))
      emptyBucket "file.img" ChunkSize).bucket fm _ ht
    (by simp only [List.length_replicate]; exact hm)
    (by
      intro c hc
      rw [hfm] at hc
      simp only [List.mem_map, List.mem_range] at hc
      obtain ⟨j, hj, rfl⟩ := hc
      have hj1 : (j + 1) * ChunkSize ≤ m := by
        have : (j + 1) * ChunkSize ≤ n * ChunkSize := Nat.mul_le_mul_right _ hj
        omega
      have hmul : (j + 1) * ChunkSize = j * ChunkSize + ChunkSize := by ring
      have hb := chunkBytes_zero_prefix m j [1] hj1
      unfold chunkAt
      simp only [hb, List.length_replicate, isEmptyChunk_replicate]
      have hrw := ChunkSize_le_maxRW
      refine ⟨by omega, by omega, by omega, fun _ => trivial⟩)
  obtain ⟨k1, k2, _, _⟩ := hnoop
  refine ⟨k1, k2, ?_⟩
  rw [k2]
  intro heq
  have h1 : (1 : Byte) ∈ List.replicate m (0 : Byte) ++ [1] := by simp
  rw [← heq] at h1
  have := (List.mem_replicate.mp h1).2
  exact absurd this (by decide)

/-- C1, the code at a failing input. The number of parts is computed in
`float64`. For the file of 9007199420416000 zero bytes followed by one byte
`1`, every backup that succeeds against the empty bucket prints a manifest of
34359739 empty chunks that stops one byte short of the file, and a restore
from that manifest into a destination that reads as all zero returns normally
with a destination of 9007199420416001 zero bytes: its last byte differs from
the source's. -/
theorem roundtrip_huge_file_differs (env env2 : Env) (fm : Filemeta)
    (hok : (uploadFileToChunks env (some (List.replicate 9007199420416000 0 ++ [1]))
      emptyBucket "file.img" ChunkSize).result = .ok fm) :
    (downloadFileFromChunks env2 (some [])
      (uploadFileToChunks env (some (List.replicate 9007199420416000 0 ++ [1])) emptyBucket
        "file.img" ChunkSize).bucket fm).abort = none ∧
    (downloadFileFromChunks env2 (some [])
      (uploadFileToChunks env (some (List.replicate 9007199420416000 0 ++ [1])) emptyBucket
        "file.img" ChunkSize).bucket fm).f.data = List.replicate (9007199420416000 + 1) 0 ∧
    (downloadFileFromChunks env2 (some [])
      (uploadFileToChunks env (some (List.replicate 9007199420416000 0 ++ [1])) emptyBucket
        "file.img" ChunkSize).bucket fm).f.data ≠ List.replicate 9007199420416000 0 ++ [1] :=
  roundtrip_zero_prefix env env2 fm 9007199420416000 34359739 (by norm_num) (by decide)
    (by decide) hok

/-- When no transfer fails, the backup of such a file prints its manifest. -/
theorem upload_zero_prefix_ok (env : Env) (hf : ∀ k, env.fault k = false) (m n : Nat)
    (hm : m + 1 < 2 ^ 63) (hn : partsNum ((m + 1 : Nat) : Int) ChunkSize = some n)
    (hcover : n * ChunkSize ≤ m) :
    ∃ fm, (uploadFileToChunks env (some (List.replicate m 0 ++ [1])) emptyBucket "file.img"
      ChunkSize).result = .ok fm := by
  have hlen : (List.replicate m (0 : Byte) ++ [1]).length = m + 1 := by
    rw [List.length_append, List.length_replicate, List.length_singleton]
  refine ⟨_, upload_no_fault_ok env hf (List.replicate m 0 ++ [1]) emptyBucket "file.img"
    ChunkSize n (by rw [hlen]; exact hm) (by rw [hlen]; exact hn) ?_⟩
  intro j hj
  rw [hlen]
  have : j * ChunkSize ≤ n * ChunkSize := Nat.mul_le_mul_right _ (Nat.le_of_lt hj)
  omega

/-- C1, witness: with no transfer failing the backup of that file succeeds, so
the statement applies to it. -/
theorem roundtrip_huge_file_differs_witness :
    ∃ fm, (uploadFileToChunks quietEnv (some (List.replicate 9007199420416000 0 ++ [1]))
        emptyBucket "file.img" ChunkSize).result = .ok fm ∧
      (downloadFileFromChunks quietEnv (some [])
        (uploadFileToChunks quietEnv (some (List.replicate 9007199420416000 0 ++ [1]))
          emptyBucket "file.img" ChunkSize).bucket fm).f.data
        ≠ List.replicate 9007199420416000 0 ++ [1] := by
  obtain ⟨fm, hok⟩ := upload_zero_prefix_ok quietEnv (fun _ => rfl) 9007199420416000 34359739
    (by norm_num) (by decide) (by decide)
  exact ⟨fm, hok, (roundtrip_huge_file_differs quietEnv quietEnv fm hok).2.2⟩

/-! ## Backup: the scenario of 600 MiB -/

/-- Every file of 629145600 bytes (600 MiB), uploaded as `main` does it, gets
exactly the three chunks `[0, 262143999]`, `[262144000, 524287999]` and
`[524288000, 629145599]`. -/
theorem upload_600MiB (env : Env) (data : List Byte) (bucket : Bucket)
    (fileName : String) (fm : Filemeta) (hlen : data.length = 629145600)
    (hok : (uploadFileToChunks env (some data) bucket fileName ChunkSize).result = .ok fm) :
    fm.TotalSize = 629145600 ∧
    fm.Chunks.map (fun c => (c.Start, c.End)) =
      [(0, 262143999), (262144000, 524287999), (524288000, 629145599)] := by
  have hcs := ChunkSize_eq
  obtain ⟨h1, h2, _⟩ := upload_partition env data bucket fileName fm (by omega)
    (by rw [hlen]; norm_num) hok
  have hn : (data.length + ChunkSize - 1) / ChunkSize = 3 := by rw [hlen, hcs]
  rw [hn] at h2
  have hr : List.range 3 = [0, 1, 2] := by decide
  have hl0 := chunkBytes_length data 0
  have hl1 := chunkBytes_length data 1
  have hl2 := chunkBytes_length data 2
  refine ⟨by rw [h1, hlen]; rfl, ?_⟩
  rw [h2, hr]
  simp only [List.map_cons, List.map_nil, chunkAt, Nat.zero_mul, Nat.zero_add, Nat.one_mul]
  simp only [List.cons.injEq, Prod.mk.injEq, true_and, and_true]
  omega

set_option maxRecDepth 100000 in
/-- C8, witness: with every transfer failing, the task of the file `1, 2, 3`
returns an error and the run ends with `os.Exit(1)`. -/
theorem upload_fail_fast_witness :
    (∃ t e, (t, some e) ∈
      (uploadFileToChunks failingEnv (some [1, 2, 3]) emptyBucket "file.img" ChunkSize).eg.finished) ∧
    (uploadFileToChunks failingEnv (some [1, 2, 3]) emptyBucket "file.img" ChunkSize).result
      = .error Abort.exit1 := by
  have h1 : ∃ t e, (t, some e) ∈
      (uploadFileToChunks failingEnv (some [1, 2, 3]) emptyBucket "file.img"
        ChunkSize).eg.finished :=
    ⟨{ fileName := "7037807198c22a7d2b0807371d763779a84fdfcf.blob", partBuffer := [1, 2, 3] },
      "write failed", by decide⟩
  obtain ⟨⟨a, ha⟩, _⟩ := upload_fail_fast.1 failingEnv (some [1, 2, 3]) emptyBucket "file.img"
    ChunkSize h1
  exact ⟨h1, by decide⟩

/-! ## Content keys -/

theorem hexDigit_injective : ∀ m, m < 16 → ∀ n, n < 16 → hexDigit m = hexDigit n → m = n := by
  decide

theorem hexPair_injective (a b : Byte)
    (h1 : hexDigit (a.val / 16) = hexDigit (b.val / 16))
    (h2 : hexDigit (a.val % 16) = hexDigit (b.val % 16)) : a = b := by
  have ha := a.isLt
  have hb := b.isLt
  have e1 := hexDigit_injective _ (by omega) _ (by omega) h1
  have e2 := hexDigit_injective _ (Nat.mod_lt _ (by norm_num)) _ (Nat.mod_lt _ (by norm_num)) h2
  apply Fin.ext
  omega

/-- The hex encoding determines the bytes. -/
theorem hexOfBytes_injective (bs cs : List Byte) (h : hexOfBytes bs = hexOfBytes cs) :
    bs = cs := by
  unfold hexOfBytes at h
  injection h with h
  induction bs generalizing cs with
  | nil =>
    cases cs with
    | nil => rfl
    | cons c cs => simp at h
  | cons b bs ih =>
    cases cs with
    | nil => simp at h
    | cons c cs =>
      simp only [List.flatMap_cons, List.cons_append, List.nil_append, List.cons.injEq] at h
      obtain ⟨h1, h2, h3⟩ := h
      rw [hexPair_injective b c h1 h2, ih cs h3]

/-- The blob key determines the digest. -/
theorem blobKey_injective (a b : String) (h : a ++ ".blob" = b ++ ".blob") : a = b := by
  have h1 : (a ++ ".blob").data = (b ++ ".blob").data := by rw [h]
  rw [String.data_append, String.data_append] at h1
  exact String.ext (List.append_cancel_right h1)

/-! ## Backup: what the bucket holds afterwards -/

/-- The objects of the bucket after a task: unchanged (and the task succeeds
only if the key is there), or extended by the task's blob. -/
theorem runUploadTask_objects (env : Env) (t : UploadTask) (b : Bucket) :
    ((runUploadTask env t b).2.objects = b.objects ∧
      ((runUploadTask env t b).1 = none → b.has t.fileName = true)) ∨
    ((runUploadTask env t b).2.objects = (t.fileName, t.partBuffer) :: b.objects ∧
      (runUploadTask env t b).1 = none) := by
  unfold runUploadTask checkFileExistsOnGoogleStorage writeToGoogleStorage Bucket.has
  simp only
  cases hhas : b.objects.any (fun o => o.1 == t.fileName) with
  | true => left; simp
  | false =>
    simp only [Bool.false_eq_true, if_false]
    split
    · left; simp
    · right; simp

/-- After a backup, whatever its schedule and its failures: the key of every
task that succeeded is in the bucket, every object of the bucket was there
before or is the blob of a submitted task, and the history of the pool is
consistent. -/
theorem upload_bucket_inv (env : Env) (file : Option (List Byte)) (b0 : Bucket)
    (fileName : String) (cs : Nat) :
    (∀ p ∈ (uploadFileToChunks env file b0 fileName cs).eg.finished, p.2 = none →
      (uploadFileToChunks env file b0 fileName cs).bucket.has p.1.fileName = true) ∧
    (∀ o ∈ (uploadFileToChunks env file b0 fileName cs).bucket.objects,
      o ∈ b0.objects ∨
      ∃ t ∈ (uploadFileToChunks env file b0 fileName cs).eg.submitted,
        o = (t.fileName, t.partBuffer)) ∧
    (uploadFileToChunks env file b0 fileName cs).eg.Consistent := by
  apply upload_inv env (fun g b =>
    (∀ p ∈ g.finished, p.2 = none → b.has p.1.fileName = true) ∧
    (∀ o ∈ b.objects, o ∈ b0.objects ∨ ∃ t ∈ g.submitted, o = (t.fileName, t.partBuffer)) ∧
    g.Consistent)
  · intro k g b t hk h
    obtain ⟨h1, h2, h3⟩ := h
    have htsub : t ∈ g.submitted := h3.2.1 t (Group.mem_pending_of_getElem? hk)
    refine ⟨?_, ?_, Consistent_finish g k t _ hk h3⟩
    · intro p hp hnone
      simp only [Group.finish, List.mem_append, List.mem_singleton] at hp
      rcases runUploadTask_objects env t b with ⟨ho, hs⟩ | ⟨ho, hs⟩
      · rcases hp with hp | rfl
        · have := h1 p hp hnone
          unfold Bucket.has at this ⊢
          rw [ho]; exact this
        · have := hs hnone
          unfold Bucket.has at this ⊢
          rw [ho]; exact this
      · rcases hp with hp | rfl
        · have := h1 p hp hnone
          unfold Bucket.has at this ⊢
          rw [ho]
          simp only [List.any_cons, this, Bool.or_true]
        · unfold Bucket.has
          rw [ho]
          simp
    · intro o ho
      simp only [Group.finish]
      rcases runUploadTask_objects env t b with ⟨hobj, _⟩ | ⟨hobj, _⟩
      · rw [hobj] at ho
        exact h2 o ho
      · rw [hobj, List.mem_cons] at ho
        rcases ho with rfl | ho
        · right; exact ⟨t, htsub, rfl⟩
        · exact h2 o ho
  · intro g b t _ h
    obtain ⟨h1, h2, h3⟩ := h
    refine ⟨h1, ?_, Consistent_Go g t h3⟩
    intro o ho
    rcases h2 o ho with h | ⟨t', ht', rfl⟩
    · left; exact h
    · right
      exact ⟨t', by simp [Group.Go, ht'], rfl⟩
  · refine ⟨?_, ?_, ?_⟩
    · intro p hp; simp [Group.New] at hp
    · intro o ho; left; exact ho
    · unfold Group.Consistent; simp [Group.New]

/-- After a backup that printed its manifest from an empty bucket, with the
digest injective on the parts of the file that hold a non-zero byte: the
bucket returns, for the key of each such part, the bytes of the part. -/
theorem upload_store (env : Env) (data : List Byte) (b0 : Bucket) (fileName : String)
    (cs n : Nat) (fm : Filemeta) (hlen : data.length < 2 ^ 63)
    (hok : (uploadFileToChunks env (some data) b0 fileName cs).result = .ok fm)
    (hn : partsNum (data.length : Int) cs = some n)
    (hb0 : b0.objects = [])
    (hinj : ∀ i j, i < n → j < n → isEmptyChunk (chunkBytes data i) = false →
      isEmptyChunk (chunkBytes data j) = false →
      sha1Sum (chunkBytes data i) = sha1Sum (chunkBytes data j) →
      chunkBytes data i = chunkBytes data j)
    (j : Nat) (hj : j < n) (hnz : isEmptyChunk (chunkBytes data j) = false) :
    ∃ o, (uploadFileToChunks env (some data) b0 fileName cs).bucket.objects.find?
        (fun o => o.1 == (fetchTask data j).blobPath) = some o ∧
      o.2 = chunkBytes data j := by
  obtain ⟨n', hn', _, _, hsub, hpend⟩ := upload_ok_spec env data b0 fileName cs fm hlen hok
  rw [hn] at hn'
  injection hn' with hn'
  subst hn'
  obtain ⟨q1, q2, q3⟩ := upload_bucket_inv env (some data) b0 fileName cs
  have herr := upload_ok_err_none env (some data) b0 fileName cs fm hok
  -- the task of part `j` was submitted, so it completed, without error
  have htask : taskAt data j
      = some (UploadTask.mk (fetchTask data j).blobPath (chunkBytes data j)) := by
    unfold taskAt fetchTask chunkAt
    simp [hnz]
  have hmem : UploadTask.mk (fetchTask data j).blobPath (chunkBytes data j)
      ∈ (uploadFileToChunks env (some data) b0 fileName cs).eg.submitted := by
    rw [hsub, List.mem_filterMap]
    exact ⟨j, List.mem_range.mpr hj, htask⟩
  obtain ⟨e, he⟩ : ∃ e, (UploadTask.mk (fetchTask data j).blobPath (chunkBytes data j), e)
        ∈ (uploadFileToChunks env (some data) b0 fileName cs).eg.finished := by
    rcases q3.1 _ hmem with h | h
    · rw [hpend] at h; simp at h
    · exact h
  have hnone : e = none := by
    cases e with
    | none => rfl
    | some x =>
      exact absurd herr (upload_failed_task_recorded env (some data) b0 fileName cs _ x he)
  have hhas := q1 _ he hnone
  simp only at hhas
  -- the object found under the key
  unfold Bucket.has at hhas
  rw [List.any_eq_true] at hhas
  obtain ⟨o', ho', hk'⟩ := hhas
  cases hfind : (uploadFileToChunks env (some data) b0 fileName cs).bucket.objects.find?
      (fun o => o.1 == (fetchTask data j).blobPath) with
  | none =>
    rw [List.find?_eq_none] at hfind
    exact absurd hk' (hfind o' ho')
  | some o =>
    refine ⟨o, rfl, ?_⟩
    have hokey := List.find?_some hfind
    have homem := List.mem_of_find?_eq_some hfind
    simp only [beq_iff_eq] at hokey
    rcases q2 o homem with h | ⟨t, ht, rfl⟩
    · rw [hb0] at h; simp at h
    · rw [hsub, List.mem_filterMap] at ht
      obtain ⟨i, hi, hti⟩ := ht
      rw [List.mem_range] at hi
      unfold taskAt at hti
      by_cases hzi : isEmptyChunk (chunkBytes data i) = true
      · simp [hzi] at hti
      · simp only [hzi, Bool.false_eq_true, if_false, Option.some.injEq] at hti
        subst hti
        simp only at hokey ⊢
        unfold fetchTask chunkAt at hokey
        simp only [hnz, Bool.false_eq_true, if_false] at hokey
        have h1 := hexOfBytes_injective _ _ (blobKey_injective _ _ hokey)
        exact hinj i j hi hj (by simpa using hzi) hnz h1

/-! ## Restore: bytes of the destination -/

/-- The bytes of a file after a block `X` was written at offset `a` within it. -/
theorem getElem?_written (d X : List Byte) (a k : Nat) (h : a + X.length ≤ d.length) :
    (d.take a ++ X ++ d.drop (a + X.length)).length = d.length ∧
    (d.take a ++ X ++ d.drop (a + X.length))[k]? =
      if k < a then d[k]? else if k < a + X.length then X[k - a]? else d[k]? := by
  have hta : (d.take a).length = a := by rw [List.length_take]; omega
  constructor
  · simp only [List.length_append, hta, List.length_drop]
    omega
  · by_cases h1 : k < a
    · rw [if_pos h1, List.append_assoc, List.getElem?_append_left (by omega),
        List.getElem?_take_of_lt h1]
    · rw [if_neg h1]
      by_cases h2 : k < a + X.length
      · rw [if_pos h2, List.getElem?_append_left (by rw [List.length_append]; omega),
          List.getElem?_append_right (by omega), hta]
      · rw [if_neg h2, List.getElem?_append_right (by rw [List.length_append]; omega),
          List.length_append, hta, List.getElem?_drop]
        congr 1
        omega

theorem getElem?_chunkBytes (data : List Byte) (i m : Nat) (hm : m < ChunkSize) :
    (chunkBytes data i)[m]? = data[i * ChunkSize + m]? := by
  unfold chunkBytes
  rw [List.getElem?_take_of_lt hm, List.getElem?_drop]

/-- A byte of a region of a file is the byte at an offset of the region. -/
theorem mem_region (d : List Byte) (s M : Nat) (v : Byte) (h : v ∈ (d.drop s).take M) :
    ∃ k, s ≤ k ∧ k < s + M ∧ d[k]? = some v := by
  rw [List.mem_iff_getElem?] at h
  obtain ⟨m, hm⟩ := h
  have hlt : m < M := by
    by_contra hc
    rw [List.getElem?_take_eq_none (by omega)] at hm
    simp at hm
  rw [List.getElem?_take_of_lt hlt, List.getElem?_drop] at hm
  exact ⟨s + m, by omega, by omega, hm⟩

/-- A part that the detector finds empty holds only zero bytes. -/
theorem data_zero_of_empty (data : List Byte) (i k : Nat)
    (hz : isEmptyChunk (chunkBytes data i) = true) (hk : k < data.length)
    (hi : k / ChunkSize = i) : data[k]? = some 0 := by
  have hcs := ChunkSize_pos
  rw [isEmptyChunk_eq_true_iff] at hz
  have hmod : k % ChunkSize < ChunkSize := Nat.mod_lt _ hcs
  have hdm := Nat.div_add_mod k ChunkSize
  rw [hi] at hdm
  have hget := getElem?_chunkBytes data i (k % ChunkSize) hmod
  have hidx : i * ChunkSize + k % ChunkSize = k := by rw [Nat.mul_comm]; exact hdm
  rw [hidx] at hget
  have hk' : data[k]? = some data[k] := List.getElem?_eq_getElem hk
  rw [hk'] at hget ⊢
  have hmem : data[k] ∈ chunkBytes data i := by
    rw [List.mem_iff_getElem?]
    exact ⟨_, hget⟩
  rw [hz _ hmem]

/-! ## Restore: the invariant of a round trip -/

theorem fetchTask_injective (data : List Byte) (i i2 : Nat)
    (h : fetchTask data i = fetchTask data i2) : i = i2 := by
  have hcs := ChunkSize_pos
  unfold fetchTask at h
  injection h with _ h2
  have h3 : i * ChunkSize = i2 * ChunkSize := by exact_mod_cast h2
  exact Nat.eq_of_mul_eq_mul_right hcs h3

/-- The completion of a fetch task keeps the invariant of the restore, when no
transfer fails and the bucket returns the bytes of every part under its key. -/
theorem RestoreInv_finish (env : Env) (hf : ∀ k, env.fault k = false) (data : List Byte)
    (B : List (String × List Byte))
    (hL : ∀ i, i * ChunkSize < data.length → isEmptyChunk (chunkBytes data i) = false →
      ∃ o, B.find? (fun o => o.1 == (fetchTask data i).blobPath) = some o ∧
        o.2 = chunkBytes data i)
    (j k : Nat) (g : Group DownloadTask) (w : File × Bucket) (t : DownloadTask)
    (hk : g.pending[k]? = some t)
    (h : RestoreInv data j g w.1.data ∧ w.2.objects = B) :
    RestoreInv data j (g.finish k t (runDownloadTask env t w).1)
        (runDownloadTask env t w).2.1.data ∧
      (runDownloadTask env t w).2.2.objects = B := by
  obtain ⟨⟨hlen, herr, hpend, hpt⟩, hobj⟩ := h
  have hcs := ChunkSize_eq
  obtain ⟨i, hij, hilen, hnz, rfl⟩ := hpend t (Group.mem_pending_of_getElem? hk)
  obtain ⟨o, hfind, ho⟩ := hL i hilen hnz
  obtain ⟨_, s2, s3, _⟩ := runDownloadTask_spec env (fetchTask data i) w
  obtain ⟨r1, r2⟩ := s3 o (hf _) (by rw [hobj]; exact hfind)
  -- the write
  have hXlen := chunkBytes_length data i
  have hXne : chunkBytes data i ≠ [] := by
    intro hc
    rw [hc] at hnz
    simp [isEmptyChunk] at hnz
  have hXpos : 0 < (chunkBytes data i).length := List.length_pos.mpr hXne
  have hfit : i * ChunkSize + (chunkBytes data i).length ≤ w.1.data.length := by
    rw [hlen, hXlen]; omega
  have hw := Write_at w.1.data w.1.pos (i * ChunkSize) (chunkBytes data i) hXne hfit
  have hdata : (runDownloadTask env (fetchTask data i) w).2.1.data
      = w.1.data.take (i * ChunkSize) ++ chunkBytes data i
        ++ w.1.data.drop (i * ChunkSize + (chunkBytes data i).length) := by
    rw [r2, ho]
    exact hw
  refine ⟨⟨?_, ?_, ?_, ?_⟩, by rw [s2, hobj]⟩
  · rw [hdata, (getElem?_written w.1.data _ _ 0 hfit).1, hlen]
  · simp only [Group.finish, herr, Option.isSome_none, Bool.false_eq_true, if_false]
    exact r1
  · intro t' ht'
    simp only [Group.finish] at ht'
    exact hpend t' (List.mem_of_mem_eraseIdx ht')
  · intro k' hk'
    obtain ⟨p1, p2⟩ := hpt k' hk'
    rw [hdata, (getElem?_written w.1.data _ _ k' hfit).2]
    by_cases hin : i * ChunkSize ≤ k' ∧ k' < i * ChunkSize + (chunkBytes data i).length
    · -- a byte of the part written
      have hdiv : k' / ChunkSize = i := by
        rw [hcs] at hin hXlen ⊢
        omega
      rw [if_neg (by omega), if_pos hin.2]
      have hget := getElem?_chunkBytes data i (k' - i * ChunkSize) (by omega)
      rw [show i * ChunkSize + (k' - i * ChunkSize) = k' by omega] at hget
      rw [hget]
      exact ⟨fun hc => by omega, fun _ => Or.inl rfl⟩
    · -- a byte of another part
      have hne : k' / ChunkSize ≠ i := by
        rw [hcs] at hin hXlen hilen ⊢
        omega
      have hsame : (if k' < i * ChunkSize then w.1.data[k']?
          else if k' < i * ChunkSize + (chunkBytes data i).length then
            (chunkBytes data i)[k' - i * ChunkSize]? else w.1.data[k']?) = w.1.data[k']? := by
        by_cases h1 : k' < i * ChunkSize
        · rw [if_pos h1]
        · rw [if_neg h1, if_neg (by omega)]
      rw [hsame]
      refine ⟨p1, ?_⟩
      intro hlt
      rcases p2 hlt with h | ⟨hz, hmem⟩
      · left; exact h
      · right
        refine ⟨hz, ?_⟩
        simp only [Group.finish]
        rcases Group.mem_eraseIdx_or hk hmem with h | h
        · exact h
        · exact absurd (fetchTask_injective data _ _ h) hne

/-- The iteration for part `j` of the manifest of the file moves the invariant
of the restore from `j` to `j + 1`, and does not stop the run. -/
theorem RestoreInv_chunk (env : Env) (hf : ∀ k, env.fault k = false) (data : List Byte)
    (B : List (String × List Byte))
    (hL : ∀ i, i * ChunkSize < data.length → isEmptyChunk (chunkBytes data i) = false →
      ∃ o, B.find? (fun o => o.1 == (fetchTask data i).blobPath) = some o ∧
        o.2 = chunkBytes data i)
    (hlen : data.length < 2 ^ 63) (j : Nat) (hj : j * ChunkSize < data.length)
    (st : DownloadState) (h : RestoreInv data j st.eg st.f.data ∧ st.bucket.objects = B) :
    (downloadChunk env j (chunkAt data j) st).2 = none ∧
    RestoreInv data (j + 1) (downloadChunk env j (chunkAt data j) st).1.eg
      (downloadChunk env j (chunkAt data j) st).1.f.data ∧
    (downloadChunk env j (chunkAt data j) st).1.bucket.objects = B := by
  have hcs := ChunkSize_eq
  have hc := Group.completeAll_inv (runDownloadTask env)
    (fun g w => RestoreInv data j g w.1.data ∧ w.2.objects = B)
    (fun k g w t hk hP => RestoreInv_finish env hf data B hL j k g w t hk hP)
    (env.sched j) st.eg (st.f, st.bucket) h
  obtain ⟨⟨clen, cerr, cpend, cpt⟩, cobj⟩ := hc
  have hXlen := chunkBytes_length data j
  have hS : (chunkAt data j).Start = j * ChunkSize := rfl
  have hE : (chunkAt data j).End = j * ChunkSize + (chunkBytes data j).length - 1 := rfl
  have hd := downloadChunk_eq env j (chunkAt data j) st (by rw [hS, hE]; omega)
    (by rw [clen, hE]; omega) (by rw [clen]; exact hlen)
    (by have := ChunkSize_le_maxRW; rw [hS, hE]; omega)
  -- the range reads as all zero
  have hzero : isEmptyChunk (chunkRegion (st.eg.completeAll (runDownloadTask env) (env.sched j)
      (st.f, st.bucket)).2.1.data (chunkAt data j)) = true := by
    rw [isEmptyChunk_eq_true_iff]
    intro v hv
    unfold chunkRegion at hv
    obtain ⟨k, hk1, hk2, hk3⟩ := mem_region _ _ _ v hv
    rw [hS] at hk1
    rw [hS, hE] at hk2
    have hklen : k < data.length := by omega
    have hdiv : j ≤ k / ChunkSize := by
      rw [hcs] at hk1 ⊢
      omega
    rw [(cpt k hklen).1 hdiv] at hk3
    injection hk3 with hk3
    exact hk3.symm
  rw [hd]
  refine ⟨rfl, ?_, cobj⟩
  simp only
  by_cases hempty : isEmptyChunk (chunkBytes data j) = true
  · -- an empty chunk: nothing is submitted
    have hIs : (chunkAt data j).IsEmpty = true := hempty
    rw [if_neg (by simp [hIs])]
    refine ⟨clen, cerr, ?_, ?_⟩
    · intro t ht
      obtain ⟨i, hi, rest⟩ := cpend t ht
      exact ⟨i, by omega, rest⟩
    · intro k hk
      obtain ⟨p1, p2⟩ := cpt k hk
      refine ⟨fun hge => p1 (by omega), ?_⟩
      intro hlt
      by_cases hkj : k / ChunkSize = j
      · left
        rw [p1 (by omega), data_zero_of_empty data j k hempty hk hkj]
      · exact p2 (by omega)
  · -- a chunk with a non-zero byte: its fetch task is submitted
    have hIs : (chunkAt data j).IsEmpty = false := by simpa using hempty
    rw [if_pos ⟨hzero, hIs⟩]
    have hgo : DownloadTask.mk ((chunkAt data j).Content ++ ".blob")
        ((chunkAt data j).Start : Int) = fetchTask data j := rfl
    rw [hgo]
    refine ⟨clen, cerr, ?_, ?_⟩
    · intro t ht
      simp only [Group.Go, List.mem_append, List.mem_singleton] at ht
      rcases ht with ht | rfl
      · obtain ⟨i, hi, rest⟩ := cpend t ht
        exact ⟨i, by omega, rest⟩
      · exact ⟨j, by omega, hj, by simpa using hempty, rfl⟩
    · intro k hk
      obtain ⟨p1, p2⟩ := cpt k hk
      refine ⟨fun hge => p1 (by omega), ?_⟩
      intro hlt
      simp only [Group.Go, List.mem_append, List.mem_singleton]
      by_cases hkj : k / ChunkSize = j
      · right
        exact ⟨p1 (by omega), Or.inr (by rw [hkj])⟩
      · rcases p2 (by omega) with h1 | ⟨h1, h2⟩
        · left; exact h1
        · right; exact ⟨h1, Or.inl h2⟩

/-- The loop over the parts `j, …, j + m - 1` of the manifest of the file moves
the invariant of the restore from `j` to `j + m`, and does not stop the run. -/
theorem RestoreInv_loop (env : Env) (hf : ∀ k, env.fault k = false) (data : List Byte)
    (B : List (String × List Byte))
    (hL : ∀ i, i * ChunkSize < data.length → isEmptyChunk (chunkBytes data i) = false →
      ∃ o, B.find? (fun o => o.1 == (fetchTask data i).blobPath) = some o ∧
        o.2 = chunkBytes data i)
    (hlen : data.length < 2 ^ 63) (m j : Nat)
    (hin : ∀ i, j ≤ i → i < j + m → i * ChunkSize < data.length)
    (st : DownloadState) (h : RestoreInv data j st.eg st.f.data ∧ st.bucket.objects = B) :
    (downloadLoop env ((List.range' j m).map (chunkAt data)) j st).2 = none ∧
    RestoreInv data (j + m)
      (downloadLoop env ((List.range' j m).map (chunkAt data)) j st).1.eg
      (downloadLoop env ((List.range' j m).map (chunkAt data)) j st).1.f.data ∧
    (downloadLoop env ((List.range' j m).map (chunkAt data)) j st).1.bucket.objects = B := by
  induction m generalizing j st with
  | zero => exact ⟨rfl, h.1, h.2⟩
  | succ m ih =>
    obtain ⟨c1, c2, c3⟩ := RestoreInv_chunk env hf data B hL hlen j
      (hin j (le_refl _) (by omega)) st h
    rw [List.range'_succ, List.map_cons, downloadLoop]
    cases hu : downloadChunk env j (chunkAt data j) st with
    | mk s a =>
      rw [hu] at c1 c2 c3
      simp only at c1 c2 c3
      subst c1
      simp only
      have hnext := ih (j + 1) (fun i h1 h2 => hin i (by omega) (by omega)) s ⟨c2, c3⟩
      rw [show j + 1 + m = j + (m + 1) by omega] at hnext
      exact hnext

/-! ## Round trip below `2^53` bytes -/

/-- Backup/restore round trip for a file below `2^53` bytes: if the backup, made
as `main` makes it against a bucket that holds no blob, prints its manifest,
and the digest is injective on the chunks of the file that hold a non-zero
byte, then a restore from that manifest and that bucket, with no fetch
failing, into a destination that reads as all zero once sized, returns
normally and leaves a destination equal to the file, byte for byte. This
holds for every schedule of the two pools. -/
theorem roundtrip_below_2_53 (env env2 : Env) (data d0 : List Byte) (b0 : Bucket)
    (fileName : String) (fm : Filemeta)
    (h0 : 0 < data.length) (h53 : data.length < 2 ^ 53) (hb0 : b0.objects = [])
    (hok : (uploadFileToChunks env (some data) b0 fileName ChunkSize).result = .ok fm)
    (hinj : ∀ c1 ∈ fm.Chunks, ∀ c2 ∈ fm.Chunks, c1.IsEmpty = false → c2.IsEmpty = false →
      sha1Sum (chunkRegion data c1) = sha1Sum (chunkRegion data c2) →
      chunkRegion data c1 = chunkRegion data c2)
    (hf2 : ∀ k, env2.fault k = false)
    (hdest : File.Truncate { data := d0, pos := 0 } fm.TotalSize
      = some { data := List.replicate data.length 0, pos := 0 }) :
    (downloadFileFromChunks env2 (some d0)
      (uploadFileToChunks env (some data) b0 fileName ChunkSize).bucket fm).abort = none ∧
    (downloadFileFromChunks env2 (some d0)
      (uploadFileToChunks env (some data) b0 fileName ChunkSize).bucket fm).f.data = data := by
  have hcs := ChunkSize_eq
  have h63 : data.length < 2 ^ 63 := lt_of_lt_of_le h53 (by norm_num)
  obtain ⟨_, hchunks, _⟩ := upload_partition env data b0 fileName fm h0 h53 hok
  have hn := partsNum_exact h0 h53
  generalize hnn : (data.length + ChunkSize - 1) / ChunkSize = n at hchunks hn
  have hrange : ∀ i, i < n ↔ i * ChunkSize < data.length := by
    intro i
    rw [← hnn, hcs]
    constructor
    · intro hi
      omega
    · intro hi
      omega
  -- the digest is injective on the parts
  have hinj' : ∀ i j, i < n → j < n → isEmptyChunk (chunkBytes data i) = false →
      isEmptyChunk (chunkBytes data j) = false →
      sha1Sum (chunkBytes data i) = sha1Sum (chunkBytes data j) →
      chunkBytes data i = chunkBytes data j := by
    intro i j hi hj hzi hzj hs
    have ri := chunkRegion_chunkAt data i h0 (Nat.le_of_lt ((hrange i).mp hi))
    have rj := chunkRegion_chunkAt data j h0 (Nat.le_of_lt ((hrange j).mp hj))
    have := hinj (chunkAt data i) (by rw [hchunks]; exact List.mem_map_of_mem _ (List.mem_range.mpr hi))
      (chunkAt data j) (by rw [hchunks]; exact List.mem_map_of_mem _ (List.mem_range.mpr hj))
      hzi hzj (by rw [ri, rj]; exact hs)
    rw [ri, rj] at this
    exact this
  -- what the bucket returns
  have hL : ∀ i, i * ChunkSize < data.length → isEmptyChunk (chunkBytes data i) = false →
      ∃ o, (uploadFileToChunks env (some data) b0 fileName ChunkSize).bucket.objects.find?
          (fun o => o.1 == (fetchTask data i).blobPath) = some o ∧
        o.2 = chunkBytes data i := by
    intro i hi hz
    exact upload_store env data b0 fileName ChunkSize n fm h63 hok hn hb0 hinj' i
      ((hrange i).mpr hi) hz
  -- the invariant when the loop starts
  have hinit : RestoreInv data 0 (Group.New : Group DownloadTask)
      (List.replicate data.length (0 : Byte)) := by
    refine ⟨List.length_replicate _ _, rfl, ?_, ?_⟩
    · intro t ht; simp [Group.New] at ht
    · intro k hk
      refine ⟨fun _ => ?_, fun hc => absurd hc (Nat.not_lt_zero _)⟩
      rw [List.getElem?_replicate, if_pos hk]
  have hloop := RestoreInv_loop env2 hf2 data _ hL h63 n 0
    (fun i _ hi => (hrange i).mp (by omega))
    { f := { data := List.replicate data.length 0, pos := 0 }, eg := Group.New,
      bucket := (uploadFileToChunks env (some data) b0 fileName ChunkSize).bucket }
    ⟨hinit, rfl⟩
  rw [← List.range_eq_range', ← hchunks, Nat.zero_add] at hloop
  obtain ⟨l1, l2, l3⟩ := hloop
  unfold downloadFileFromChunks
  simp only [hdest]
  cases hu : downloadLoop env2 fm.Chunks 0
      { f := { data := List.replicate data.length 0, pos := 0 }, eg := Group.New,
        bucket := (uploadFileToChunks env (some data) b0 fileName ChunkSize).bucket } with
  | mk st a =>
    rw [hu] at l1 l2 l3
    simp only at l1 l2 l3
    subst l1
    simp only
    -- the completions at `Wait`
    have hstep : ∀ k g (w : File × Bucket) t, g.pending[k]? = some t →
        (RestoreInv data n g w.1.data ∧ w.2.objects
          = (uploadFileToChunks env (some data) b0 fileName ChunkSize).bucket.objects) →
        (RestoreInv data n (g.finish k t (runDownloadTask env2 t w).1)
            (runDownloadTask env2 t w).2.1.data ∧
          (runDownloadTask env2 t w).2.2.objects
            = (uploadFileToChunks env (some data) b0 fileName ChunkSize).bucket.objects) :=
      fun k g w t hk hP => RestoreInv_finish env2 hf2 data _ hL n k g w t hk hP
    have hw1 := Group.completeAll_inv (runDownloadTask env2)
      (fun g w => RestoreInv data n g w.1.data ∧ w.2.objects
        = (uploadFileToChunks env (some data) b0 fileName ChunkSize).bucket.objects)
      hstep (env2.sched fm.Chunks.length) st.eg (st.f, st.bucket) ⟨l2, l3⟩
    have hw2 := Group.Wait_inv (runDownloadTask env2)
      (fun g w => RestoreInv data n g w.1.data ∧ w.2.objects
        = (uploadFileToChunks env (some data) b0 fileName ChunkSize).bucket.objects)
      hstep _ _ hw1
    have hpend := Group.Wait_pending (runDownloadTask env2)
      (st.eg.completeAll (runDownloadTask env2) (env2.sched fm.Chunks.length)
        (st.f, st.bucket)).1
      (st.eg.completeAll (runDownloadTask env2) (env2.sched fm.Chunks.length)
        (st.f, st.bucket)).2
    obtain ⟨⟨wlen, werr, _, wpt⟩, _⟩ := hw2
    rw [Group.Wait_fst, werr]
    simp only
    refine ⟨trivial, ?_⟩
    apply List.ext_getElem?
    intro k
    by_cases hk : k < data.length
    · have hkn : k / ChunkSize < n := by
        rw [hrange, hcs]
        omega
      rcases (wpt k hk).2 hkn with h | ⟨_, hmem⟩
      · exact h
      · rw [hpend] at hmem
        simp at hmem
    · rw [List.getElem?_eq_none (by rw [wlen]; omega), List.getElem?_eq_none (by omega)]

/-! ## Restore: a destination that is already reconstructed -/

theorem chunk_len_of_le {s e : Nat} (h1 : s ≤ e) (h2 : e < 2 ^ 64) (h3 : e + 1 - s < 2 ^ 63) :
    int64OfU64 (u64 (u64Sub e s + 1)) = ((e + 1 - s : Nat) : Int) := by
  have hs : u64Sub e s = e - s := by
    unfold u64Sub
    omega
  rw [hs, u64_of_lt (by omega), int64OfU64_of_lt (by omega)]
  congr 1
  omega

/-- A chunk of at most `maxRW` bytes whose range holds a non-zero byte of the
file is read into a buffer that holds that byte. -/
theorem buffer_nonzero (f : File) (c : Chunkmeta) (hlen : f.data.length < 2 ^ 63)
    (hz : isEmptyChunk (chunkRegion f.data c) = false) (hb : c.End + 1 - c.Start ≤ maxRW) :
    int64OfU64 (u64 (u64Sub c.End c.Start + 1)) = ((c.End + 1 - c.Start : Nat) : Int) ∧
    isEmptyChunk ((f.Seek (int64OfU64 c.Start)).Read (c.End + 1 - c.Start)).1 = false := by
  have hrw := maxRW_eq
  rw [isEmptyChunk_eq_false_iff] at hz
  obtain ⟨v, hv, hv0⟩ := hz
  unfold chunkRegion at hv
  obtain ⟨k, hk1, hk2, hk3⟩ := mem_region _ _ _ v hv
  have hklen : k < f.data.length := by
    by_contra hc
    rw [List.getElem?_eq_none (by omega)] at hk3
    simp at hk3
  have hstart : int64OfU64 c.Start = (c.Start : Int) := int64OfU64_of_lt (by omega)
  have hseek : f.Seek (c.Start : Int) = { data := f.data, pos := c.Start } := by
    unfold File.Seek
    rw [if_neg (by omega)]
    simp
  refine ⟨chunk_len_of_le (by omega) (by omega) (by omega), ?_⟩
  rw [hstart, hseek, isEmptyChunk_eq_false_iff]
  refine ⟨v, ?_, hv0⟩
  unfold File.Read
  simp only [Nat.min_eq_left hb]
  exact List.mem_append_left _ hv

/-- The iteration for a chunk that is flagged empty, or whose range holds a
non-zero byte, leaves the bytes of the file, the pool and the bucket as they
are when no task is pending, whether or not it stops the run. -/
theorem downloadChunk_quiet (env : Env) (j : Nat) (c : Chunkmeta) (st : DownloadState)
    (heg : st.eg = Group.New) (hlen : st.f.data.length < 2 ^ 63)
    (hc : c.IsEmpty = false →
      isEmptyChunk (chunkRegion st.f.data c) = false ∧ c.End + 1 - c.Start ≤ maxRW) :
    (downloadChunk env j c st).1.f.data = st.f.data ∧
    (downloadChunk env j c st).1.eg = Group.New ∧
    (downloadChunk env j c st).1.bucket = st.bucket := by
  have hnil : st.eg.completeAll (runDownloadTask env) (env.sched j) (st.f, st.bucket)
      = (st.eg, (st.f, st.bucket)) :=
    Group.completeAll_of_nil _ _ _ _ (by rw [heg]; rfl)
  have hseek : (File.Seek st.f (int64OfU64 c.Start)).data = st.f.data := by
    unfold File.Seek
    split <;> rfl
  have hread : ∀ n, (File.Read (File.Seek st.f (int64OfU64 c.Start)) n).2.2.2.data
      = st.f.data := by
    intro n
    simp only [File.Read, hseek]
  unfold downloadChunk
  simp only [hnil]
  split
  · exact ⟨rfl, heg, rfl⟩
  · split
    · exact ⟨hread _, heg, rfl⟩
    · split
      · rename_i hbuf
        split
        · exact ⟨hread _, heg, rfl⟩
        · -- the buffer reads as all zero and the chunk is not flagged empty
          rename_i hne
          exfalso
          obtain ⟨hz, hb⟩ := hc (by simpa using hne)
          obtain ⟨b1, b2⟩ := buffer_nonzero st.f c hlen hz hb
          rw [b1, Int.toNat_ofNat, b2] at hbuf
          simp at hbuf
      · split <;> exact ⟨hread _, heg, rfl⟩

theorem downloadLoop_quiet (env : Env) (cs : List Chunkmeta) (j : Nat) (st : DownloadState)
    (heg : st.eg = Group.New) (hlen : st.f.data.length < 2 ^ 63)
    (hcs : ∀ c ∈ cs, c.IsEmpty = false →
      isEmptyChunk (chunkRegion st.f.data c) = false ∧ c.End + 1 - c.Start ≤ maxRW) :
    (downloadLoop env cs j st).1.f.data = st.f.data ∧
    (downloadLoop env cs j st).1.eg = Group.New ∧
    (downloadLoop env cs j st).1.bucket = st.bucket := by
  induction cs generalizing j st with
  | nil => exact ⟨rfl, heg, rfl⟩
  | cons c cs ih =>
    obtain ⟨q1, q2, q3⟩ := downloadChunk_quiet env j c st heg hlen (hcs c (List.mem_cons_self _ _))
    rw [downloadLoop]
    cases hu : downloadChunk env j c st with
    | mk s a =>
      rw [hu] at q1 q2 q3
      simp only at q1 q2 q3
      cases a with
      | some a => exact ⟨q1, q2, q3⟩
      | none =>
        simp only
        obtain ⟨r1, r2, r3⟩ := ih (j + 1) s q2 (by rw [q1]; exact hlen)
          (fun c' hc' => by rw [q1]; exact hcs c' (List.mem_cons_of_mem _ hc'))
        exact ⟨by rw [r1, q1], r2, by rw [r3, q3]⟩

/-- A restore in which no chunk both reads as all zero and is not flagged empty
leaves the bytes of its sized destination as they are, submits no task and
makes no store call, however it ends. -/
theorem download_quiet (env : Env) (data : List Byte) (bucket : Bucket) (fm : Filemeta)
    (f0 : File) (ht : File.Truncate { data := data, pos := 0 } fm.TotalSize = some f0)
    (hlen : f0.data.length < 2 ^ 63)
    (hcs : ∀ c ∈ fm.Chunks, c.IsEmpty = false →
      isEmptyChunk (chunkRegion f0.data c) = false ∧ c.End + 1 - c.Start ≤ maxRW) :
    (downloadFileFromChunks env (some data) bucket fm).f.data = f0.data ∧
    (downloadFileFromChunks env (some data) bucket fm).eg = Group.New ∧
    (downloadFileFromChunks env (some data) bucket fm).bucket = bucket := by
  obtain ⟨h2, h3, h4⟩ := downloadLoop_quiet env fm.Chunks 0
    { f := f0, eg := Group.New, bucket := bucket } rfl hlen hcs
  unfold downloadFileFromChunks
  simp only [ht]
  cases hu : downloadLoop env fm.Chunks 0 { f := f0, eg := Group.New, bucket := bucket } with
  | mk st a =>
    rw [hu] at h2 h3 h4
    simp only at h2 h3 h4
    cases a with
    | some a => exact ⟨h2, h3, h4⟩
    | none =>
      simp only
      rw [h3, Group.completeAll_of_nil _ _ _ _ rfl]
      simp only [Group.Wait, Group.New, List.length_nil, List.replicate_zero, Group.completeAll]
      exact ⟨h2, trivial, h4⟩

/-- C6. Idempotent restore: for every manifest and every destination file that
is already correctly reconstructed (its length is the total size; a chunk is
flagged empty exactly when its bytes are all zero, so every chunk with `IsEmpty`
true reads as all zero; every chunk with `IsEmpty` false holds bytes whose hex
digest equals `Content`, and is at most `maxRW` bytes long, as every chunk of at
most the maximum chunk size is), `downloadFileFromChunks` submits no task,
makes no store call and leaves the bytes of the file unchanged; so a second
restore right after it makes no store call either and leaves the file
unchanged too. When moreover every range lies within the file, the restore
returns normally. -/
theorem download_idempotent (env env2 : Env) (data : List Byte) (bucket : Bucket)
    (fm : Filemeta) (hsize : fm.TotalSize = (data.length : Int)) (h63 : data.length < 2 ^ 63)
    (hcs : ∀ c ∈ fm.Chunks,
      (c.IsEmpty = true ↔ isEmptyChunk (chunkRegion data c) = true) ∧
      (c.IsEmpty = false → hexOfBytes (sha1Sum (chunkRegion data c)) = c.Content ∧
        c.End + 1 - c.Start ≤ maxRW)) :
    (downloadFileFromChunks env (some data) bucket fm).f.data = data ∧
    (downloadFileFromChunks env (some data) bucket fm).eg.submitted = [] ∧
    (downloadFileFromChunks env (some data) bucket fm).bucket = bucket ∧
    (downloadFileFromChunks env2 (some (downloadFileFromChunks env (some data) bucket fm).f.data)
      (downloadFileFromChunks env (some data) bucket fm).bucket fm).bucket = bucket ∧
    (downloadFileFromChunks env2 (some (downloadFileFromChunks env (some data) bucket fm).f.data)
      (downloadFileFromChunks env (some data) bucket fm).bucket fm).f.data = data ∧
    ((∀ c ∈ fm.Chunks, c.Start ≤ c.End ∧ c.End < data.length ∧ c.End + 1 - c.Start ≤ maxRW) →
      (downloadFileFromChunks env (some data) bucket fm).abort = none) := by
  have ht : File.Truncate { data := data, pos := 0 } fm.TotalSize
      = some { data := data, pos := 0 } := by
    rw [hsize]; exact Truncate_same data
  have hcs' : ∀ c ∈ fm.Chunks, c.IsEmpty = false →
      isEmptyChunk (chunkRegion data c) = false ∧ c.End + 1 - c.Start ≤ maxRW := by
    intro c hc hne
    obtain ⟨h1, h2⟩ := hcs c hc
    refine ⟨?_, (h2 hne).2⟩
    by_contra hz
    have := h1.mpr (by simpa using hz)
    rw [hne] at this
    simp at this
  have key : ∀ e : Env,
      (downloadFileFromChunks e (some data) bucket fm).f.data = data ∧
      (downloadFileFromChunks e (some data) bucket fm).eg = Group.New ∧
      (downloadFileFromChunks e (some data) bucket fm).bucket = bucket :=
    fun e => download_quiet e data bucket fm _ ht h63 hcs'
  obtain ⟨k2, k3, k4⟩ := key env
  refine ⟨k2, by rw [k3]; rfl, k4, ?_, ?_, ?_⟩
  · rw [k2, k4]
    exact (key env2).2.2
  · rw [k2, k4]
    exact (key env2).1
  · intro hin
    exact (download_noop env data bucket fm _ ht h63 (fun c hc => by
      obtain ⟨g1, g2, g3⟩ := hin c hc
      exact ⟨g1, g2, g3, (hcs c hc).1.mpr⟩)).1

set_option maxRecDepth 100000 in
/-- C6, witness: the file `1, 2, 3, 0, 0, 1, 2, 3` and its manifest of three
chunks, the second one flagged empty. -/
theorem download_idempotent_witness :
    (downloadFileFromChunks quietEnv (some [1, 2, 3, 0, 0, 1, 2, 3]) prefilledBucket
      restoredManifest).f.data = [1, 2, 3, 0, 0, 1, 2, 3] ∧
    (downloadFileFromChunks quietEnv (some [1, 2, 3, 0, 0, 1, 2, 3]) prefilledBucket
      restoredManifest).bucket = prefilledBucket ∧
    (downloadFileFromChunks quietEnv (some [1, 2, 3, 0, 0, 1, 2, 3]) prefilledBucket
      restoredManifest).abort = none := by
  have h := download_idempotent quietEnv quietEnv [1, 2, 3, 0, 0, 1, 2, 3] prefilledBucket
    restoredManifest rfl (by decide) (by decide)
  exact ⟨h.1, h.2.2.1, h.2.2.2.2.2 (by decide)⟩

/-- A restore over the very file a backup was made of, from the manifest that
backup printed: no task is submitted, no store call is made and the bytes of
the file are left as they are. This holds for every chunk size argument of the
backup, every bucket and every schedule. -/
theorem download_after_upload_quiet (env env2 : Env) (data : List Byte) (b0 bucket : Bucket)
    (fileName : String) (cs : Nat) (fm : Filemeta) (hlen : data.length < 2 ^ 63)
    (hok : (uploadFileToChunks env (some data) b0 fileName cs).result = .ok fm) :
    (downloadFileFromChunks env2 (some data) bucket fm).f.data = data ∧
    (downloadFileFromChunks env2 (some data) bucket fm).eg.submitted = [] ∧
    (downloadFileFromChunks env2 (some data) bucket fm).bucket = bucket := by
  obtain ⟨n, _, hin, hfm, _, _⟩ := upload_ok_spec env data b0 fileName cs fm hlen hok
  have hsize : fm.TotalSize = (data.length : Int) := by rw [hfm]
  have ht : File.Truncate { data := data, pos := 0 } fm.TotalSize
      = some { data := data, pos := 0 } := by
    rw [hsize]; exact Truncate_same data
  have hrw := ChunkSize_le_maxRW
  have hq := download_quiet env2 data bucket fm _ ht hlen (by
    intro c hc hne
    rw [hfm] at hc
    simp only [List.mem_map, List.mem_range] at hc
    obtain ⟨i, hi, rfl⟩ := hc
    have hreg : chunkRegion data (chunkAt data i) = chunkBytes data i := by
      rcases Nat.eq_zero_or_pos data.length with h0 | h0
      · have hnil : data = [] := List.length_eq_zero.mp h0
        subst hnil
        simp [chunkRegion, chunkBytes]
      · exact chunkRegion_chunkAt data i h0 (hin i hi)
    have hflag : isEmptyChunk (chunkBytes data i) = false := hne
    have hl := chunkBytes_length data i
    have hpos : 0 < (chunkBytes data i).length := by
      apply List.length_pos.mpr
      intro hc
      rw [hc] at hflag
      simp [isEmptyChunk] at hflag
    refine ⟨by simp only [hreg]; exact hflag, ?_⟩
    show i * ChunkSize + (chunkBytes data i).length - 1 + 1 - i * ChunkSize ≤ maxRW
    omega)
  exact ⟨hq.1, by rw [hq.2.1]; rfl, hq.2.2⟩

/-! ## Restore: the bytes a fetch task writes -/

theorem getElem?_region (d : List Byte) (s n m : Nat) :
    ((d.drop s).take n)[m]? = if m < n then d[s + m]? else none := by
  by_cases h : m < n
  · rw [if_pos h, List.getElem?_take_of_lt h, List.getElem?_drop]
  · rw [if_neg h, List.getElem?_take_eq_none (by omega)]

theorem region_written_self (d X : List Byte) (a : Nat) (h : a + X.length ≤ d.length) :
    ((d.take a ++ X ++ d.drop (a + X.length)).drop a).take X.length = X := by
  apply List.ext_getElem?
  intro m
  rw [getElem?_region, (getElem?_written d X a (a + m) h).2]
  by_cases hm : m < X.length
  · rw [if_pos hm, if_neg (by omega), if_pos (by omega)]
    congr 1
    omega
  · rw [if_neg hm, List.getElem?_eq_none (by omega)]

theorem region_written_other (d X : List Byte) (a s n : Nat) (h : a + X.length ≤ d.length)
    (hd : s + n ≤ a ∨ a + X.length ≤ s) :
    ((d.take a ++ X ++ d.drop (a + X.length)).drop s).take n = (d.drop s).take n := by
  apply List.ext_getElem?
  intro m
  rw [getElem?_region, getElem?_region, (getElem?_written d X a (s + m) h).2]
  by_cases hm : m < n
  · rw [if_pos hm, if_pos hm]
    by_cases h1 : s + m < a
    · rw [if_pos h1]
    · rw [if_neg h1, if_neg (by omega)]
  · rw [if_neg hm, if_neg hm]

/-- A write at an offset within the file replaces the bytes from the offset on
and leaves the others. -/
theorem Write_data (f : File) (start : Nat) (x : List Byte)
    (h : start + x.length ≤ f.data.length) :
    ((f.Seek (start : Int)).Write x).data
      = f.data.take start ++ x ++ f.data.drop (start + x.length) := by
  have hseek : f.Seek (start : Int) = { data := f.data, pos := start } := by
    unfold File.Seek
    rw [if_neg (by omega)]
    simp
  rw [hseek]
  unfold File.Write
  by_cases hx : x = []
  · subst hx
    simp
  · simp only [if_neg hx]
    have : start - f.data.length = 0 := by omega
    rw [this, List.replicate_zero, List.append_nil]

/-- What a fetch task does: one `read` call on its key; the read succeeds when
the transfer does not fail and the bucket holds the key, and then the blob is
written at the task's offset; otherwise the task fails and the file is left
as it is. -/
theorem runDownloadTask_cases (env : Env) (t : DownloadTask) (w : File × Bucket) :
    (runDownloadTask env t w).2.2.calls = w.2.calls ++ [StoreCall.read t.blobPath] ∧
    (runDownloadTask env t w).2.2.objects = w.2.objects ∧
    ((∃ x, env.fault w.2.calls.length = false ∧ w.2.lookup t.blobPath = some x ∧
        (runDownloadTask env t w).1 = none ∧
        (runDownloadTask env t w).2.1 = (w.1.Seek t.blobStart).Write x) ∨
      ((env.fault w.2.calls.length = true ∨ w.2.lookup t.blobPath = none) ∧
        (runDownloadTask env t w).1 ≠ none ∧ (runDownloadTask env t w).2.1 = w.1)) := by
  unfold runDownloadTask readFromGoogleStorage Bucket.lookup
  simp only
  cases hf : env.fault w.2.calls.length with
  | true => simp
  | false =>
    simp only [Bool.false_eq_true, if_false]
    cases hfind : w.2.objects.find? (fun o => o.1 == t.blobPath) with
    | none => simp
    | some o => simp

/-! ## Restore: the invariant of a run -/

theorem RangesOk.sep {len : Nat} {b0 : Bucket} {all : List Chunkmeta} (hr : RangesOk len b0 all)
    {a b : Chunkmeta} (ha : a ∈ all) (hb : b ∈ all) (hne : a ≠ b) :
    a.End < b.Start ∨ b.End < a.Start := by
  have hsym : Symmetric (fun a b : Chunkmeta => a.End < b.Start ∨ b.End < a.Start) :=
    fun _ _ h => h.symm
  exact hr.2.2.1.forall hsym ha hb hne

theorem RangesOk.nodup {len : Nat} {b0 : Bucket} {all : List Chunkmeta}
    (hr : RangesOk len b0 all) : all.Nodup := by
  refine List.Pairwise.imp_of_mem ?_ hr.2.2.1
  intro a b ha _ hab heq
  subst heq
  have := (hr.2.1 a ha).1
  omega

theorem RangesOk.inj {len : Nat} {b0 : Bucket} {all : List Chunkmeta} (hr : RangesOk len b0 all)
    {a b : Chunkmeta} (ha : a ∈ all) (hb : b ∈ all) (h : fetchOf a = fetchOf b) : a = b := by
  by_contra hne
  have hs := hr.sep ha hb hne
  have h1 := (hr.2.1 a ha).1
  have h2 := (hr.2.1 b hb).1
  unfold fetchOf at h
  injection h with _ h3
  have h4 : a.Start = b.Start := by exact_mod_cast h3
  omega

/-- The tasks submitted so far are pairwise different. -/
theorem submitted_nodup {len : Nat} {b0 : Bucket} {all pre : List Chunkmeta}
    (hr : RangesOk len b0 all) (hpre : pre.Sublist all) (d0 : List Byte) :
    ((pre.filter (needsFetch d0)).map fetchOf).Nodup := by
  apply List.Nodup.map_on
  · intro a ha b hb hab
    exact hr.inj (hpre.subset (List.mem_of_mem_filter ha)) (hpre.subset (List.mem_of_mem_filter hb)) hab
  · exact (hr.nodup.sublist hpre).filter _

theorem lookup_congr {b b0 : Bucket} (h : b.objects = b0.objects) (key : String) :
    b.lookup key = b0.lookup key := by
  unfold Bucket.lookup
  rw [h]

/-- The completion of a fetch task keeps the invariant of the restore. -/
theorem FetchInv_finish (env : Env) (d0 : List Byte) (b0 : Bucket) (all pre : List Chunkmeta)
    (hr : RangesOk d0.length b0 all) (hpre : pre.Sublist all)
    (k : Nat) (g : Group DownloadTask) (w : File × Bucket) (t : DownloadTask)
    (hk : g.pending[k]? = some t)
    (h : FetchInv env d0 b0 all pre g w.1.data w.2) :
    FetchInv env d0 b0 all pre (g.finish k t (runDownloadTask env t w).1)
      (runDownloadTask env t w).2.1.data (runDownloadTask env t w).2.2 := by
  obtain ⟨hlen, hsub, hperm, hcalls, hobj, herr, hok, hwr, hun⟩ := h
  -- the task is the fetch task of an examined chunk, and has not completed before
  have htp : t ∈ g.pending := Group.mem_pending_of_getElem? hk
  have hts : t ∈ g.submitted := hperm.symm.subset (List.mem_append_right _ htp)
  rw [hsub, List.mem_map] at hts
  obtain ⟨c', hc'f, rfl⟩ := hts
  have hc'all : c' ∈ all := hpre.subset (List.mem_of_mem_filter hc'f)
  have hnd : (g.finished.map Prod.fst ++ g.pending).Nodup := by
    rw [← hperm.nodup_iff, hsub]
    exact submitted_nodup hr hpre d0
  have hnotfin : fetchOf c' ∉ g.finished.map Prod.fst := by
    intro hc
    exact (List.nodup_append.mp hnd).2.2 hc htp
  obtain ⟨hgeo1, hgeo2, _⟩ := hr.2.1 c' hc'all
  have hcallslen : w.2.calls.length = b0.calls.length + g.finished.length := by
    rw [hcalls, List.length_append, List.length_map]
  have hlook : ∀ key, w.2.lookup key = b0.lookup key := lookup_congr hobj
  obtain ⟨s1, s2, s3⟩ := runDownloadTask_cases env (fetchOf c') w
  -- the clauses that do not depend on the outcome
  have hperm' : (g.finish k (fetchOf c') (runDownloadTask env (fetchOf c') w).1).submitted.Perm
      ((g.finish k (fetchOf c') (runDownloadTask env (fetchOf c') w).1).finished.map Prod.fst ++
        (g.finish k (fetchOf c') (runDownloadTask env (fetchOf c') w).1).pending) := by
    simp only [Group.finish, List.map_append, List.map_cons, List.map_nil,
      List.append_assoc, List.singleton_append]
    exact hperm.trans ((perm_cons_eraseIdx hk).symm.append_left _)
  have hcalls' : (runDownloadTask env (fetchOf c') w).2.2.calls = b0.calls ++
      (g.finish k (fetchOf c') (runDownloadTask env (fetchOf c') w).1).finished.map
        (fun p => StoreCall.read p.1.blobPath) := by
    rw [s1, hcalls]
    simp [Group.finish]
  have herr' : ((g.finish k (fetchOf c') (runDownloadTask env (fetchOf c') w).1).err = none ↔
      ∀ p ∈ (g.finish k (fetchOf c') (runDownloadTask env (fetchOf c') w).1).finished,
        p.2 = none) := by
    simp only [Group.finish, List.mem_append, List.mem_singleton]
    constructor
    · intro he p hp
      cases hge : g.err with
      | some e0 => rw [hge] at he; simp at he
      | none =>
        rw [hge] at he
        simp only [Option.isSome_none, Bool.false_eq_true, if_false] at he
        rcases hp with hp | rfl
        · exact (herr.mp hge) p hp
        · exact he
    · intro hall
      have hge : g.err = none := herr.mpr (fun p hp => hall p (Or.inl hp))
      rw [hge]
      simp only [Option.isSome_none, Bool.false_eq_true, if_false]
      exact hall (_, _) (Or.inr rfl)
  have hok' : ∀ i p,
      (g.finish k (fetchOf c') (runDownloadTask env (fetchOf c') w).1).finished[i]? = some p →
      (p.2 = none ↔
        env.fault (b0.calls.length + i) = false ∧ (b0.lookup p.1.blobPath).isSome = true) := by
    intro i p hp
    simp only [Group.finish] at hp
    by_cases hi : i < g.finished.length
    · rw [List.getElem?_append_left hi] at hp
      exact hok i p hp
    · rw [List.getElem?_append_right (by omega)] at hp
      have hi0 : i - g.finished.length = 0 := by
        by_contra hne
        rw [List.getElem?_eq_none (by simp; omega)] at hp
        simp at hp
      rw [hi0] at hp
      simp only [List.getElem?_cons_zero, Option.some.injEq] at hp
      subst hp
      have hidx : b0.calls.length + i = w.2.calls.length := by omega
      rw [hidx, ← hlook]
      simp only
      rcases s3 with ⟨x, f1, f2, f3, _⟩ | ⟨f1, f2, _⟩
      · rw [f3, f1, f2]
        simp
      · constructor
        · intro hc; exact absurd hc f2
        · intro ⟨hc1, hc2⟩
          rcases f1 with f1 | f1
          · rw [f1] at hc1; simp at hc1
          · rw [f1] at hc2; simp at hc2
  rcases s3 with ⟨x, f1, f2, f3, f4⟩ | ⟨f1, f2, f3⟩
  · -- the read succeeded: the blob is written at the offset of the chunk
    have hxb : b0.lookup (c'.Content ++ ".blob") = some x := by rw [← hlook]; exact f2
    have hxlen := hr.2.2.2 c' hc'all x hxb
    have hfit : c'.Start + x.length ≤ w.1.data.length := by rw [hlen]; omega
    have hdata : (runDownloadTask env (fetchOf c') w).2.1.data
        = w.1.data.take c'.Start ++ x ++ w.1.data.drop (c'.Start + x.length) := by
      rw [f4]
      exact Write_data w.1 c'.Start x hfit
    refine ⟨?_, hsub, hperm', hcalls', by rw [s2, hobj], herr', hok', ?_, ?_⟩
    · rw [hdata, (getElem?_written w.1.data x c'.Start 0 hfit).1, hlen]
    · intro c hc hfin
      simp only [Group.finish, List.mem_append, List.mem_singleton] at hfin
      rcases hfin with hfin | hfin
      · obtain ⟨y, hy1, hy2⟩ := hwr c hc hfin
        have hne : c ≠ c' := by
          rintro rfl
          exact hnotfin (List.mem_map_of_mem Prod.fst hfin)
        have hylen := hr.2.2.2 c hc y hy1
        have hsep := hr.sep hc hc'all hne
        have hgc := (hr.2.1 c hc).1
        refine ⟨y, hy1, ?_⟩
        rw [hdata, region_written_other w.1.data x c'.Start c.Start y.length hfit (by omega)]
        exact hy2
      · injection hfin with hfin1 _
        have hcc : c = c' := hr.inj hc hc'all hfin1
        subst hcc
        refine ⟨x, hxb, ?_⟩
        rw [hdata]
        exact region_written_self w.1.data x c.Start hfit
    · intro k' hk'
      have hout : ¬ (c'.Start ≤ k' ∧ k' < c'.Start + x.length) := by
        apply hk' c' hc'all _ x hxb
        simp only [Group.finish, List.mem_append, List.mem_singleton]
        right
        rw [f3]
      rw [hdata, (getElem?_written w.1.data x c'.Start k' hfit).2]
      have hold := hun k' (fun c hc hfin => hk' c hc (by
        simp only [Group.finish, List.mem_append]
        exact Or.inl hfin))
      by_cases h1 : k' < c'.Start
      · rw [if_pos h1]; exact hold
      · rw [if_neg h1, if_neg (by omega)]; exact hold
  · -- the read failed: the file is left as it is
    refine ⟨by rw [f3]; exact hlen, hsub, hperm', hcalls', by rw [s2, hobj], herr', hok', ?_, ?_⟩
    · intro c hc hfin
      simp only [Group.finish, List.mem_append, List.mem_singleton] at hfin
      rcases hfin with hfin | hfin
      · rw [f3]
        exact hwr c hc hfin
      · injection hfin with _ hfin2
        exact absurd hfin2.symm f2
    · intro k' hk'
      rw [f3]
      exact hun k' (fun c hc hfin => hk' c hc (by
        simp only [Group.finish, List.mem_append]
        exact Or.inl hfin))

/-- A chunk whose blob has not been written reads as it did in the sized
destination. -/
theorem FetchInv_region (env : Env) (d0 : List Byte) (b0 : Bucket) (all pre : List Chunkmeta)
    (g : Group DownloadTask) (d : List Byte) (b : Bucket)
    (hr : RangesOk d0.length b0 all) (h : FetchInv env d0 b0 all pre g d b)
    (c : Chunkmeta) (hc : c ∈ all) (hnot : (fetchOf c, none) ∉ g.finished) :
    chunkRegion d c = chunkRegion d0 c := by
  obtain ⟨_, _, _, _, _, _, _, _, hun⟩ := h
  unfold chunkRegion
  apply List.ext_getElem?
  intro m
  rw [getElem?_region, getElem?_region]
  by_cases hm : m < c.End + 1 - c.Start
  · rw [if_pos hm, if_pos hm]
    apply hun
    intro c2 hc2 hfin x hx
    have hne : c2 ≠ c := by
      rintro rfl
      exact hnot hfin
    have hsep := hr.sep hc2 hc hne
    have hxlen := hr.2.2.2 c2 hc2 x hx
    have hg2 := (hr.2.1 c2 hc2).1
    have hg := (hr.2.1 c hc).1
    omega
  · rw [if_neg hm, if_neg hm]

/-- A completed task is the fetch task of an examined chunk that needed one. -/
theorem FetchInv_finished_mem (env : Env) (d0 : List Byte) (b0 : Bucket)
    (all pre : List Chunkmeta) (g : Group DownloadTask) (d : List Byte) (b : Bucket)
    (hr : RangesOk d0.length b0 all) (hpre : pre.Sublist all)
    (h : FetchInv env d0 b0 all pre g d b)
    (c : Chunkmeta) (hc : c ∈ all) (e : Option Err) (hfin : (fetchOf c, e) ∈ g.finished) :
    c ∈ pre ∧ needsFetch d0 c = true := by
  obtain ⟨_, hsub, hperm, _⟩ := h
  have hs : fetchOf c ∈ g.submitted :=
    hperm.symm.subset (List.mem_append_left _ (List.mem_map_of_mem Prod.fst hfin))
  rw [hsub, List.mem_map] at hs
  obtain ⟨a, ha, hac⟩ := hs
  have haall : a ∈ all := hpre.subset (List.mem_of_mem_filter ha)
  have := hr.inj haall hc hac
  subst this
  exact ⟨List.mem_of_mem_filter ha, (List.mem_filter.mp ha).2⟩

/-- The iteration for the next chunk of the manifest does not stop the run and
keeps the invariant of the restore, with that chunk examined. -/
theorem FetchInv_chunk (env : Env) (d0 : List Byte) (b0 : Bucket)
    (pre : List Chunkmeta) (c : Chunkmeta) (cs : List Chunkmeta)
    (hr : RangesOk d0.length b0 (pre ++ c :: cs)) (j : Nat) (st : DownloadState)
    (h : FetchInv env d0 b0 (pre ++ c :: cs) pre st.eg st.f.data st.bucket) :
    (downloadChunk env j c st).2 = none ∧
    FetchInv env d0 b0 (pre ++ c :: cs) (pre ++ [c]) (downloadChunk env j c st).1.eg
      (downloadChunk env j c st).1.f.data (downloadChunk env j c st).1.bucket := by
  have hpre : pre.Sublist (pre ++ c :: cs) := List.sublist_append_left _ _
  have hcall : c ∈ pre ++ c :: cs := List.mem_append_right _ (List.mem_cons_self _ _)
  have hc := Group.completeAll_inv (runDownloadTask env)
    (fun g w => FetchInv env d0 b0 (pre ++ c :: cs) pre g w.1.data w.2)
    (fun k g w t hk hP => FetchInv_finish env d0 b0 _ pre hr hpre k g w t hk hP)
    (env.sched j) st.eg (st.f, st.bucket) h
  obtain ⟨hg1, hg2, hg4⟩ := hr.2.1 c hcall
  have clen := hc.1
  have hd := downloadChunk_eq env j c st hg1 (by rw [clen]; exact hg2)
    (by rw [clen]; exact hr.1) hg4
  -- the chunk has not been examined before
  have hcpre : c ∉ pre := by
    have hnd := hr.nodup
    rw [List.nodup_append] at hnd
    intro hin
    exact hnd.2.2 hin (List.mem_cons_self _ _)
  have hnot : (fetchOf c, none) ∉
      (st.eg.completeAll (runDownloadTask env) (env.sched j) (st.f, st.bucket)).1.finished :=
    fun hfin => hcpre (FetchInv_finished_mem env d0 b0 _ pre _ _ _ hr hpre hc c hcall none hfin).1
  have hreg := FetchInv_region env d0 b0 _ pre _ _ _ hr hc c hcall hnot
  rw [hd]
  refine ⟨rfl, ?_⟩
  simp only
  rw [hreg]
  obtain ⟨_, csub, cperm, ccalls, cobj, cerr, cok, cwr, cun⟩ := hc
  by_cases hn : isEmptyChunk (chunkRegion d0 c) = true ∧ c.IsEmpty = false
  · rw [if_pos hn]
    have hnf : needsFetch d0 c = true := by
      unfold needsFetch
      rw [hn.1, hn.2]
      rfl
    refine ⟨clen, ?_, ?_, ccalls, cobj, cerr, cok, cwr, cun⟩
    · simp only [Group.Go, csub, List.filter_append, List.map_append]
      rw [List.filter_cons_of_pos hnf]
      rfl
    · simp only [Group.Go]
      rw [← List.append_assoc]
      exact cperm.append_right _
  · rw [if_neg hn]
    have hnf : needsFetch d0 c = false := by
      unfold needsFetch
      by_cases h1 : isEmptyChunk (chunkRegion d0 c) = true
      · have h2 : c.IsEmpty = true := by
          by_contra h2
          exact hn ⟨h1, by simpa using h2⟩
        rw [h1, h2]
        rfl
      · simp only [Bool.not_eq_true] at h1
        rw [h1]
        rfl
    refine ⟨clen, ?_, cperm, ccalls, cobj, cerr, cok, cwr, cun⟩
    rw [csub, List.filter_append, List.filter_cons_of_neg (by simp [hnf])]
    simp

/-- The loop over the chunks still to examine does not stop the run and keeps
the invariant of the restore, with every chunk examined. -/
theorem FetchInv_loop (env : Env) (d0 : List Byte) (b0 : Bucket) (all : List Chunkmeta)
    (hr : RangesOk d0.length b0 all) (cs pre : List Chunkmeta) (hall : pre ++ cs = all)
    (j : Nat) (st : DownloadState)
    (h : FetchInv env d0 b0 all pre st.eg st.f.data st.bucket) :
    (downloadLoop env cs j st).2 = none ∧
    FetchInv env d0 b0 all all (downloadLoop env cs j st).1.eg
      (downloadLoop env cs j st).1.f.data (downloadLoop env cs j st).1.bucket := by
  induction cs generalizing pre j st with
  | nil =>
    rw [List.append_nil] at hall
    subst hall
    exact ⟨rfl, h⟩
  | cons c cs ih =>
    subst hall
    obtain ⟨c1, c2⟩ := FetchInv_chunk env d0 b0 pre c cs hr j st h
    rw [downloadLoop]
    cases hu : downloadChunk env j c st with
    | mk s a =>
      rw [hu] at c1 c2
      simp only at c1 c2
      subst c1
      simp only
      exact ih (pre ++ [c]) (by simp) (j + 1) s c2

theorem sizedTo_length (data : List Byte) (size : Int) :
    (sizedTo data size).length = size.toNat := by
  unfold sizedTo
  rw [List.length_append, List.length_take, List.length_replicate]
  omega

theorem Truncate_sized (data : List Byte) (size : Int) (h : 0 ≤ size) :
    File.Truncate { data := data, pos := 0 } size
      = some { data := sizedTo data size, pos := 0 } := by
  unfold File.Truncate sizedTo
  rw [if_neg (by omega)]

/-- A restore from a manifest whose ranges are as assumed examines every chunk,
waits for its pool and ends with the invariant of the restore. -/
theorem download_run (env : Env) (data : List Byte) (bucket : Bucket) (fm : Filemeta)
    (h0 : 0 ≤ fm.TotalSize)
    (hr : RangesOk (sizedTo data fm.TotalSize).length bucket fm.Chunks) :
    FetchInv env (sizedTo data fm.TotalSize) bucket fm.Chunks fm.Chunks
      (downloadFileFromChunks env (some data) bucket fm).eg
      (downloadFileFromChunks env (some data) bucket fm).f.data
      (downloadFileFromChunks env (some data) bucket fm).bucket ∧
    (downloadFileFromChunks env (some data) bucket fm).eg.pending = [] ∧
    (((downloadFileFromChunks env (some data) bucket fm).abort = none ∧
        (downloadFileFromChunks env (some data) bucket fm).eg.err = none) ∨
      ((downloadFileFromChunks env (some data) bucket fm).abort = some Abort.exit1 ∧
        (downloadFileFromChunks env (some data) bucket fm).eg.err ≠ none)) := by
  have hinit : FetchInv env (sizedTo data fm.TotalSize) bucket fm.Chunks []
      (Group.New : Group DownloadTask) (sizedTo data fm.TotalSize) bucket := by
    refine ⟨rfl, rfl, ?_, ?_, rfl, ?_, ?_, ?_, ?_⟩
    · simp [Group.New]
    · simp [Group.New]
    · simp [Group.New]
    · intro i p hp
      simp [Group.New] at hp
    · intro c _ hfin
      simp [Group.New] at hfin
    · intro k _
      rfl
  obtain ⟨l1, l2⟩ := FetchInv_loop env (sizedTo data fm.TotalSize) bucket fm.Chunks hr
    fm.Chunks [] rfl 0
    { f := { data := sizedTo data fm.TotalSize, pos := 0 }, eg := Group.New, bucket := bucket }
    hinit
  unfold downloadFileFromChunks
  simp only [Truncate_sized data fm.TotalSize h0]
  cases hu : downloadLoop env fm.Chunks 0
      { f := { data := sizedTo data fm.TotalSize, pos := 0 }, eg := Group.New,
        bucket := bucket } with
  | mk st a =>
    rw [hu] at l1 l2
    simp only at l1 l2
    subst l1
    simp only
    have hstep : ∀ k g (w : File × Bucket) t, g.pending[k]? = some t →
        FetchInv env (sizedTo data fm.TotalSize) bucket fm.Chunks fm.Chunks g w.1.data w.2 →
        FetchInv env (sizedTo data fm.TotalSize) bucket fm.Chunks fm.Chunks
          (g.finish k t (runDownloadTask env t w).1) (runDownloadTask env t w).2.1.data
          (runDownloadTask env t w).2.2 :=
      fun k g w t hk hP => FetchInv_finish env _ bucket _ _ hr (List.Sublist.refl _) k g w t hk hP
    have hw1 := Group.completeAll_inv (runDownloadTask env)
      (fun g w => FetchInv env (sizedTo data fm.TotalSize) bucket fm.Chunks fm.Chunks
        g w.1.data w.2)
      hstep (env.sched fm.Chunks.length) st.eg (st.f, st.bucket) l2
    have hw2 := Group.Wait_inv (runDownloadTask env)
      (fun g w => FetchInv env (sizedTo data fm.TotalSize) bucket fm.Chunks fm.Chunks
        g w.1.data w.2)
      hstep _ _ hw1
    have hpend := Group.Wait_pending (runDownloadTask env)
      (st.eg.completeAll (runDownloadTask env) (env.sched fm.Chunks.length)
        (st.f, st.bucket)).1
      (st.eg.completeAll (runDownloadTask env) (env.sched fm.Chunks.length)
        (st.f, st.bucket)).2
    have hfst := Group.Wait_fst (runDownloadTask env)
      (st.eg.completeAll (runDownloadTask env) (env.sched fm.Chunks.length)
        (st.f, st.bucket)).1
      (st.eg.completeAll (runDownloadTask env) (env.sched fm.Chunks.length)
        (st.f, st.bucket)).2
    generalize Group.Wait (runDownloadTask env)
      (st.eg.completeAll (runDownloadTask env) (env.sched fm.Chunks.length)
        (st.f, st.bucket)).1
      (st.eg.completeAll (runDownloadTask env) (env.sched fm.Chunks.length)
        (st.f, st.bucket)).2 = W at hw2 hpend hfst ⊢
    cases hW : W.1 with
    | none =>
      simp only
      exact ⟨hw2, hpend, Or.inl ⟨trivial, by rw [← hfst, hW]⟩⟩
    | some e =>
      simp only
      refine ⟨hw2, hpend, Or.inr ⟨trivial, ?_⟩⟩
      rw [← hfst, hW]
      simp

/-! ## Restore: the decision for every chunk -/

/-- C5, as the code has it. Restore per-chunk decision, over a whole run. For
every manifest whose ranges lie within `[0, TotalSize)`, are pairwise disjoint
and at most `maxRW` bytes long, every content of the destination, every bucket
whose blob for a chunk is no longer than the chunk, every completion order and
every pattern of failing transfers: (1) every chunk is examined and the pool is
waited for: the run returns normally or exits with status 1; (2) the tasks
submitted are, in the order of the manifest, one for each chunk whose bytes at
`[Start, End]` in the sized destination are all zero and whose `IsEmpty` is
false, for the key `Content + ".blob"` and the offset `Start`, and none for any
other chunk; (3) every submitted task completes, once; (4) the store calls are
one `read` per completed task, on its key, and nothing else, and the bucket
keeps its objects; (5) the task completed `i`-th succeeds exactly when its
transfer does not fail and the bucket holds its key; (6) the run returns
normally exactly when every task succeeded; (7) the file keeps its length; (8)
for a chunk that was to be fetched, the fetched bytes stand at offset `Start`
if its task succeeded, and the bytes of the chunk are unchanged if it failed;
(9) the bytes of every other chunk (zero bytes with `IsEmpty` true, or
non-zero bytes whatever their digest) are unchanged; (10) every byte outside
the blobs written is unchanged. -/
theorem download_chunk_decision (env : Env) (data : List Byte) (bucket : Bucket) (fm : Filemeta)
    (h0 : 0 ≤ fm.TotalSize) (h63 : fm.TotalSize < 2 ^ 63)
    (hgeo : ∀ c ∈ fm.Chunks, c.Start ≤ c.End ∧ (c.End : Int) < fm.TotalSize ∧
      c.End + 1 - c.Start ≤ maxRW)
    (hdisj : fm.Chunks.Pairwise (fun a b => a.End < b.Start ∨ b.End < a.Start))
    (hblob : ∀ c ∈ fm.Chunks, ∀ x, bucket.lookup (c.Content ++ ".blob") = some x →
      x.length ≤ c.End + 1 - c.Start) :
    ((downloadFileFromChunks env (some data) bucket fm).abort = none ∨
      (downloadFileFromChunks env (some data) bucket fm).abort = some Abort.exit1) ∧
    (downloadFileFromChunks env (some data) bucket fm).eg.submitted =
      (fm.Chunks.filter (needsFetch (sizedTo data fm.TotalSize))).map fetchOf ∧
    (downloadFileFromChunks env (some data) bucket fm).eg.pending = [] ∧
    ((downloadFileFromChunks env (some data) bucket fm).eg.finished.map Prod.fst).Perm
      (downloadFileFromChunks env (some data) bucket fm).eg.submitted ∧
    (downloadFileFromChunks env (some data) bucket fm).bucket.calls =
      bucket.calls ++ (downloadFileFromChunks env (some data) bucket fm).eg.finished.map
        (fun p => StoreCall.read p.1.blobPath) ∧
    (downloadFileFromChunks env (some data) bucket fm).bucket.objects = bucket.objects ∧
    (∀ i p, (downloadFileFromChunks env (some data) bucket fm).eg.finished[i]? = some p →
      (p.2 = none ↔ env.fault (bucket.calls.length + i) = false ∧
        (bucket.lookup p.1.blobPath).isSome = true)) ∧
    ((downloadFileFromChunks env (some data) bucket fm).abort = none ↔
      ∀ p ∈ (downloadFileFromChunks env (some data) bucket fm).eg.finished, p.2 = none) ∧
    (downloadFileFromChunks env (some data) bucket fm).f.data.length
      = (sizedTo data fm.TotalSize).length ∧
    (∀ c ∈ fm.Chunks, needsFetch (sizedTo data fm.TotalSize) c = true →
      ∃ e, (fetchOf c, e) ∈ (downloadFileFromChunks env (some data) bucket fm).eg.finished ∧
        (e = none → ∃ x, bucket.lookup (c.Content ++ ".blob") = some x ∧
          ((downloadFileFromChunks env (some data) bucket fm).f.data.drop c.Start).take x.length
            = x) ∧
        (e ≠ none → chunkRegion (downloadFileFromChunks env (some data) bucket fm).f.data c
          = chunkRegion (sizedTo data fm.TotalSize) c)) ∧
    (∀ c ∈ fm.Chunks, needsFetch (sizedTo data fm.TotalSize) c = false →
      chunkRegion (downloadFileFromChunks env (some data) bucket fm).f.data c
        = chunkRegion (sizedTo data fm.TotalSize) c) ∧
    (∀ k, (∀ c ∈ fm.Chunks,
        (fetchOf c, none) ∈ (downloadFileFromChunks env (some data) bucket fm).eg.finished →
        ∀ x, bucket.lookup (c.Content ++ ".blob") = some x →
          ¬ (c.Start ≤ k ∧ k < c.Start + x.length)) →
      (downloadFileFromChunks env (some data) bucket fm).f.data[k]?
        = (sizedTo data fm.TotalSize)[k]?) := by
  have hlen := sizedTo_length data fm.TotalSize
  have hr : RangesOk (sizedTo data fm.TotalSize).length bucket fm.Chunks := by
    refine ⟨by rw [hlen]; omega, ?_, hdisj, hblob⟩
    intro c hc
    obtain ⟨g1, g2, g3⟩ := hgeo c hc
    exact ⟨g1, by rw [hlen]; omega, g3⟩
  obtain ⟨hinv, hpend, hab⟩ := download_run env data bucket fm h0 hr
  have hinv' := hinv
  obtain ⟨ilen, isub, iperm, icalls, iobj, ierr, iok, iwr, iun⟩ := hinv
  have hperm : ((downloadFileFromChunks env (some data) bucket fm).eg.finished.map Prod.fst).Perm
      (downloadFileFromChunks env (some data) bucket fm).eg.submitted := by
    have := iperm.symm
    rw [hpend, List.append_nil] at this
    exact this
  have hnd : ((downloadFileFromChunks env (some data) bucket fm).eg.finished.map Prod.fst).Nodup := by
    rw [hperm.nodup_iff, isub]
    exact submitted_nodup hr (List.Sublist.refl _) _
  refine ⟨?_, isub, hpend, hperm, icalls, iobj, iok, ?_, ilen, ?_, ?_, iun⟩
  · rcases hab with h | h
    · exact Or.inl h.1
    · exact Or.inr h.1
  · rcases hab with h | h
    · constructor
      · intro _
        exact ierr.mp h.2
      · intro _
        exact h.1
    · constructor
      · intro hc
        rw [h.1] at hc
        simp at hc
      · intro hall
        exact absurd (ierr.mpr hall) h.2
  · intro c hc hneed
    have hs : fetchOf c ∈ (downloadFileFromChunks env (some data) bucket fm).eg.submitted := by
      rw [isub]
      exact List.mem_map_of_mem _ (List.mem_filter.mpr ⟨hc, hneed⟩)
    have hf := hperm.symm.subset hs
    rw [List.mem_map] at hf
    obtain ⟨p, hp, hpc⟩ := hf
    refine ⟨p.2, by rw [← hpc]; exact hp, ?_, ?_⟩
    · intro he
      apply iwr c hc
      rw [← hpc, ← he]
      exact hp
    · intro he
      apply FetchInv_region env _ bucket _ _ _ _ _ hr hinv' c hc
      intro hfin
      have := List.inj_on_of_nodup_map hnd hp hfin (by rw [hpc])
      exact he (by rw [this])
  · intro c hc hneed
    apply FetchInv_region env _ bucket _ _ _ _ _ hr hinv' c hc
    intro hfin
    have := (FetchInv_finished_mem env _ bucket _ _ _ _ _ hr (List.Sublist.refl _) hinv' c hc
      none hfin).2
    rw [hneed] at this
    simp at this

set_option maxRecDepth 100000 in
/-- C5, witness: `mixedManifest` over `mixedDest` with a bucket that holds the
blob `1, 2, 3`. The first and the last chunk are fetched, one `read` each; the
chunk flagged empty and the chunk with non-zero bytes of another digest are
left alone. -/
theorem download_chunk_decision_witness :
    (downloadFileFromChunks quietEnv (some mixedDest) prefilledBucket mixedManifest).eg.submitted
      = [{ blobPath := "7037807198c22a7d2b0807371d763779a84fdfcf.blob", blobStart := 0 },
         { blobPath := "7037807198c22a7d2b0807371d763779a84fdfcf.blob", blobStart := 8 }] ∧
    (downloadFileFromChunks quietEnv (some mixedDest) prefilledBucket mixedManifest).abort = none ∧
    (downloadFileFromChunks quietEnv (some mixedDest) prefilledBucket mixedManifest).bucket.calls
      = [StoreCall.read "7037807198c22a7d2b0807371d763779a84fdfcf.blob",
         StoreCall.read "7037807198c22a7d2b0807371d763779a84fdfcf.blob"] ∧
    (downloadFileFromChunks quietEnv (some mixedDest) prefilledBucket mixedManifest).f.data
      = [1, 2, 3, 0, 0, 9, 9, 9, 1, 2, 3] := by
  have h := download_chunk_decision quietEnv mixedDest prefilledBucket mixedManifest
    (by decide) (by decide) (by decide) (by decide)
    (by
      have hall : ∀ c ∈ mixedManifest.Chunks,
          prefilledBucket.lookup (c.Content ++ ".blob") = none ∨
          (prefilledBucket.lookup (c.Content ++ ".blob") = some [1, 2, 3] ∧
            3 ≤ c.End + 1 - c.Start) := by decide
      intro c hc x hx
      rcases hall c hc with h1 | ⟨h1, h2⟩
      · rw [h1] at hx
        exact absurd hx (by simp)
      · rw [h1] at hx
        injection hx with hx
        subst hx
        exact h2)
  refine ⟨?_, by decide, by decide, by decide⟩
  rw [h.2.1]
  decide

/-! ## Restore: runs on which the decision is another -/

theorem sizedTo_self (data : List Byte) : sizedTo data (data.length : Int) = data := by
  unfold sizedTo
  simp

/-- A read of more than `maxRW` bytes at the start of a file that holds them
fills the first `maxRW` bytes of the buffer and leaves the rest zero. -/
theorem Read_capped (data : List Byte) (n : Nat) (h1 : maxRW ≤ n) (h2 : maxRW ≤ data.length) :
    File.Read { data := data, pos := 0 } n
      = (data.take maxRW ++ List.replicate (n - maxRW) 0, maxRW, false,
          { data := data, pos := maxRW }) := by
  have hpos : 0 < maxRW := by decide
  unfold File.Read
  simp only [List.drop_zero, Nat.min_eq_right h1, List.length_take, Nat.min_eq_left h2,
    Nat.zero_add]
  have hd : decide (0 < n ∧ maxRW = 0) = false := by
    rw [decide_eq_false_iff_not]
    omega
  rw [hd]

/-- The bucket a restore of a manifest of one chunk leaves, when the iteration
for the chunk does not stop the run. -/
theorem download_one_chunk (env : Env) (data : List Byte) (bucket : Bucket) (fm : Filemeta)
    (c : Chunkmeta) (f0 : File) (st1 : DownloadState) (hc : fm.Chunks = [c])
    (ht : File.Truncate { data := data, pos := 0 } fm.TotalSize = some f0)
    (h1 : downloadChunk env 0 c { f := f0, eg := Group.New, bucket := bucket } = (st1, none)) :
    (downloadFileFromChunks env (some data) bucket fm).bucket =
      ((st1.eg.completeAll (runDownloadTask env) (env.sched 1) (st1.f, st1.bucket)).1.Wait
        (runDownloadTask env)
        (st1.eg.completeAll (runDownloadTask env) (env.sched 1) (st1.f, st1.bucket)).2).2.2.2 := by
  have hloop : downloadLoop env fm.Chunks 0 { f := f0, eg := Group.New, bucket := bucket }
      = (st1, none) := by
    rw [hc, downloadLoop, h1]
    rfl
  unfold downloadFileFromChunks
  simp only [ht]
  rw [hloop]
  simp only [hc, List.length_singleton, Nat.zero_add]
  split <;> rfl

/-- The restore of a manifest of one chunk of `n + 1 = maxRW + 1` bytes, flagged
as not empty, over a destination whose first `n` bytes are zero and whose last
byte is `1`: the chunk does not read as all zero, yet the blob is fetched. -/
theorem download_past_maxRW (n : Nat) (hn : n = maxRW) (fm : Filemeta) (key : String)
    (ht : fm.TotalSize = (n : Int) + 1)
    (hc : fm.Chunks = [{ Start := 0, End := n, Content := key, IsEmpty := false }]) :
    isEmptyChunk (chunkRegion (List.replicate n 0 ++ [1])
      { Start := 0, End := n, Content := key, IsEmpty := false }) = false ∧
    (downloadFileFromChunks quietEnv (some (List.replicate n 0 ++ [1])) emptyBucket fm).bucket.calls
      = [StoreCall.read (key ++ ".blob")] := by
  have hrw := maxRW_eq
  have hma := maxAlloc_eq
  have hlen : (List.replicate n (0 : Byte) ++ [1]).length = n + 1 := by
    rw [List.length_append, List.length_replicate, List.length_singleton]
  constructor
  · rw [isEmptyChunk_eq_false_iff]
    refine ⟨1, ?_, by decide⟩
    show (1 : Byte) ∈ ((List.replicate n (0 : Byte) ++ [1]).drop 0).take (n + 1 - 0)
    rw [List.drop_zero, List.take_of_length_le (by rw [hlen]; omega)]
    exact List.mem_append_right _ (List.mem_singleton_self _)
  · have htt : fm.TotalSize = ((List.replicate n (0 : Byte) ++ [1]).length : Int) := by
      rw [hlen, ht]; push_cast; rfl
    have htr := Truncate_sized (List.replicate n (0 : Byte) ++ [1]) fm.TotalSize (by omega)
    rw [htt, sizedTo_self] at htr
    rw [← htt] at htr
    -- the iteration
    have hchunk : downloadChunk quietEnv 0
        { Start := 0, End := n, Content := key, IsEmpty := false }
        { f := { data := List.replicate n 0 ++ [1], pos := 0 }, eg := Group.New, bucket := emptyBucket }
        = ({ f := { data := List.replicate n 0 ++ [1], pos := maxRW },
             eg := (Group.New : Group DownloadTask).Go
               { blobPath := key ++ ".blob", blobStart := 0 },
             bucket := emptyBucket }, none) := by
      unfold downloadChunk
      have hsched : quietEnv.sched 0 = [] := rfl
      simp only [hsched, Group.completeAll]
      have hstart : int64OfU64 0 = 0 := by decide
      have hl := chunk_len (s := 0) (e := n) (Nat.zero_le _) (by omega)
      simp only [hstart, hl, Nat.sub_zero]
      have hseek : File.Seek { data := List.replicate n (0 : Byte) ++ [1], pos := 0 } 0
          = { data := List.replicate n 0 ++ [1], pos := 0 } := by
        unfold File.Seek
        simp
      rw [hseek, if_neg (by omega), Int.toNat_ofNat,
        Read_capped _ (n + 1) (by omega) (by rw [hlen]; omega)]
      have hbuf : isEmptyChunk ((List.replicate n (0 : Byte) ++ [1]).take maxRW
          ++ List.replicate (n + 1 - maxRW) 0) = true := by
        rw [isEmptyChunk_eq_true_iff]
        intro v hv
        rw [← hn, List.take_left' (List.length_replicate _ _)] at hv
        simp only [List.mem_append, List.mem_replicate] at hv
        rcases hv with hv | hv
        · exact hv.2
        · exact hv.2
      simp only [hbuf]
      rw [if_neg (by decide), if_pos trivial, if_neg (by decide)]
    rw [download_one_chunk quietEnv _ emptyBucket fm _ _ _ hc htr hchunk]
    generalize (List.replicate n (0 : Byte) ++ [1]) = D
    generalize maxRW = P
    have hsched : quietEnv.sched 1 = [] := rfl
    simp only [hsched, Group.completeAll]
    simp [Group.Wait, Group.Go, Group.New, Group.completeAll, Group.complete,
      runDownloadTask, readFromGoogleStorage, emptyBucket, quietEnv, Group.finish]

/-- A chunk that is not flagged empty is to be fetched into a destination that
did not hold a byte before it was sized. -/
theorem needsFetch_fresh (size : Int) (c : Chunkmeta) (h : c.IsEmpty = false) :
    needsFetch (sizedTo [] size) c = true := by
  unfold needsFetch
  rw [h]
  simp only [Bool.not_false, Bool.and_true]
  rw [isEmptyChunk_eq_true_iff]
  intro v hv
  unfold chunkRegion at hv
  have hv2 := List.mem_of_mem_drop (List.mem_of_mem_take hv)
  unfold sizedTo at hv2
  simp only [List.take_nil, List.nil_append, List.mem_replicate] at hv2
  exact hv2.2

set_option maxRecDepth 100000 in
/-- C5, counterexample: runs on which the restore does not decide as specified.
(1) The manifest of the file `1, 2, 3` over three zero bytes, a bucket that
holds the blob, and a transfer that fails: the chunk reads as all zero and is
not flagged empty, one `read` is issued, nothing is written and the run exits
with status 1. (2) A second chunk past the end of the file: `log.Fatalf` ends
the run there, and the task of the first chunk, which reads as all zero and is
not flagged empty, is left pending: no `read` is issued. (3) A second chunk that
ends before it starts: `make` panics, with the same effect. (4) Two chunks
that overlap: the first is flagged empty and reads as zero, yet its byte is
changed by the blob written for the second. (5) A blob longer than its chunk:
the bytes of the next chunk, which are not zero, are overwritten. (6) A chunk
of `2^30 + 1` bytes of which only the last is non-zero: one `Read` fills
`2^30` bytes, the buffer reads as all zero and the blob is fetched. (7) A
chunk of `2^48 + 1` bytes over a destination that reads as all zero: `make`
panics and no `read` is issued. -/
theorem download_chunk_decision_fails :
    (needsFetch (sizedTo [0, 0, 0] smallManifest.TotalSize)
        { Start := 0, End := 2, Content := "7037807198c22a7d2b0807371d763779a84fdfcf",
          IsEmpty := false } = true ∧
      (downloadFileFromChunks failingEnv (some [0, 0, 0]) prefilledBucket smallManifest).bucket.calls
        = [StoreCall.read "7037807198c22a7d2b0807371d763779a84fdfcf.blob"] ∧
      (downloadFileFromChunks failingEnv (some [0, 0, 0]) prefilledBucket smallManifest).f.data
        = [0, 0, 0] ∧
      (downloadFileFromChunks failingEnv (some [0, 0, 0]) prefilledBucket smallManifest).abort
        = some Abort.exit1) ∧
    (needsFetch (sizedTo [0, 0, 0] overrunManifest.TotalSize)
        { Start := 0, End := 2, Content := "7037807198c22a7d2b0807371d763779a84fdfcf",
          IsEmpty := false } = true ∧
      (downloadFileFromChunks quietEnv (some [0, 0, 0]) prefilledBucket overrunManifest).abort
        = some Abort.fatal ∧
      (downloadFileFromChunks quietEnv (some [0, 0, 0]) prefilledBucket overrunManifest).eg.pending
        = [{ blobPath := "7037807198c22a7d2b0807371d763779a84fdfcf.blob", blobStart := 0 }] ∧
      (downloadFileFromChunks quietEnv (some [0, 0, 0]) prefilledBucket overrunManifest).bucket.calls
        = [] ∧
      (downloadFileFromChunks quietEnv (some [0, 0, 0]) prefilledBucket overrunManifest).f.data
        = [0, 0, 0]) ∧
    (needsFetch (sizedTo [0, 0, 0] reversedManifest.TotalSize)
        { Start := 0, End := 2, Content := "7037807198c22a7d2b0807371d763779a84fdfcf",
          IsEmpty := false } = true ∧
      (downloadFileFromChunks quietEnv (some [0, 0, 0]) prefilledBucket reversedManifest).abort
        = some Abort.panic ∧
      (downloadFileFromChunks quietEnv (some [0, 0, 0]) prefilledBucket reversedManifest).bucket.calls
        = []) ∧
    (needsFetch (sizedTo [0, 0, 0] overlapManifest.TotalSize)
        { Start := 0, End := 0, Content := "", IsEmpty := true } = false ∧
      chunkRegion (sizedTo [0, 0, 0] overlapManifest.TotalSize)
        { Start := 0, End := 0, Content := "", IsEmpty := true } = [0] ∧
      chunkRegion
        (downloadFileFromChunks quietEnv (some [0, 0, 0]) prefilledBucket overlapManifest).f.data
        { Start := 0, End := 0, Content := "", IsEmpty := true } = [1]) ∧
    (needsFetch (sizedTo [0, 7, 7] spillManifest.TotalSize)
        { Start := 1, End := 2, Content := "0a0b0c0d0e0f101112131415161718191a1b1c1d",
          IsEmpty := false } = false ∧
      chunkRegion (sizedTo [0, 7, 7] spillManifest.TotalSize)
        { Start := 1, End := 2, Content := "0a0b0c0d0e0f101112131415161718191a1b1c1d",
          IsEmpty := false } = [7, 7] ∧
      chunkRegion
        (downloadFileFromChunks quietEnv (some [0, 7, 7]) prefilledBucket spillManifest).f.data
        { Start := 1, End := 2, Content := "0a0b0c0d0e0f101112131415161718191a1b1c1d",
          IsEmpty := false } = [2, 3]) ∧
    (isEmptyChunk (chunkRegion (List.replicate 1073741824 0 ++ [1])
        { Start := 0, End := 1073741824, Content := "7037807198c22a7d2b0807371d763779a84fdfcf",
          IsEmpty := false }) = false ∧
      (downloadFileFromChunks quietEnv (some (List.replicate 1073741824 0 ++ [1])) emptyBucket
        gibChunkManifest).bucket.calls
        = [StoreCall.read "7037807198c22a7d2b0807371d763779a84fdfcf.blob"]) ∧
    (needsFetch (sizedTo [] hugeChunkManifest.TotalSize)
        { Start := 0, End := 281474976710656,
          Content := "7037807198c22a7d2b0807371d763779a84fdfcf", IsEmpty := false } = true ∧
      (downloadFileFromChunks quietEnv (some []) prefilledBucket hugeChunkManifest).abort
        = some Abort.panic ∧
      (downloadFileFromChunks quietEnv (some []) prefilledBucket hugeChunkManifest).bucket.calls
        = []) := by
  have e : ("7037807198c22a7d2b0807371d763779a84fdfcf" ++ ".blob" : String)
      = "7037807198c22a7d2b0807371d763779a84fdfcf.blob" := by decide
  have h := download_past_maxRW 1073741824 (by decide) gibChunkManifest
    "7037807198c22a7d2b0807371d763779a84fdfcf" (by decide) rfl
  rw [e] at h
  exact ⟨by decide, by decide, by decide, by decide, by decide, h,
    needsFetch_fresh _ _ rfl, by decide, by decide⟩

end Pitreos
